import Mathlib

/-!
# LED network control server (`led_network_control.c`)

A shallow embedding of the single-threaded TCP command server of
`emcraft/app/led_network_control/src/led_network_control.c`.

* C strings and the three libc primitives the program uses (`strlen`, `strcmp`,
  `memcmp`) work on lists of bytes; a list stands for the memory from a pointer
  on, and the byte after its end reads as NUL.
* The outside world (client socket, transport, GPIO driver) is a script of
  answers held in `World`; every external call appends an `Event` to the trace.
  A call whose script is exhausted does not return: the program stays blocked in
  it, which the model reports as `none` (or `Step.stuck`).
* The `printf` calls are left out, and so is the start-up of `main` (GPIO
  configuration, `socket`, `bind`, `listen`): the model begins at the accept loop.
-/

namespace LedNetworkControl

/-- One `char` of C memory. -/
abbrev Byte := Nat

/-- The bytes of an ASCII string literal, without its terminating NUL. -/
def ascii (s : String) : List Byte := s.toList.map Char.toNat

/-- The C string a pointer designates: the bytes before the first NUL. -/
def cstr (p : List Byte) : List Byte := p.takeWhile (fun c => c ≠ 0)

/-- `strlen(p)`. -/
def strlen : List Byte → Nat
  | [] => 0
  | c :: p => if c = 0 then 0 else strlen p + 1

/-- `strcmp(a, b)`: the difference of the first pair of bytes that differ, 0 when
both strings end together. -/
def strcmp : List Byte → List Byte → Int
  | [], [] => 0
  | [], b :: _ => 0 - (b : Int)
  | a :: _, [] => (a : Int) - 0
  | a :: as, b :: bs =>
    if a ≠ b then (a : Int) - (b : Int) else if a = 0 then 0 else strcmp as bs

/-- `memcmp(a, b, n)`: compares the first `n` bytes in order and stops at the
first pair that differs. -/
def memcmp : List Byte → List Byte → Nat → Int
  | _, _, 0 => 0
  | a, b, n + 1 =>
    if a.headD 0 = b.headD 0 then memcmp a.tail b.tail n
    else (a.headD 0 : Int) - (b.headD 0 : Int)

/-- What the client socket holds for one `recv`: bytes that arrived (none at all
is the orderly shutdown of the peer), or a transport error. -/
inductive Delivery where
  | data (bytes : List Byte)
  | error
  deriving DecidableEq, Repr

/-- The external calls of the program, with what they returned. -/
inductive Event where
  | accept (ret : Int)
  | recv (ret : Int) (bytes : List Byte)
  | send (bytes : List Byte) (ret : Int)
  | gpio_pin_set (i : Nat) (value : Int) (ret : Int)
  | close
  deriving DecidableEq, Repr

/-- The state the program runs in: the scripts of the environment, the static
receive buffer of `get_request`, and the trace of external calls so far. -/
structure World where
  /-- pending deliveries on the client socket -/
  sock : List Delivery
  /-- return values of the coming `send` calls -/
  sends : List Int
  /-- return values of the coming `gpio_pin_set_dt` calls -/
  sets : List Int
  /-- `static char buf[128]` of `get_request` -/
  buf : List Byte
  trace : List Event
  deriving DecidableEq, Repr

/-- `sizeof(buf)` in `get_request`. -/
def sizeof_buf : Nat := 128

/-- `recv(client, buf, n, 0)`: hands over at most `n` bytes of the delivery at the
head of the socket and leaves the rest of it queued. -/
def recv (w : World) (n : Nat) : World × Option Int :=
  match w.sock with
  | [] => (w, none)
  | Delivery.error :: rest =>
    ({ w with sock := rest, trace := w.trace ++ [Event.recv (-1) []] }, some (-1))
  | Delivery.data d :: rest =>
    ({ w with sock := if d.drop n = [] then rest else Delivery.data (d.drop n) :: rest,
              buf := d.take n ++ w.buf.drop (d.take n).length,
              trace := w.trace ++ [Event.recv (d.take n).length (d.take n)] },
     some (d.take n).length)

/-- The `do ... while (len == 0)` loop of `get_request`; one unit of fuel per
`recv`. -/
def get_request_loop : Nat → World → World × Option Int
  | 0, w => (w, none)
  | fuel + 1, w =>
    match recv w (sizeof_buf - 1) with
    | (w1, none) => (w1, none)
    | (w1, some len) =>
      if len ≤ 0 then (w1, some (-1))
      else
        let len' : Int :=
          if len ≥ 2 ∧ w1.buf.getD (len - 2).toNat 0 = 13
              ∧ w1.buf.getD (len - 1).toNat 0 = 10 then len - 2 else len
        if len' = 0 then get_request_loop fuel w1
        else ({ w1 with buf := w1.buf.set len'.toNat 0 }, some 0)

/-- `get_request(client, &p)`: on success (`some 0`) the request is the C string
at the start of `buf`. Every turn of the loop consumes one delivery, so the
number of queued deliveries is all the fuel the loop can use. -/
def get_request (w : World) : World × Option Int :=
  get_request_loop w.sock.length w

/-- `send(client, p, len, 0)` with `bytes` the `len` bytes at `p`. -/
def send (w : World) (bytes : List Byte) : World × Option Int :=
  match w.sends with
  | [] => (w, none)
  | r :: rest => ({ w with sends := rest, trace := w.trace ++ [Event.send bytes r] }, some r)

/-- The `while (len > 0)` loop of `send_response`; one unit of fuel per `send`. -/
def send_loop (fuel : Nat) (w : World) (p : List Byte) (len : Int) : World × Option Int :=
  if len > 0 then
    match fuel with
    | 0 => (w, none)
    | fuel + 1 =>
      match send w (p.take len.toNat) with
      | (w1, none) => (w1, none)
      | (w1, some out_len) =>
        if out_len < 0 then (w1, some (-1))
        else send_loop fuel w1 (p.drop out_len.toNat) (len - out_len)
  else (w, some 0)

/-- `static char eol[] = "\n"`: the array holds the newline and the NUL. -/
def eol : List Byte := [10, 0]

/-- `sizeof(eol)`. -/
def sizeof_eol : Nat := eol.length

/-- `send_response(client, p)`. -/
def send_response (w : World) (p : List Byte) : World × Option Int :=
  match send_loop w.sends.length w p (strlen p) with
  | (w1, none) => (w1, none)
  | (w1, some r) =>
    if r < 0 then (w1, some (-1))
    else
      match send w1 (eol.take sizeof_eol) with
      | (w2, none) => (w2, none)
      | (w2, some out_len) => if out_len < 0 then (w2, some (-1)) else (w2, some 0)

/-- A `for` loop that calls `send_response` on each string in turn and gives up
at the first failure (the loop of `usage` and the `list` loop of `main`). -/
def send_each : List (List Byte) → World → World × Option Int
  | [], w => (w, some 0)
  | s :: rest, w =>
    match send_response w s with
    | (w1, none) => (w1, none)
    | (w1, some ret) => if ret < 0 then (w1, some (-1)) else send_each rest w1

/-- The array `str` of `usage`. -/
def usage_str : List (List Byte) :=
  [ascii "", ascii "list: print supported LEDs", ascii "<LED> on: turn on the specified LED",
   ascii "<LED> off: turn off the specified LED", ascii ""]

/-- `usage(client)`. -/
def usage (w : World) : World × Option Int := send_each usage_str w

/-- `gpio_pin_set_dt(&dt_led_gpio[i], value)`. -/
def gpio_pin_set_dt (w : World) (i : Nat) (value : Int) : World × Option Int :=
  match w.sets with
  | [] => (w, none)
  | r :: rest =>
    ({ w with sets := rest, trace := w.trace ++ [Event.gpio_pin_set i value r] }, some r)

/-- How the `for` loop over the LEDs in `main` ends: with a final value of `i`
(after a `break` or when the names are used up), by `goto error`, or blocked. -/
inductive Scan where
  | done (i : Nat)
  | error
  | stuck
  deriving DecidableEq, Repr

/-- The body of `if (value >= 0)` in the LED loop of `main`: drive the GPIO of LED
`i`, answer "OK" and an empty line, and `break` with `i` as it is. -/
def set_and_reply (w : World) (i : Nat) (value : Int) : World × Scan :=
  match gpio_pin_set_dt w i value with
  | (w1, none) => (w1, Scan.stuck)
  | (w1, some ret) =>
    if ret < 0 then (w1, Scan.error)
    else
      match send_response w1 (ascii "OK") with
      | (w2, none) => (w2, Scan.stuck)
      | (w2, some ret) =>
        if ret < 0 then (w2, Scan.error)
        else
          match send_response w2 (ascii "") with
          | (w3, none) => (w3, Scan.stuck)
          | (w3, some ret) => if ret < 0 then (w3, Scan.error) else (w3, Scan.done i)

/-- The `for (i = 0; i < DT_LEDS_NUM; i++)` loop of `main` that looks for a LED
name at the start of the request; `names` are `dt_led_name[i..]`. -/
def set_loop (request : List Byte) : List (List Byte) → Nat → World → World × Scan
  | [], i, w => (w, Scan.done i)
  | name :: names, i, w =>
    let nlen := strlen name
    if memcmp request name nlen = 0 then
      let value : Int :=
        if strcmp (request.drop nlen) (ascii " off") = 0 then 0
        else if strcmp (request.drop nlen) (ascii " on") = 0 then 1
        else -1
      if value ≥ 0 then set_and_reply w i value
      else set_loop request names (i + 1) w
    else set_loop request names (i + 1) w

/-- Where one turn of the serving loop leaves the connection. -/
inductive Step where
  | serving
  | error
  | stuck
  deriving DecidableEq, Repr

/-- One turn of the inner `while (1)` of `main`: read a request and answer it.
`names` is `dt_led_name`. -/
def serve_step (names : List (List Byte)) (w : World) : World × Step :=
  match get_request w with
  | (w1, none) => (w1, Step.stuck)
  | (w1, some ret) =>
    if ret < 0 then (w1, Step.error)
    else
      let request := w1.buf
      if strcmp request (ascii "list") = 0 then
        match send_each names w1 with
        | (w2, none) => (w2, Step.stuck)
        | (w2, some ret) =>
          if ret < 0 then (w2, Step.error)
          else
            match send_response w2 (ascii "") with
            | (w3, none) => (w3, Step.stuck)
            | (w3, some ret) => if ret < 0 then (w3, Step.error) else (w3, Step.serving)
      else
        match set_loop request names 0 w1 with
        | (w2, Scan.stuck) => (w2, Step.stuck)
        | (w2, Scan.error) => (w2, Step.error)
        | (w2, Scan.done i) =>
          if i = names.length then
            match usage w2 with
            | (w3, none) => (w3, Step.stuck)
            | (w3, some ret) => if ret < 0 then (w3, Step.error) else (w3, Step.serving)
          else (w2, Step.serving)

/-- The bytes and deliveries still queued on a socket: every `recv` that returns
lowers this number. -/
def budget : List Delivery → Nat
  | [] => 0
  | Delivery.data d :: rest => d.length + 1 + budget rest
  | Delivery.error :: rest => 1 + budget rest

/-- The inner `while (1)` of `main`; `true` when it leaves by `goto error`,
`false` when the program stays blocked in an external call. -/
def serve_loop : Nat → List (List Byte) → World → World × Bool
  | 0, _, w => (w, false)
  | fuel + 1, names, w =>
    match serve_step names w with
    | (w1, Step.serving) => serve_loop fuel names w1
    | (w1, Step.error) => (w1, true)
    | (w1, Step.stuck) => (w1, false)

/-- `close(client)`. -/
def close (w : World) : World := { w with trace := w.trace ++ [Event.close] }

/-- The body of the accept loop of `main` for an accepted client: the greeting,
the serving loop, and the `error:` label. Every turn of the serving loop
consumes at least one queued byte or delivery, so `budget` is all the fuel it
can use. -/
def connection (names : List (List Byte)) (w : World) : World × Bool :=
  match usage w with
  | (w1, none) => (w1, false)
  | (w1, some ret) =>
    if ret < 0 then (close w1, true)
    else
      match serve_loop (budget w1.sock) names w1 with
      | (w2, false) => (w2, false)
      | (w2, true) => (close w2, true)

/-- What `accept` answers: a failure, or a client with what it is going to
deliver. -/
inductive Accepted where
  | fail
  | client (fd : Nat) (sock : List Delivery)
  deriving DecidableEq, Repr

/-- The value `accept` returns, the `client` of `main`: -1 for a failure, the
descriptor of the client otherwise. -/
def Accepted.ret : Accepted → Int
  | Accepted.fail => -1
  | Accepted.client fd _ => fd

/-- The outer `while (1)` of `main`, over the script of `accept` results. When the
script is used up the server is blocked in `accept`. -/
def accept_loop (names : List (List Byte)) : List Accepted → World → World
  | [], w => w
  | Accepted.fail :: more, w =>
    accept_loop names more { w with trace := w.trace ++ [Event.accept (-1)] }
  | Accepted.client fd sock :: more, w =>
    match connection names { w with sock := sock, trace := w.trace ++ [Event.accept fd] } with
    | (w1, false) => w1
    | (w1, true) => accept_loop names more w1

/-- The world at the start of `main`'s accept loop: nothing on the trace, `buf`
zeroed as static storage is. -/
def World.init (sends sets : List Int) : World :=
  { sock := [], sends := sends, sets := sets, buf := List.replicate sizeof_buf 0, trace := [] }


/-- A chunk without the one trailing CR LF that `get_request` takes off. -/
def strip_crlf (chunk : List Byte) : List Byte :=
  if [13, 10] <:+ chunk then chunk.take (chunk.length - 2) else chunk

/-- The receive buffer once `get_request` has stored the chunk `got` over the old
contents `old` and put the NUL behind the line. -/
def buf_after (got old : List Byte) : List Byte :=
  (got ++ old.drop got.length).set (strip_crlf got).length 0

/-- The text that follows the LED name in a request that switches it on
(`true`) or off (`false`). -/
def verb (v : Bool) : List Byte := if v then ascii " on" else ascii " off"

/-- The `value` the LED loop passes to the driver for on (`true`) and off. -/
def level (v : Bool) : Int := if v then 1 else 0

/-- The return values of the `send` calls of one `send_response` for `text` when
every `send` takes all it is offered. -/
def full_script (text : List Byte) : List Int :=
  (if text = [] then [] else [(text.length : Int)]) ++ [(sizeof_eol : Int)]

/-- The `send` calls of one `send_response` that gets `text` and then the
terminator through, each in one `send`. -/
def line_events (text : List Byte) : List Event :=
  (if text = [] then [] else [Event.send text text.length]) ++ [Event.send eol sizeof_eol]

/-- How the serving loop goes on after a call that returned `ret`, or that did not
return. -/
def Step.after : Option Int → Step
  | none => Step.stuck
  | some ret => if ret < 0 then Step.error else Step.serving

/-- How the serving loop goes on after the LED loop ended with a `break`. -/
def Step.afterScan : Scan → Step
  | Scan.done _ => Step.serving
  | Scan.error => Step.error
  | Scan.stuck => Step.stuck

/-- A call of `send`. -/
def Event.is_send : Event → Bool
  | Event.send _ _ => true
  | _ => false

/-- A world for examples: LEDs and transport untouched, `chunks` waiting on the
client socket, and the given answers of `send` and of the driver. -/
def World.example (chunks : List (List Byte)) (sends sets : List Int) : World :=
  { World.init sends sets with sock := chunks.map Delivery.data }

/-- From `w` to `w'` the program has only called `send`: the socket, the driver
and the receive buffer are as they were and the trace has grown by `send`
events. -/
def SendsOnly (w w' : World) : Prop :=
  w'.sock = w.sock ∧ w'.sets = w.sets ∧ w'.buf = w.buf
    ∧ ∃ evs, w'.trace = w.trace ++ evs ∧ ∀ e ∈ evs, e.is_send = true

/-- The bytes the transport took over in the `send` calls of a stretch of the
trace, in order: of each `send`, as many of the offered bytes as it returned. -/
def wire : List Event → List Byte
  | [] => []
  | Event.send bytes ret :: evs => bytes.take ret.toNat ++ wire evs
  | _ :: evs => wire evs

/-- A call that ends the connection: a `recv` that returned 0 or less, a `send` or
a driver call that returned a negative value. -/
def Event.fatal : Event → Bool
  | Event.recv ret _ => decide (ret ≤ 0)
  | Event.send _ ret => decide (ret < 0)
  | Event.gpio_pin_set _ _ ret => decide (ret < 0)
  | _ => false

/-- A call on the client or on the driver after which the connection goes on. -/
def Event.smooth : Event → Bool
  | Event.recv ret _ => decide (0 < ret)
  | Event.send _ ret => decide (0 ≤ ret)
  | Event.gpio_pin_set _ _ ret => decide (0 ≤ ret)
  | _ => false

/-- A return value that makes the caller give up (`< 0`); a call that did not
return has not failed. -/
def failedRet : Option Int → Bool
  | none => false
  | some ret => decide (ret < 0)

/-- The trace from `w` to `w'` has grown by calls after which the connection goes
on and, when `failed`, by one fatal call after them, the last. -/
def Grows (w w' : World) (failed : Bool) : Prop :=
  ∃ evs, w'.trace = w.trace ++ evs ∧
    if failed then ∃ pre e, evs = pre ++ [e] ∧ (∀ x ∈ pre, x.smooth = true) ∧ e.fatal = true
    else ∀ x ∈ evs, x.smooth = true

/-- The LED loop left by `goto error`. -/
def Scan.failed : Scan → Bool
  | Scan.error => true
  | _ => false

/-- The turn of the serving loop left by `goto error`. -/
def Step.failed : Step → Bool
  | Step.error => true
  | _ => false

/-- Two worlds in which the environment is going to answer alike: the same
deliveries, the same `send` results and the same driver results are pending. The
receive buffer and the trace, what earlier requests left behind, may differ. -/
def Env (w w' : World) : Prop :=
  w.sock = w'.sock ∧ w.sends = w'.sends ∧ w.sets = w'.sets

/-- Two runs of the same code, `r` from `w` and `r'` from `w'`: they made the same
external calls with the same results, came to the same result and left the same
answers of the environment pending. -/
def Alike {α : Type} (w w' : World) (r r' : World × α) : Prop :=
  r.2 = r'.2 ∧ Env r.1 r'.1 ∧ ∃ evs, r.1.trace = w.trace ++ evs ∧ r'.1.trace = w'.trace ++ evs

/-- The turn of the serving loop from the point where `get_request` has returned
successfully: the part of `serve_step` after the read. -/
def dispatch (names : List (List Byte)) (w1 : World) : World × Step :=
  let request := w1.buf
  if strcmp request (ascii "list") = 0 then
    match send_each names w1 with
    | (w2, none) => (w2, Step.stuck)
    | (w2, some ret) =>
      if ret < 0 then (w2, Step.error)
      else
        match send_response w2 (ascii "") with
        | (w3, none) => (w3, Step.stuck)
        | (w3, some ret) => if ret < 0 then (w3, Step.error) else (w3, Step.serving)
  else
    match set_loop request names 0 w1 with
    | (w2, Scan.stuck) => (w2, Step.stuck)
    | (w2, Scan.error) => (w2, Step.error)
    | (w2, Scan.done i) =>
      if i = names.length then
        match usage w2 with
        | (w3, none) => (w3, Step.stuck)
        | (w3, some ret) => if ret < 0 then (w3, Step.error) else (w3, Step.serving)
      else (w2, Step.serving)

/-- A script of `send` results for a text of `n` bytes in which every `send` takes at
least one byte and at most what is left, until nothing is left. -/
def short_writes : Nat → List Int → Prop
  | n, [] => n = 0
  | n, r :: rs => 1 ≤ r ∧ r ≤ n ∧ short_writes (n - r.toNat) rs

/-- The `send` calls of the text loop of `send_response` on the text at `p` when
the transport answers with `rs`: each call is offered what is at `p`, and `p`
then moves on by what the call returned. -/
def short_events : List Byte → List Int → List Event
  | _, [] => []
  | p, r :: rs => Event.send p r :: short_events (p.drop r.toNat) rs

/-- The number of bytes taken over by a run of `send` calls that returned `rs`. -/
def accepted (rs : List Int) : Nat := (rs.map Int.toNat).sum

/-! ## C strings -/

theorem byte_sub_eq_zero (a b : Nat) : (a : Int) - (b : Int) = 0 ↔ a = b := by omega

theorem cstr_nil : cstr [] = [] := rfl

theorem cstr_cons_zero (p : List Byte) : cstr (0 :: p) = [] := by
  simp [cstr, List.takeWhile_cons]

theorem cstr_cons_ne {c : Byte} (hc : c ≠ 0) (p : List Byte) : cstr (c :: p) = c :: cstr p := by
  simp [cstr, List.takeWhile_cons, hc]

theorem cstr_of_not_mem {p : List Byte} (h : (0 : Byte) ∉ p) : cstr p = p := by
  induction p with
  | nil => rfl
  | cons c p ih =>
    simp only [List.mem_cons, not_or] at h
    rw [cstr_cons_ne (fun e => h.1 e.symm), ih h.2]

theorem cstr_append_of_not_mem {a : List Byte} (b : List Byte) (h : (0 : Byte) ∉ a) :
    cstr (a ++ b) = a ++ cstr b := by
  induction a with
  | nil => rfl
  | cons c a ih =>
    simp only [List.mem_cons, not_or] at h
    rw [List.cons_append, cstr_cons_ne (fun e => h.1 e.symm), ih h.2, List.cons_append]

theorem cstr_not_mem (p : List Byte) : (0 : Byte) ∉ cstr p := by
  induction p with
  | nil => simp [cstr]
  | cons c p ih =>
    by_cases hc : c = 0
    · subst hc
      simp [cstr_cons_zero]
    · rw [cstr_cons_ne hc]
      simp only [List.mem_cons, not_or]
      exact ⟨fun e => hc e.symm, ih⟩

theorem cstr_is_start (p : List Byte) : ∃ t, cstr p ++ t = p :=
  List.takeWhile_prefix _

theorem strlen_eq (p : List Byte) : strlen p = (cstr p).length := by
  induction p with
  | nil => rfl
  | cons c p ih =>
    by_cases hc : c = 0
    · subst hc
      simp [strlen, cstr_cons_zero]
    · rw [cstr_cons_ne hc]
      simp [strlen, hc, ih]

theorem strlen_of_not_mem {p : List Byte} (h : (0 : Byte) ∉ p) : strlen p = p.length := by
  rw [strlen_eq, cstr_of_not_mem h]

theorem strcmp_eq_zero (a b : List Byte) : strcmp a b = 0 ↔ cstr a = cstr b := by
  induction a generalizing b with
  | nil =>
    cases b with
    | nil => simp [strcmp]
    | cons y b =>
      by_cases hy : y = 0
      · subst hy
        simp [strcmp, cstr_cons_zero, cstr_nil]
      · rw [cstr_cons_ne hy]
        have := (byte_sub_eq_zero 0 y).not.mpr (Ne.symm hy)
        simpa [strcmp, cstr_nil] using hy
  | cons x a ih =>
    cases b with
    | nil =>
      by_cases hx : x = 0
      · subst hx
        simp [strcmp, cstr_cons_zero, cstr_nil]
      · rw [cstr_cons_ne hx]
        simpa [strcmp, cstr_nil] using hx
    | cons y b =>
      by_cases hxy : x = y
      · subst hxy
        by_cases hx : x = 0
        · subst hx
          simp [strcmp, cstr_cons_zero]
        · rw [cstr_cons_ne hx, cstr_cons_ne hx]
          simp only [strcmp, ne_eq, not_true_eq_false, ite_false, hx, List.cons.injEq, true_and]
          exact ih b
      · have hne := (byte_sub_eq_zero x y).not.mpr hxy
        simp only [strcmp, ne_eq, hxy, not_false_eq_true, ite_true, hne, false_iff]
        by_cases hx : x = 0
        · subst hx
          rw [cstr_cons_zero, cstr_cons_ne (Ne.symm hxy)]
          simp
        · rw [cstr_cons_ne hx]
          by_cases hy : y = 0
          · subst hy
            rw [cstr_cons_zero]
            simp
          · rw [cstr_cons_ne hy]
            simp [hxy]

theorem memcmp_eq_zero {name : List Byte} (h : (0 : Byte) ∉ name) (req : List Byte) :
    memcmp req name name.length = 0 ↔ req.take name.length = name := by
  induction name generalizing req with
  | nil => simp [memcmp]
  | cons c name ih =>
    simp only [List.mem_cons, not_or] at h
    have hc : c ≠ 0 := fun e => h.1 e.symm
    cases req with
    | nil =>
      have := (byte_sub_eq_zero 0 c).not.mpr (Ne.symm hc)
      simpa [memcmp, Ne.symm hc] using hc
    | cons a req =>
      by_cases hac : a = c
      · subst hac
        simp only [List.length_cons, memcmp, List.headD_cons, ite_true, List.tail_cons,
          List.take_succ_cons, List.cons.injEq, true_and]
        exact ih h.2 req
      · have := (byte_sub_eq_zero a c).not.mpr hac
        simp [memcmp, hac, this]

/-- The test the LED loop of `main` makes for one name and one verb: `memcmp` finds
the name at the start of the request and `strcmp` finds the verb right after it,
exactly when the request is the name followed by the verb. -/
theorem match_iff {name verb : List Byte} (hn : (0 : Byte) ∉ name) (hv : (0 : Byte) ∉ verb)
    (req : List Byte) :
    (memcmp req name (strlen name) = 0 ∧ strcmp (req.drop (strlen name)) verb = 0)
      ↔ cstr req = name ++ verb := by
  rw [strlen_of_not_mem hn, memcmp_eq_zero hn, strcmp_eq_zero, cstr_of_not_mem hv]
  constructor
  · rintro ⟨h1, h2⟩
    have h3 : req = name ++ req.drop name.length := by
      conv_lhs => rw [← List.take_append_drop name.length req, h1]
    have h4 : cstr req = name ++ cstr (req.drop name.length) := by
      conv_lhs => rw [h3]
      exact cstr_append_of_not_mem _ hn
    rw [h4, h2]
  · intro h
    obtain ⟨t, ht⟩ := cstr_is_start req
    rw [h] at ht
    have h1 : req.take name.length = name := by
      rw [← ht, List.append_assoc, List.take_left]
    refine ⟨h1, ?_⟩
    have h3 : req.drop name.length = verb ++ t := by
      rw [← ht, List.append_assoc, List.drop_left]
    have h4 := h
    rw [← ht, List.append_assoc, cstr_append_of_not_mem _ hn] at h4
    rw [h3]
    exact List.append_cancel_left h4

/-! ## The line reader -/

/-- A chunk ends with CR LF, as `get_request` tests it on the buffer. -/
theorem ends_crlf_iff (l : List Byte) :
    (2 ≤ l.length ∧ l.getD (l.length - 2) 0 = 13 ∧ l.getD (l.length - 1) 0 = 10)
      ↔ [13, 10] <:+ l := by
  constructor
  · rintro ⟨h2, ha, hb⟩
    refine ⟨l.take (l.length - 2), ?_⟩
    have h1 : l.length - 2 < l.length := by omega
    have h3 : l.length - 2 + 1 < l.length := by omega
    have hd : l.drop (l.length - 2) = [13, 10] := by
      rw [List.drop_eq_getElem_cons h1, List.drop_eq_getElem_cons h3]
      have e : l.length - 2 + 1 + 1 = l.length := by omega
      rw [e, List.drop_length]
      rw [List.getD_eq_getElem _ _ h1] at ha
      have e2 : l.length - 1 = l.length - 2 + 1 := by omega
      rw [e2, List.getD_eq_getElem _ _ h3] at hb
      rw [ha, hb]
    rw [← hd, List.take_append_drop]
  · rintro ⟨body, rfl⟩
    have e1 : (body ++ [13, 10]).length - 2 = body.length := by simp
    have e2 : (body ++ [13, 10]).length - 1 = body.length + 1 := by simp
    refine ⟨by simp, ?_, ?_⟩
    · rw [e1, List.getD_append_right _ _ _ _ (le_refl _)]
      simp
    · rw [e2, List.getD_append_right _ _ _ _ (Nat.le_succ _)]
      simp

theorem strip_crlf_append (l : List Byte) : ∃ t, strip_crlf l ++ t = l ∧ (t = [] ∨ t = [13, 10]) := by
  unfold strip_crlf
  split
  · rename_i h
    obtain ⟨body, rfl⟩ := h
    exact ⟨[13, 10], by simp, Or.inr rfl⟩
  · exact ⟨[], by simp, Or.inl rfl⟩

theorem strip_crlf_length (l : List Byte) :
    ((strip_crlf l).length : Int) = if [13, 10] <:+ l then (l.length : Int) - 2 else l.length := by
  unfold strip_crlf
  split
  · rename_i h
    obtain ⟨body, rfl⟩ := h
    simp
  · rfl

theorem strip_crlf_eq_nil (l : List Byte) : strip_crlf l = [] ↔ l = [] ∨ l = [13, 10] := by
  unfold strip_crlf
  split
  · rename_i h
    obtain ⟨body, rfl⟩ := h
    have e : (body ++ [13, 10]).take ((body ++ [13, 10]).length - 2) = body := by simp
    rw [e]
    constructor
    · intro hb
      right
      rw [hb]
      rfl
    · rintro (hb | hb)
      · simp at hb
      · have := congrArg List.length hb
        simp only [List.length_append, List.length_cons, List.length_nil] at this
        exact List.length_eq_zero.mp (by omega)
  · rename_i h
    constructor
    · exact fun e => Or.inl e
    · rintro (e | e)
      · exact e
      · exact absurd (e ▸ List.suffix_refl _) h

theorem cstr_append_zero (s x : List Byte) : cstr (s ++ 0 :: x) = cstr s := by
  induction s with
  | nil => simp [cstr_cons_zero, cstr_nil]
  | cons c s ih =>
    by_cases hc : c = 0
    · subst hc
      simp [cstr_cons_zero]
    · rw [List.cons_append, cstr_cons_ne hc, cstr_cons_ne hc, ih]

/-- The request `get_request` hands over is the C string of the chunk without its
trailing CR LF, whatever the buffer held before. -/
theorem cstr_buf_after (got old : List Byte) :
    cstr (buf_after got old) = cstr (strip_crlf got) := by
  obtain ⟨t, ht, -⟩ := strip_crlf_append got
  have e : buf_after got old
      = (strip_crlf got ++ (t ++ old.drop got.length)).set (strip_crlf got).length 0 := by
    unfold buf_after
    rw [← List.append_assoc, ht]
  rw [e, List.set_append_right _ _ (le_refl _), Nat.sub_self]
  cases h : t ++ List.drop got.length old with
  | nil => simp
  | cons a r => simp [cstr_append_zero]

theorem get_request_nil (w : World) (hs : w.sock = []) : get_request w = (w, none) := by
  simp [get_request, hs, get_request_loop]

theorem get_request_error (w : World) (rest : List Delivery)
    (hs : w.sock = Delivery.error :: rest) :
    get_request w
      = ({ w with sock := rest, trace := w.trace ++ [Event.recv (-1) []] }, some (-1)) := by
  simp [get_request, hs, get_request_loop, recv]

theorem get_request_closed (w : World) (rest : List Delivery)
    (hs : w.sock = Delivery.data [] :: rest) :
    get_request w
      = ({ w with sock := rest, trace := w.trace ++ [Event.recv 0 []] }, some (-1)) := by
  simp [get_request, hs, get_request_loop, recv]

theorem get_request_loop_crlf (fuel : Nat) (w : World) (rest : List Delivery)
    (hs : w.sock = Delivery.data [13, 10] :: rest) :
    get_request_loop (fuel + 1) w
      = get_request_loop fuel { w with sock := rest, buf := [13, 10] ++ w.buf.drop 2,
                                       trace := w.trace ++ [Event.recv 2 [13, 10]] } := by
  simp [hs, get_request_loop, recv, sizeof_buf]

/-- A delivery of just CR LF is read and dropped, and `get_request` reads again. -/
theorem get_request_crlf (w : World) (rest : List Delivery)
    (hs : w.sock = Delivery.data [13, 10] :: rest) :
    get_request w
      = get_request { w with sock := rest, buf := [13, 10] ++ w.buf.drop 2,
                             trace := w.trace ++ [Event.recv 2 [13, 10]] } := by
  unfold get_request
  rw [hs]
  exact get_request_loop_crlf rest.length w rest hs

theorem get_request_loop_data (fuel : Nat) (w : World) (d : List Byte)
    (rest : List Delivery)
    (hs : w.sock = Delivery.data d :: rest) (hd : d ≠ []) (hne : d ≠ [13, 10]) :
    get_request_loop (fuel + 1) w
      = ({ w with sock := if d.drop 127 = [] then rest else Delivery.data (d.drop 127) :: rest,
                  buf := buf_after (d.take 127) w.buf,
                  trace := w.trace ++ [Event.recv (d.take 127).length (d.take 127)] },
         some 0) := by
  have hgot : d.take 127 ≠ [] := by
    cases d with
    | nil => exact absurd rfl hd
    | cons a d => simp
  have hgot2 : d.take 127 ≠ [13, 10] := by
    intro e
    have hl := congrArg List.length e
    simp only [List.length_take, List.length_cons, List.length_nil] at hl
    have : d.length ≤ 127 := by omega
    rw [List.take_of_length_le this] at e
    exact hne e
  have hpos : 0 < (d.take 127).length := List.length_pos.mpr hgot
  have hstrip : strip_crlf (d.take 127) ≠ [] := by
    intro e
    rcases (strip_crlf_eq_nil _).mp e with e | e
    · exact hgot e
    · exact hgot2 e
  have hslen := strip_crlf_length (d.take 127)
  have hspos : 0 < (strip_crlf (d.take 127)).length := List.length_pos.mpr hstrip
  have hcond : ((2 : Int) ≤ ((d.take 127).length : Int)
      ∧ (d.take 127 ++ w.buf.drop (d.take 127).length).getD
          (((d.take 127).length : Int) - 2).toNat 0 = 13
      ∧ (d.take 127 ++ w.buf.drop (d.take 127).length).getD
          (((d.take 127).length : Int) - 1).toNat 0 = 10) ↔ [13, 10] <:+ d.take 127 := by
    rw [← ends_crlf_iff]
    have e1 : (((d.take 127).length : Int) - 2).toNat = (d.take 127).length - 2 := by omega
    have e2 : (((d.take 127).length : Int) - 1).toNat = (d.take 127).length - 1 := by omega
    rw [e1, e2]
    constructor
    · rintro ⟨h2, ha, hb⟩
      have h2' : 2 ≤ (d.take 127).length := by omega
      rw [List.getD_append _ _ _ _ (by omega)] at ha hb
      exact ⟨h2', ha, hb⟩
    · rintro ⟨h2, ha, hb⟩
      rw [List.getD_append _ _ _ _ (by omega), List.getD_append _ _ _ _ (by omega)]
      exact ⟨by omega, ha, hb⟩
  have hn0 : ¬ (((d.take 127).length : Int) ≤ 0) := by omega
  simp only [hs, get_request_loop, recv, sizeof_buf,
    Nat.add_one_sub_one, hn0, ite_false, ge_iff_le, hcond]
  by_cases hsuf : [13, 10] <:+ d.take 127
  · rw [if_pos hsuf] at hslen
    have hz : ¬ (((d.take 127).length : Int) - 2 = 0) := by omega
    have et : (((d.take 127).length : Int) - 2).toNat = (strip_crlf (d.take 127)).length := by
      omega
    simp only [hsuf, ite_true, hz, ite_false, buf_after, et]
  · rw [if_neg hsuf] at hslen
    have hz : ¬ (((d.take 127).length : Int) = 0) := by omega
    have et : (((d.take 127).length : Int)).toNat = (strip_crlf (d.take 127)).length := by
      omega
    simp only [hsuf, ite_false, hz, buf_after, et]

/-- Any other non-empty delivery: `get_request` returns with at most
`sizeof(buf) - 1` bytes of it in the buffer, a trailing CR LF taken off, and
leaves the rest of the delivery queued. -/
theorem get_request_data (w : World) (d : List Byte) (rest : List Delivery)
    (hs : w.sock = Delivery.data d :: rest) (hd : d ≠ []) (hne : d ≠ [13, 10]) :
    get_request w
      = ({ w with sock := if d.drop 127 = [] then rest else Delivery.data (d.drop 127) :: rest,
                  buf := buf_after (d.take 127) w.buf,
                  trace := w.trace ++ [Event.recv (d.take 127).length (d.take 127)] },
         some 0) := by
  unfold get_request
  rw [hs]
  exact get_request_loop_data rest.length w d rest hs hd hne

theorem get_request_loop_fuel (k : Nat) (w : World) :
    get_request_loop (w.sock.length + k) w = get_request w := by
  generalize hsock : w.sock = sock
  induction sock generalizing w with
  | nil =>
    rw [get_request_nil w hsock]
    cases k with
    | zero => rfl
    | succ k => simp [get_request_loop, recv, hsock]
  | cons x rest ih =>
    have e : (x :: rest).length + k = (rest.length + k) + 1 := by
      simp only [List.length_cons]
      omega
    rw [e]
    cases x with
    | error =>
      rw [get_request_error w rest hsock]
      simp [get_request_loop, recv, hsock]
    | data d =>
      by_cases hd : d = []
      · subst hd
        rw [get_request_closed w rest hsock]
        simp [get_request_loop, recv, hsock]
      · by_cases hc : d = [13, 10]
        · subst hc
          rw [get_request_loop_crlf _ w rest hsock, get_request_crlf w rest hsock]
          exact ih _ rfl
        · rw [get_request_loop_data _ w d rest hsock hd hc, get_request_data w d rest hsock hd hc]

/-! ## The LED loop -/

theorem verb_not_mem (v : Bool) : (0 : Byte) ∉ verb v := by
  cases v <;> decide

theorem set_loop_cons_match {name : List Byte} (hn : (0 : Byte) ∉ name) (req : List Byte)
    (v : Bool) (h : cstr req = name ++ verb v) (names : List (List Byte)) (i : Nat)
    (w : World) :
    set_loop req (name :: names) i w = set_and_reply w i (level v) := by
  have hm := (match_iff hn (verb_not_mem v) req).mpr h
  cases v with
  | true =>
    have hoff : ¬ strcmp (req.drop (strlen name)) (ascii " off") = 0 := by
      intro e
      have h2 := (match_iff hn (verb_not_mem false) req).mp ⟨hm.1, e⟩
      rw [h] at h2
      have := List.append_cancel_left h2
      revert this
      decide
    have hon : strcmp (req.drop (strlen name)) (ascii " on") = 0 := hm.2
    simp [set_loop, hm.1, hoff, hon, level]
  | false =>
    have hoff : strcmp (req.drop (strlen name)) (ascii " off") = 0 := hm.2
    simp [set_loop, hm.1, hoff, level]

theorem set_loop_cons_skip {name : List Byte} (hn : (0 : Byte) ∉ name) (req : List Byte)
    (h : ∀ v, cstr req ≠ name ++ verb v) (names : List (List Byte)) (i : Nat) (w : World) :
    set_loop req (name :: names) i w = set_loop req names (i + 1) w := by
  by_cases hm : memcmp req name (strlen name) = 0
  · have hoff : ¬ strcmp (req.drop (strlen name)) (ascii " off") = 0 :=
      fun e => h false ((match_iff hn (verb_not_mem false) req).mp ⟨hm, e⟩)
    have hon : ¬ strcmp (req.drop (strlen name)) (ascii " on") = 0 :=
      fun e => h true ((match_iff hn (verb_not_mem true) req).mp ⟨hm, e⟩)
    simp [set_loop, hm, hoff, hon]
  · simp [set_loop, hm]

/-- No name followed by " on" or " off" is the request: the loop runs to the end
without touching the world. -/
theorem set_loop_none (req : List Byte) (names : List (List Byte))
    (hwf : ∀ n ∈ names, (0 : Byte) ∉ n)
    (h : ∀ n ∈ names, ∀ v, cstr req ≠ n ++ verb v) (i : Nat) (w : World) :
    set_loop req names i w = (w, Scan.done (i + names.length)) := by
  induction names generalizing i with
  | nil => simp [set_loop]
  | cons name names ih =>
    rw [set_loop_cons_skip (hwf name (List.mem_cons_self _ _)) req
      (h name (List.mem_cons_self _ _)),
      ih (fun n hn => hwf n (List.mem_cons_of_mem _ hn))
        (fun n hn => h n (List.mem_cons_of_mem _ hn))]
    simp only [List.length_cons]
    congr 2
    omega

/-- The loop stops at the first name that, followed by " on" or " off", is the
request. -/
theorem set_loop_first (req : List Byte) (pre : List (List Byte)) (name : List Byte)
    (post : List (List Byte)) (v : Bool)
    (hwf : ∀ n ∈ pre ++ name :: post, (0 : Byte) ∉ n)
    (hpre : ∀ n ∈ pre, ∀ v, cstr req ≠ n ++ verb v)
    (h : cstr req = name ++ verb v) (i : Nat) (w : World) :
    set_loop req (pre ++ name :: post) i w = set_and_reply w (i + pre.length) (level v) := by
  induction pre generalizing i with
  | nil =>
    simp only [List.nil_append, List.length_nil, Nat.add_zero]
    exact set_loop_cons_match (hwf name (by simp)) req v h post i w
  | cons p pre ih =>
    rw [List.cons_append, set_loop_cons_skip (hwf p (by simp)) req (hpre p (by simp)),
      ih (fun n hn => hwf n (by simp at hn ⊢; tauto))
        (fun n hn => hpre n (List.mem_cons_of_mem _ hn))]
    simp only [List.length_cons]
    congr 1
    omega

/-! ## The response writer -/

theorem send_loop_zero (fuel : Nat) (w : World) (p : List Byte) :
    send_loop fuel w p 0 = (w, some 0) := by
  unfold send_loop
  simp

/-- One `send_response` whose sends all go through in full. -/
theorem send_response_full (w : World) (text : List Byte) (rest : List Int)
    (h0 : (0 : Byte) ∉ text) (hs : w.sends = full_script text ++ rest) :
    send_response w text
      = ({ w with sends := rest, trace := w.trace ++ line_events text }, some 0) := by
  by_cases ht : text = []
  · subst ht
    simp only [full_script, ite_true, List.nil_append, List.singleton_append] at hs
    simp [send_response, strlen, send_loop_zero, send, hs, line_events, sizeof_eol, eol]
  · have hlen : 0 < text.length := List.length_pos.mpr ht
    simp only [full_script, ht, ite_false, List.singleton_append, List.cons_append,
      List.nil_append] at hs
    have hpos : ((text.length : Nat) : Int) > 0 := by omega
    have hneg : ¬ ((text.length : Nat) : Int) < 0 := by omega
    simp only [send_response, strlen_of_not_mem h0, hs, List.length_cons]
    unfold send_loop
    simp only [hpos, ite_true, send, hs, Int.toNat_ofNat, List.take_length, hneg, ite_false,
      sub_self, send_loop_zero]
    simp [line_events, ht, sizeof_eol, eol]

theorem send_each_full (lines : List (List Byte)) (w : World) (rest : List Int)
    (h0 : ∀ l ∈ lines, (0 : Byte) ∉ l) (hs : w.sends = lines.flatMap full_script ++ rest) :
    send_each lines w
      = ({ w with sends := rest, trace := w.trace ++ lines.flatMap line_events }, some 0) := by
  induction lines generalizing w with
  | nil =>
    simp only [List.flatMap_nil, List.nil_append] at hs
    simp [send_each, ← hs]
  | cons l lines ih =>
    simp only [List.flatMap_cons, List.append_assoc] at hs
    rw [send_each, send_response_full w l _ (h0 l (List.mem_cons_self _ _)) hs]
    simp only [Int.reduceNeg]
    rw [if_neg (by decide), ih _ (fun l hl => h0 l (List.mem_cons_of_mem _ hl)) rfl]
    simp

theorem usage_str_not_mem : ∀ l ∈ usage_str, (0 : Byte) ∉ l := by decide

/-- The usage block, when every send goes through in full. -/
theorem usage_full (w : World) (rest : List Int)
    (hs : w.sends = usage_str.flatMap full_script ++ rest) :
    usage w = ({ w with sends := rest, trace := w.trace ++ usage_str.flatMap line_events },
               some 0) :=
  send_each_full usage_str w rest usage_str_not_mem hs

/-! ## One turn of the serving loop -/

theorem ascii_on : ascii " on" = [32, 111, 110] := by decide

theorem ascii_off : ascii " off" = [32, 111, 102, 102] := by decide

theorem ascii_list : ascii "list" = [108, 105, 115, 116] := by decide

theorem ascii_ok : ascii "OK" = [79, 75] := by decide

theorem ascii_empty : ascii "" = [] := by decide

theorem getLast_verb (n : List Byte) (v : Bool) :
    (n ++ verb v).getLast? = some (if v then 110 else 102) := by
  cases v <;> simp [verb, ascii_on, ascii_off, List.getLast?_append]

/-- A name followed by " on" or " off" determines both the name and the verb. -/
theorem verb_cancel {n m : List Byte} {a b : Bool} (h : n ++ verb a = m ++ verb b) :
    n = m ∧ a = b := by
  have hl := congrArg List.getLast? h
  rw [getLast_verb, getLast_verb] at hl
  have hab : a = b := by
    cases a <;> cases b <;> simp at hl <;> rfl
  subst hab
  exact ⟨List.append_cancel_right h, rfl⟩

theorem verb_ne_list (n : List Byte) (v : Bool) : n ++ verb v ≠ ascii "list" := by
  intro h
  have hl := congrArg List.getLast? h
  rw [getLast_verb, ascii_list] at hl
  cases v <;> simp at hl

theorem not_crlf_verb (n : List Byte) (v : Bool) : ¬ [13, 10] <:+ n ++ verb v := by
  rintro ⟨t, ht⟩
  have hl := congrArg List.getLast? ht
  rw [getLast_verb] at hl
  cases v <;> simp [List.getLast?_append] at hl

theorem strip_crlf_of_not_suffix {l : List Byte} (h : ¬ [13, 10] <:+ l) : strip_crlf l = l := by
  simp [strip_crlf, h]

theorem strip_crlf_append_crlf (l : List Byte) : strip_crlf (l ++ [13, 10]) = l := by
  have h : [13, 10] <:+ l ++ [13, 10] := ⟨l, rfl⟩
  simp [strip_crlf, h]

/-- The turn of the serving loop once `get_request` has returned a request that is
"list". -/
theorem serve_step_list (names : List (List Byte)) (w w1 : World)
    (hg : get_request w = (w1, some 0)) (hr : cstr w1.buf = ascii "list") :
    serve_step names w =
      match send_each names w1 with
      | (w2, none) => (w2, Step.stuck)
      | (w2, some ret) =>
        if ret < 0 then (w2, Step.error)
        else
          match send_response w2 (ascii "") with
          | (w3, none) => (w3, Step.stuck)
          | (w3, some ret) => if ret < 0 then (w3, Step.error) else (w3, Step.serving) := by
  have hc : strcmp w1.buf (ascii "list") = 0 := by
    rw [strcmp_eq_zero, hr, cstr_of_not_mem (by decide)]
  simp [serve_step, hg, hc]

/-- The turn of the serving loop once `get_request` has returned a request that is
not "list". -/
theorem serve_step_other (names : List (List Byte)) (w w1 : World)
    (hg : get_request w = (w1, some 0)) (hr : cstr w1.buf ≠ ascii "list") :
    serve_step names w =
      match set_loop w1.buf names 0 w1 with
      | (w2, Scan.stuck) => (w2, Step.stuck)
      | (w2, Scan.error) => (w2, Step.error)
      | (w2, Scan.done i) =>
        if i = names.length then
          match usage w2 with
          | (w3, none) => (w3, Step.stuck)
          | (w3, some ret) => if ret < 0 then (w3, Step.error) else (w3, Step.serving)
        else (w2, Step.serving) := by
  have hc : ¬ strcmp w1.buf (ascii "list") = 0 := by
    rw [strcmp_eq_zero, cstr_of_not_mem (show (0 : Byte) ∉ ascii "list" by decide)]
    exact hr
  simp [serve_step, hg, hc]

/-- Driving the GPIO and answering, when the driver and every send succeed. -/
theorem set_and_reply_full (w : World) (i : Nat) (value ret : Int) (sets : List Int)
    (sends : List Int) (hsets : w.sets = ret :: sets) (hret : 0 ≤ ret)
    (hsends : w.sends = full_script (ascii "OK") ++ full_script (ascii "") ++ sends) :
    set_and_reply w i value
      = ({ w with sets := sets, sends := sends,
                  trace := w.trace ++ [Event.gpio_pin_set i value ret]
                    ++ line_events (ascii "OK") ++ line_events (ascii "") },
         Scan.done i) := by
  have hneg : ¬ ret < 0 := by omega
  rw [List.append_assoc] at hsends
  simp only [set_and_reply, gpio_pin_set_dt, hsets, hneg, ite_false]
  have key := send_response_full
    { sock := w.sock, sends := w.sends, sets := sets, buf := w.buf,
      trace := w.trace ++ [Event.gpio_pin_set i value ret] } (ascii "OK") _ (by decide) hsends
  rw [key]
  simp only [Int.reduceNeg]
  rw [if_neg (by decide), send_response_full _ (ascii "") sends (by decide) rfl]
  simp

theorem names_split (names : List (List Byte)) (j : Nat) (hj : j < names.length) :
    names = names.take j ++ names[j] :: names.drop (j + 1) := by
  rw [← List.drop_eq_getElem_cons hj, List.take_append_drop]

/-- What `get_request` does with one delivery of at most 127 bytes that holds a
non-empty line `line`, bare or followed by CR LF. -/
theorem get_request_line (w : World) (line tail : List Byte) (rest : List Delivery)
    (hline : line ≠ []) (hbare : ¬ [13, 10] <:+ line) (htail : tail = [] ∨ tail = [13, 10])
    (hlen : (line ++ tail).length ≤ 127)
    (hsock : w.sock = Delivery.data (line ++ tail) :: rest) :
    get_request w
      = ({ w with sock := rest, buf := buf_after (line ++ tail) w.buf,
                  trace := w.trace ++ [Event.recv (line ++ tail).length (line ++ tail)] },
         some 0)
      ∧ cstr (buf_after (line ++ tail) w.buf) = cstr line := by
  have hstrip : strip_crlf (line ++ tail) = line := by
    rcases htail with rfl | rfl
    · rw [List.append_nil]
      exact strip_crlf_of_not_suffix hbare
    · exact strip_crlf_append_crlf line
  have hd : line ++ tail ≠ [] := by
    intro e
    exact hline (List.append_eq_nil.mp e).1
  have hne : line ++ tail ≠ [13, 10] := by
    intro e
    have := (strip_crlf_eq_nil (line ++ tail)).mpr (Or.inr e)
    rw [hstrip] at this
    exact hline this
  have h := get_request_data w (line ++ tail) rest hsock hd hne
  rw [List.take_of_length_le hlen, List.drop_eq_nil_of_le hlen] at h
  refine ⟨by simpa using h, ?_⟩
  rw [cstr_buf_after, hstrip]

/-- The turn of the serving loop for a request that is neither "list" nor a
registered name followed by " on" or " off": after the read it is one call of
`usage`. -/
theorem serve_step_unknown (names : List (List Byte)) (hwf : ∀ n ∈ names, (0 : Byte) ∉ n)
    (w w1 : World) (hg : get_request w = (w1, some 0)) (hl : cstr w1.buf ≠ ascii "list")
    (hn : ∀ n ∈ names, ∀ v, cstr w1.buf ≠ n ++ verb v) :
    serve_step names w = ((usage w1).1, Step.after (usage w1).2) := by
  rw [serve_step_other names w w1 hg hl, set_loop_none w1.buf names hwf hn 0 w1]
  simp only [Nat.zero_add, ite_true]
  rcases hu : usage w1 with ⟨w3, _ | ret⟩
  · rfl
  · simp only [Step.after]
    split <;> rfl

/-- The turn of the serving loop for a request that is a registered name followed
by " on" or " off": the first such name in registry order is the one that is
set. -/
theorem serve_step_set (names : List (List Byte)) (hwf : ∀ n ∈ names, (0 : Byte) ∉ n)
    (w w1 : World) (hg : get_request w = (w1, some 0)) (j : Nat) (hj : j < names.length)
    (v : Bool) (hm : cstr w1.buf = names[j] ++ verb v)
    (hfirst : ∀ n ∈ names.take j, ∀ v', cstr w1.buf ≠ n ++ verb v') :
    serve_step names w
      = ((set_and_reply w1 j (level v)).1, Step.afterScan (set_and_reply w1 j (level v)).2) := by
  have hl : cstr w1.buf ≠ ascii "list" := by
    rw [hm]
    exact verb_ne_list _ v
  have hsplit := names_split names j hj
  have hloop := set_loop_first w1.buf (names.take j) names[j] (names.drop (j + 1)) v
    (by rw [← hsplit]; exact hwf) hfirst hm 0 w1
  rw [← hsplit, List.length_take_of_le (Nat.le_of_lt hj), Nat.zero_add] at hloop
  rw [serve_step_other names w w1 hg hl, hloop]
  have hdone : ∀ w2 i, (set_and_reply w1 j (level v)) = (w2, Scan.done i) → i = j := by
    intro w2 i h
    unfold set_and_reply at h
    split at h
    · simp at h
    · split at h
      · simp at h
      · split at h
        · simp at h
        · split at h
          · simp at h
          · split at h
            · simp at h
            · split at h
              · simp at h
              · simp only [Prod.mk.injEq, Scan.done.injEq] at h
                exact h.2.symm
  rcases hs : set_and_reply w1 j (level v) with ⟨w2, i | _ | _⟩
  · have := hdone w2 i hs
    subst this
    simp [Step.afterScan, Nat.ne_of_lt hj]
  · rfl
  · rfl

/-! ## Code that only sends -/

theorem SendsOnly.nothing (w : World) : SendsOnly w w :=
  ⟨rfl, rfl, rfl, [], by simp, by simp⟩

theorem SendsOnly.andThen {w w1 w2 : World} (h1 : SendsOnly w w1) (h2 : SendsOnly w1 w2) :
    SendsOnly w w2 := by
  obtain ⟨a1, b1, c1, e1, t1, s1⟩ := h1
  obtain ⟨a2, b2, c2, e2, t2, s2⟩ := h2
  refine ⟨a2.trans a1, b2.trans b1, c2.trans c1, e1 ++ e2, ?_, ?_⟩
  · rw [t2, t1, List.append_assoc]
  · intro e he
    rcases List.mem_append.mp he with h | h
    · exact s1 e h
    · exact s2 e h

theorem send_sendsOnly (w : World) (bytes : List Byte) : SendsOnly w (send w bytes).1 := by
  unfold send
  split
  · exact SendsOnly.nothing w
  · exact ⟨rfl, rfl, rfl, _, rfl, by simp [Event.is_send]⟩

theorem send_loop_sendsOnly (fuel : Nat) (w : World) (p : List Byte) (len : Int) :
    SendsOnly w (send_loop fuel w p len).1 := by
  induction fuel generalizing w p len with
  | zero =>
    unfold send_loop
    split <;> exact SendsOnly.nothing w
  | succ fuel ih =>
    unfold send_loop
    split
    · have hs := send_sendsOnly w (p.take len.toNat)
      rcases hsend : send w (p.take len.toNat) with ⟨w1, _ | out_len⟩
      · rw [hsend] at hs
        exact hs
      · rw [hsend] at hs
        simp only
        split
        · exact hs
        · exact hs.andThen (ih _ _ _)
    · exact SendsOnly.nothing w

theorem send_response_sendsOnly (w : World) (p : List Byte) :
    SendsOnly w (send_response w p).1 := by
  unfold send_response
  have h1 := send_loop_sendsOnly w.sends.length w p (strlen p)
  rcases hl : send_loop w.sends.length w p (strlen p) with ⟨w1, _ | r⟩
  · rw [hl] at h1
    exact h1
  · rw [hl] at h1
    simp only
    split
    · exact h1
    · have h2 := send_sendsOnly w1 (eol.take sizeof_eol)
      rcases hs : send w1 (eol.take sizeof_eol) with ⟨w2, _ | out_len⟩
      · rw [hs] at h2
        exact h1.andThen h2
      · rw [hs] at h2
        simp only
        split <;> exact h1.andThen h2

theorem send_each_sendsOnly (lines : List (List Byte)) (w : World) :
    SendsOnly w (send_each lines w).1 := by
  induction lines generalizing w with
  | nil => exact SendsOnly.nothing w
  | cons l lines ih =>
    unfold send_each
    have h1 := send_response_sendsOnly w l
    rcases hs : send_response w l with ⟨w1, _ | ret⟩
    · rw [hs] at h1
      exact h1
    · rw [hs] at h1
      simp only
      split
      · exact h1
      · exact h1.andThen (ih w1)

theorem usage_sendsOnly (w : World) : SendsOnly w (usage w).1 :=
  send_each_sendsOnly usage_str w

theorem buf_after_take (got old : List Byte) (h : got.length < old.length) :
    (buf_after got old).take ((strip_crlf got).length + 1) = strip_crlf got ++ [0] := by
  obtain ⟨t, ht, -⟩ := strip_crlf_append got
  have e : buf_after got old
      = (strip_crlf got ++ (t ++ old.drop got.length)).set (strip_crlf got).length 0 := by
    unfold buf_after
    rw [← List.append_assoc, ht]
  rw [e, List.set_append_right _ _ (le_refl _), Nat.sub_self]
  cases hc : t ++ List.drop got.length old with
  | nil =>
    have hl := congrArg List.length hc
    simp only [List.length_append, List.length_drop, List.length_nil] at hl
    omega
  | cons a r =>
    simp only [List.set_cons_zero]
    rw [List.take_append_eq_append_take]
    simp

theorem buf_after_length (got old : List Byte) (h : got.length ≤ old.length) :
    (buf_after got old).length = old.length := by
  unfold buf_after
  simp only [List.length_set, List.length_append, List.length_drop]
  omega

/-! ## The shape of the trace -/

theorem Grows.refl (w : World) : Grows w w false :=
  ⟨[], by simp, by simp⟩

theorem Grows.of_trace_eq {w w1 w2 : World} {b : Bool} (h : Grows w w1 b)
    (ht : w2.trace = w1.trace) : Grows w w2 b := by
  obtain ⟨evs, h1, h2⟩ := h
  exact ⟨evs, ht.trans h1, h2⟩

theorem Grows.trans {w w1 w2 : World} {b : Bool} (h1 : Grows w w1 false) (h2 : Grows w1 w2 b) :
    Grows w w2 b := by
  obtain ⟨e1, t1, s1⟩ := h1
  obtain ⟨e2, t2, s2⟩ := h2
  simp only [Bool.false_eq_true, ite_false] at s1
  refine ⟨e1 ++ e2, by rw [t2, t1, List.append_assoc], ?_⟩
  cases b with
  | false =>
    simp only [Bool.false_eq_true, ite_false] at s2 ⊢
    intro x hx
    rcases List.mem_append.mp hx with h | h
    · exact s1 x h
    · exact s2 x h
  | true =>
    simp only [ite_true] at s2 ⊢
    obtain ⟨pre, e, he, hp, hf⟩ := s2
    refine ⟨e1 ++ pre, e, by rw [he, List.append_assoc], ?_, hf⟩
    intro x hx
    rcases List.mem_append.mp hx with h | h
    · exact s1 x h
    · exact hp x h

theorem Grows.one_smooth (w : World) (e : Event) (h : e.smooth = true) :
    Grows w { w with trace := w.trace ++ [e] } false :=
  ⟨[e], rfl, by simpa using h⟩

theorem Grows.one_fatal (w : World) (e : Event) (h : e.fatal = true) :
    Grows w { w with trace := w.trace ++ [e] } true :=
  ⟨[e], rfl, by simpa using ⟨[], e, by simp, by simp, h⟩⟩

theorem send_grows (w : World) (bytes : List Byte) :
    Grows w (send w bytes).1 (failedRet (send w bytes).2) := by
  unfold send
  split
  · exact Grows.refl w
  · rename_i r rest hs
    by_cases hr : r < 0
    · have hf : failedRet (some r) = true := by simp [failedRet, hr]
      simp only [hf]
      exact ⟨[Event.send bytes r], rfl,
        by simpa using ⟨[], Event.send bytes r, by simp, by simp, by simp [Event.fatal, hr]⟩⟩
    · have hf : failedRet (some r) = false := by simp [failedRet, hr]
      simp only [hf]
      exact ⟨[Event.send bytes r], rfl, by simpa [Event.smooth] using hr⟩

theorem send_loop_grows (fuel : Nat) (w : World) (p : List Byte) (len : Int) :
    Grows w (send_loop fuel w p len).1 (failedRet (send_loop fuel w p len).2) := by
  induction fuel generalizing w p len with
  | zero =>
    unfold send_loop
    split <;> exact Grows.refl w
  | succ fuel ih =>
    unfold send_loop
    split
    · have hs := send_grows w (p.take len.toNat)
      rcases hsend : send w (p.take len.toNat) with ⟨w1, _ | out_len⟩
      · rw [hsend] at hs
        exact hs
      · rw [hsend] at hs
        simp only
        split
        · rename_i hneg
          have : failedRet (some out_len) = true := by simp [failedRet, hneg]
          rw [this] at hs
          exact hs
        · rename_i hneg
          have : failedRet (some out_len) = false := by simp [failedRet, hneg]
          rw [this] at hs
          exact hs.trans (ih _ _ _)
    · exact Grows.refl w

theorem send_response_grows (w : World) (p : List Byte) :
    Grows w (send_response w p).1 (failedRet (send_response w p).2) := by
  unfold send_response
  have h1 := send_loop_grows w.sends.length w p (strlen p)
  rcases hl : send_loop w.sends.length w p (strlen p) with ⟨w1, _ | r⟩
  · rw [hl] at h1
    exact h1
  · rw [hl] at h1
    simp only
    split
    · rename_i hneg
      have : failedRet (some r) = true := by simp [failedRet, hneg]
      rw [this] at h1
      exact h1
    · rename_i hneg
      have : failedRet (some r) = false := by simp [failedRet, hneg]
      rw [this] at h1
      have h2 := send_grows w1 (eol.take sizeof_eol)
      rcases hs : send w1 (eol.take sizeof_eol) with ⟨w2, _ | out_len⟩
      · rw [hs] at h2
        exact h1.trans h2
      · rw [hs] at h2
        simp only
        split
        · rename_i hneg2
          have : failedRet (some out_len) = true := by simp [failedRet, hneg2]
          rw [this] at h2
          exact h1.trans h2
        · rename_i hneg2
          have : failedRet (some out_len) = false := by simp [failedRet, hneg2]
          rw [this] at h2
          exact h1.trans h2

theorem send_each_grows (lines : List (List Byte)) (w : World) :
    Grows w (send_each lines w).1 (failedRet (send_each lines w).2) := by
  induction lines generalizing w with
  | nil => exact Grows.refl w
  | cons l lines ih =>
    unfold send_each
    have h1 := send_response_grows w l
    rcases hs : send_response w l with ⟨w1, _ | ret⟩
    · rw [hs] at h1
      exact h1
    · rw [hs] at h1
      simp only
      split
      · rename_i hneg
        have : failedRet (some ret) = true := by simp [failedRet, hneg]
        rw [this] at h1
        exact h1
      · rename_i hneg
        have : failedRet (some ret) = false := by simp [failedRet, hneg]
        rw [this] at h1
        exact h1.trans (ih w1)

theorem usage_grows (w : World) : Grows w (usage w).1 (failedRet (usage w).2) :=
  send_each_grows usage_str w

theorem gpio_pin_set_dt_grows (w : World) (i : Nat) (value : Int) :
    Grows w (gpio_pin_set_dt w i value).1 (failedRet (gpio_pin_set_dt w i value).2) := by
  unfold gpio_pin_set_dt
  split
  · exact Grows.refl w
  · rename_i r rest hs
    by_cases hr : r < 0
    · have hf : failedRet (some r) = true := by simp [failedRet, hr]
      simp only [hf]
      exact Grows.one_fatal w _ (by simp [Event.fatal, hr])
    · have hf : failedRet (some r) = false := by simp [failedRet, hr]
      simp only [hf]
      exact (Grows.one_smooth w (Event.gpio_pin_set i value r)
        (by simpa [Event.smooth] using hr)).of_trace_eq rfl

theorem recv_grows (w : World) (n : Nat) :
    Grows w (recv w n).1
      (match (recv w n).2 with
       | none => false
       | some len => decide (len ≤ 0)) := by
  unfold recv
  split
  · exact Grows.refl w
  · exact (Grows.one_fatal w (Event.recv (-1) []) (by decide)).of_trace_eq rfl
  · rename_i d rest hs
    by_cases hd : ((d.take n).length : Int) ≤ 0
    · simp only [hd, decide_True]
      exact (Grows.one_fatal w (Event.recv (d.take n).length (d.take n))
        (decide_eq_true hd)).of_trace_eq rfl
    · simp only [hd, decide_False]
      exact (Grows.one_smooth w (Event.recv (d.take n).length (d.take n))
        (decide_eq_true (by omega))).of_trace_eq rfl

theorem get_request_loop_grows (fuel : Nat) (w : World) :
    Grows w (get_request_loop fuel w).1 (failedRet (get_request_loop fuel w).2) := by
  induction fuel generalizing w with
  | zero => exact Grows.refl w
  | succ fuel ih =>
    unfold get_request_loop
    have h1 := recv_grows w (sizeof_buf - 1)
    rcases hr : recv w (sizeof_buf - 1) with ⟨w1, _ | len⟩
    · rw [hr] at h1
      exact h1
    · rw [hr] at h1
      simp only at h1 ⊢
      split
      · rename_i hle
        simp only [hle, decide_True] at h1
        exact h1
      · rename_i hle
        simp only [hle, decide_False] at h1
        have key : ∀ len' : Int,
            Grows w (if len' = 0 then get_request_loop fuel w1
              else ({ w1 with buf := w1.buf.set len'.toNat 0 }, some 0)).1
              (failedRet (if len' = 0 then get_request_loop fuel w1
                else ({ w1 with buf := w1.buf.set len'.toNat 0 }, some 0)).2) := by
          intro len'
          split
          · exact h1.trans (ih w1)
          · exact h1.of_trace_eq rfl
        exact key _

theorem get_request_grows (w : World) :
    Grows w (get_request w).1 (failedRet (get_request w).2) :=
  get_request_loop_grows _ w

theorem set_and_reply_grows (w : World) (i : Nat) (value : Int) :
    Grows w (set_and_reply w i value).1 (set_and_reply w i value).2.failed := by
  unfold set_and_reply
  have h1 := gpio_pin_set_dt_grows w i value
  rcases hg : gpio_pin_set_dt w i value with ⟨w1, _ | ret⟩
  · rw [hg] at h1
    exact h1
  · rw [hg] at h1
    simp only
    split
    · rename_i hneg
      have : failedRet (some ret) = true := by simp [failedRet, hneg]
      rw [this] at h1
      exact h1
    · rename_i hneg
      have : failedRet (some ret) = false := by simp [failedRet, hneg]
      rw [this] at h1
      have h2 := send_response_grows w1 (ascii "OK")
      rcases hs : send_response w1 (ascii "OK") with ⟨w2, _ | ret2⟩
      · rw [hs] at h2
        exact h1.trans h2
      · rw [hs] at h2
        simp only
        split
        · rename_i hneg2
          have : failedRet (some ret2) = true := by simp [failedRet, hneg2]
          rw [this] at h2
          exact h1.trans h2
        · rename_i hneg2
          have : failedRet (some ret2) = false := by simp [failedRet, hneg2]
          rw [this] at h2
          have h3 := send_response_grows w2 (ascii "")
          rcases hs3 : send_response w2 (ascii "") with ⟨w3, _ | ret3⟩
          · rw [hs3] at h3
            exact (h1.trans h2).trans h3
          · rw [hs3] at h3
            simp only
            split
            · rename_i hneg3
              have : failedRet (some ret3) = true := by simp [failedRet, hneg3]
              rw [this] at h3
              exact (h1.trans h2).trans h3
            · rename_i hneg3
              have : failedRet (some ret3) = false := by simp [failedRet, hneg3]
              rw [this] at h3
              exact (h1.trans h2).trans h3

theorem set_loop_grows (req : List Byte) (names : List (List Byte)) (i : Nat) (w : World) :
    Grows w (set_loop req names i w).1 (set_loop req names i w).2.failed := by
  induction names generalizing i with
  | nil => exact Grows.refl w
  | cons name names ih =>
    have key : ∀ value : Int,
        Grows w (if value ≥ 0 then set_and_reply w i value
          else set_loop req names (i + 1) w).1
          (if value ≥ 0 then set_and_reply w i value
            else set_loop req names (i + 1) w).2.failed := by
      intro value
      split
      · exact set_and_reply_grows w i value
      · exact ih (i + 1)
    unfold set_loop
    simp only
    split
    · exact key _
    · exact ih (i + 1)

theorem serve_step_grows (names : List (List Byte)) (w : World) :
    Grows w (serve_step names w).1 (serve_step names w).2.failed := by
  unfold serve_step
  have h1 := get_request_grows w
  rcases hg : get_request w with ⟨w1, _ | ret⟩
  · rw [hg] at h1
    exact h1
  · rw [hg] at h1
    simp only
    split
    · rename_i hneg
      have : failedRet (some ret) = true := by simp [failedRet, hneg]
      rw [this] at h1
      exact h1
    · rename_i hneg
      have : failedRet (some ret) = false := by simp [failedRet, hneg]
      rw [this] at h1
      split
      · have h2 := send_each_grows names w1
        rcases hs : send_each names w1 with ⟨w2, _ | ret2⟩
        · rw [hs] at h2
          exact h1.trans h2
        · rw [hs] at h2
          simp only
          split
          · rename_i hneg2
            have : failedRet (some ret2) = true := by simp [failedRet, hneg2]
            rw [this] at h2
            exact h1.trans h2
          · rename_i hneg2
            have : failedRet (some ret2) = false := by simp [failedRet, hneg2]
            rw [this] at h2
            have h3 := send_response_grows w2 (ascii "")
            rcases hs3 : send_response w2 (ascii "") with ⟨w3, _ | ret3⟩
            · rw [hs3] at h3
              exact (h1.trans h2).trans h3
            · rw [hs3] at h3
              simp only
              split
              · rename_i hneg3
                have : failedRet (some ret3) = true := by simp [failedRet, hneg3]
                rw [this] at h3
                exact (h1.trans h2).trans h3
              · rename_i hneg3
                have : failedRet (some ret3) = false := by simp [failedRet, hneg3]
                rw [this] at h3
                exact (h1.trans h2).trans h3
      · have h2 := set_loop_grows w1.buf names 0 w1
        rcases hl : set_loop w1.buf names 0 w1 with ⟨w2, i | _ | _⟩
        · rw [hl] at h2
          simp only
          split
          · have h3 := usage_grows w2
            rcases hu : usage w2 with ⟨w3, _ | ret3⟩
            · rw [hu] at h3
              exact (h1.trans h2).trans h3
            · rw [hu] at h3
              simp only
              split
              · rename_i hneg3
                have : failedRet (some ret3) = true := by simp [failedRet, hneg3]
                rw [this] at h3
                exact (h1.trans h2).trans h3
              · rename_i hneg3
                have : failedRet (some ret3) = false := by simp [failedRet, hneg3]
                rw [this] at h3
                exact (h1.trans h2).trans h3
          · exact h1.trans h2
        · rw [hl] at h2
          exact h1.trans h2
        · rw [hl] at h2
          exact h1.trans h2

theorem serve_loop_grows (fuel : Nat) (names : List (List Byte)) (w : World) :
    Grows w (serve_loop fuel names w).1 (serve_loop fuel names w).2 := by
  induction fuel generalizing w with
  | zero => exact Grows.refl w
  | succ fuel ih =>
    unfold serve_loop
    have h1 := serve_step_grows names w
    rcases hs : serve_step names w with ⟨w1, _ | _ | _⟩
    · rw [hs] at h1
      exact h1.trans (ih w1)
    · rw [hs] at h1
      exact h1
    · rw [hs] at h1
      exact h1

/-- The trace of one connection: calls that succeeded, and when the connection
loop comes to its end, one fatal call and then `close`, the last two events. -/
theorem connection_shape (names : List (List Byte)) (w : World) :
    ∃ evs, (connection names w).1.trace = w.trace ++ evs ∧
      if (connection names w).2 then
        ∃ pre e, evs = pre ++ [e, Event.close] ∧ (∀ x ∈ pre, x.smooth = true) ∧ e.fatal = true
      else ∀ x ∈ evs, x.smooth = true := by
  have closing : ∀ w2 : World, Grows w w2 true →
      ∃ evs, (close w2).trace = w.trace ++ evs ∧
        ∃ pre e, evs = pre ++ [e, Event.close] ∧ (∀ x ∈ pre, x.smooth = true)
          ∧ e.fatal = true := by
    rintro w2 ⟨evs, ht, hs⟩
    simp only [ite_true] at hs
    obtain ⟨pre, e, he, hp, hf⟩ := hs
    refine ⟨evs ++ [Event.close], ?_, pre, e, ?_, hp, hf⟩
    · simp [close, ht]
    · simp [he]
  unfold connection
  have h1 := usage_grows w
  rcases hu : usage w with ⟨w1, _ | ret⟩
  · rw [hu] at h1
    exact h1
  · rw [hu] at h1
    simp only
    split
    · rename_i hneg
      have : failedRet (some ret) = true := by simp [failedRet, hneg]
      rw [this] at h1
      simpa using closing w1 h1
    · rename_i hneg
      have : failedRet (some ret) = false := by simp [failedRet, hneg]
      rw [this] at h1
      have h2 := serve_loop_grows (budget w1.sock) names w1
      rcases hl : serve_loop (budget w1.sock) names w1 with ⟨w2, _ | _⟩
      · rw [hl] at h2
        exact h1.trans h2
      · rw [hl] at h2
        simpa using closing w2 (h1.trans h2)

theorem smooth_not_fatal (e : Event) (hs : e.smooth = true) (hf : e.fatal = true) : False := by
  cases e with
  | accept ret => simp [Event.smooth] at hs
  | close => simp [Event.smooth] at hs
  | recv ret bytes =>
    simp only [Event.smooth, Event.fatal, decide_eq_true_eq] at hs hf
    omega
  | send bytes ret =>
    simp only [Event.smooth, Event.fatal, decide_eq_true_eq] at hs hf
    omega
  | gpio_pin_set i value ret =>
    simp only [Event.smooth, Event.fatal, decide_eq_true_eq] at hs hf
    omega

/-- In a list of events that is calls that succeeded, then `last`: a fatal event
can only stand where `last` begins. -/
theorem fatal_position (p0 : List Event) (last : List Event) (pre : List Event) (e : Event)
    (post : List Event) (hp0 : ∀ x ∈ p0, x.smooth = true) (hf : e.fatal = true)
    (h : pre ++ e :: post = p0 ++ last) :
    ∃ c, last = c ++ e :: post ∧ pre = p0 ++ c := by
  rcases List.append_eq_append_iff.mp h with ⟨a, ha, hb⟩ | ⟨c, hc, hd⟩
  · cases a with
    | nil =>
      refine ⟨[], ?_, ?_⟩
      · simpa using hb.symm
      · simpa using ha.symm
    | cons x a =>
      simp only [List.cons_append, List.cons.injEq] at hb
      have hx : x ∈ p0 := by
        rw [ha]
        simp
      have := hp0 x hx
      rw [← hb.1] at this
      exact (smooth_not_fatal e this hf).elim
  · exact ⟨c, hd, hc⟩

/-- In the trace of a connection a fatal call is followed by `close` and by nothing
else, and the connection loop has come to its end. -/
theorem fatal_then_close (names : List (List Byte)) (w : World) (pre : List Event)
    (e : Event) (post : List Event)
    (ht : (connection names w).1.trace = w.trace ++ pre ++ e :: post) (hf : e.fatal = true) :
    post = [Event.close] ∧ (connection names w).2 = true := by
  obtain ⟨evs, hevs, hshape⟩ := connection_shape names w
  rw [List.append_assoc, hevs] at ht
  have hev : evs = pre ++ e :: post := List.append_cancel_left ht
  cases hres : (connection names w).2 with
  | false =>
    rw [hres] at hshape
    simp only [Bool.false_eq_true, ite_false] at hshape
    have := hshape e (by rw [hev]; simp)
    exact (smooth_not_fatal e this hf).elim
  | true =>
    rw [hres] at hshape
    simp only [ite_true] at hshape
    obtain ⟨p0, e0, he, hp0, hf0⟩ := hshape
    rw [hev] at he
    obtain ⟨c, hc, -⟩ := fatal_position p0 [e0, Event.close] pre e post hp0 hf he
    refine ⟨?_, rfl⟩
    cases c with
    | nil =>
      simp only [List.nil_append, List.cons.injEq] at hc
      exact hc.2.symm
    | cons x c =>
      cases c with
      | nil =>
        simp only [List.cons_append, List.nil_append, List.cons.injEq] at hc
        rw [← hc.2.1] at hf
        simp [Event.fatal] at hf
      | cons y c =>
        have := congrArg List.length hc
        simp at this

theorem send_response_ret (w : World) (p : List Byte) :
    (send_response w p).2 = none ∨ (send_response w p).2 = some 0
      ∨ (send_response w p).2 = some (-1) := by
  unfold send_response
  rcases send_loop w.sends.length w p (strlen p) with ⟨w1, _ | r⟩
  · simp
  · simp only
    split
    · simp
    · rcases send w1 (eol.take sizeof_eol) with ⟨w2, _ | out_len⟩
      · simp
      · simp only
        split <;> simp

theorem get_request_skip (k : Nat) (w : World) (tl : List Delivery)
    (h : w.sock = List.replicate k (Delivery.data [13, 10]) ++ tl) :
    ∃ w', get_request w = get_request w' ∧ w'.sock = tl
      ∧ w'.trace = w.trace ++ List.replicate k (Event.recv 2 [13, 10])
      ∧ w'.sends = w.sends ∧ w'.sets = w.sets := by
  induction k generalizing w with
  | zero => exact ⟨w, rfl, by simpa using h, by simp, rfl, rfl⟩
  | succ k ih =>
    rw [List.replicate_succ, List.cons_append] at h
    obtain ⟨w', h1, h2, h3, h4, h5⟩ := ih
      { w with sock := List.replicate k (Delivery.data [13, 10]) ++ tl,
               buf := [13, 10] ++ w.buf.drop 2,
               trace := w.trace ++ [Event.recv 2 [13, 10]] } rfl
    refine ⟨w', ?_, h2, ?_, h4, h5⟩
    · rw [get_request_crlf w _ h, h1]
    · rw [h3, List.replicate_succ]
      simp

theorem sock_split (sock : List Delivery) :
    ∃ k tl, sock = List.replicate k (Delivery.data [13, 10]) ++ tl
      ∧ ∀ rest, tl ≠ Delivery.data [13, 10] :: rest := by
  induction sock with
  | nil => exact ⟨0, [], rfl, by simp⟩
  | cons x sock ih =>
    by_cases hx : x = Delivery.data [13, 10]
    · obtain ⟨k, tl, h1, h2⟩ := ih
      refine ⟨k + 1, tl, ?_, h2⟩
      rw [List.replicate_succ, List.cons_append, ← h1, hx]
    · refine ⟨0, x :: sock, rfl, ?_⟩
      intro rest e
      simp only [List.cons.injEq] at e
      exact hx e.1

theorem send_each_ret (lines : List (List Byte)) (w : World) :
    (send_each lines w).2 = none ∨ (send_each lines w).2 = some 0
      ∨ (send_each lines w).2 = some (-1) := by
  induction lines generalizing w with
  | nil => simp [send_each]
  | cons l lines ih =>
    unfold send_each
    rcases send_response w l with ⟨w1, _ | ret⟩
    · simp
    · simp only
      split
      · simp
      · exact ih w1

theorem send_each_append (a b : List (List Byte)) (w : World) :
    send_each (a ++ b) w =
      match send_each a w with
      | (w1, none) => (w1, none)
      | (w1, some ret) => if ret < 0 then (w1, some (-1)) else send_each b w1 := by
  induction a generalizing w with
  | nil => simp [send_each]
  | cons l a ih =>
    simp only [List.cons_append, send_each]
    rcases send_response w l with ⟨w1, _ | ret⟩
    · rfl
    · simp only
      split
      · simp
      · exact ih w1

theorem send_each_one (l : List Byte) (w : World) :
    send_each [l] w =
      match send_response w l with
      | (w1, none) => (w1, none)
      | (w1, some ret) => if ret < 0 then (w1, some (-1)) else (w1, some 0) := by
  rw [send_each]
  rcases send_response w l with ⟨w1, _ | ret⟩
  · rfl
  · simp only [send_each]

/-- The list branch of a turn is `send_response` on each name and then on the
empty string, up to the first failure. -/
theorem serve_step_list_each (names : List (List Byte)) (w w1 : World)
    (hg : get_request w = (w1, some 0)) (hr : cstr w1.buf = ascii "list") :
    serve_step names w
      = ((send_each (names ++ [ascii ""]) w1).1,
         Step.after (send_each (names ++ [ascii ""]) w1).2) := by
  rw [serve_step_list names w w1 hg hr, send_each_append]
  simp only [send_each_one]
  rcases send_each names w1 with ⟨w2, _ | ret⟩
  · rfl
  · simp only
    split
    · simp [Step.after]
    · rcases send_response w2 (ascii "") with ⟨w3, _ | ret3⟩
      · rfl
      · simp only
        split <;> simp [Step.after]

/-- After a driver call that succeeded, the body of `if (value >= 0)` is
`send_response` on "OK" and then on the empty string, up to the first failure. -/
theorem set_and_reply_each (w : World) (i : Nat) (value ret : Int) (sets : List Int)
    (hsets : w.sets = ret :: sets) (hret : 0 ≤ ret) :
    ((set_and_reply w i value).1, Step.afterScan (set_and_reply w i value).2)
      = ((send_each [ascii "OK", ascii ""]
            { w with sets := sets, trace := w.trace ++ [Event.gpio_pin_set i value ret] }).1,
         Step.after (send_each [ascii "OK", ascii ""]
            { w with sets := sets,
                     trace := w.trace ++ [Event.gpio_pin_set i value ret] }).2) := by
  have hneg : ¬ ret < 0 := by omega
  simp only [set_and_reply, gpio_pin_set_dt, hsets, hneg, ite_false, send_each]
  rcases send_response (World.mk w.sock w.sends sets w.buf
      (w.trace ++ [Event.gpio_pin_set i value ret])) (ascii "OK") with ⟨w2, _ | ret2⟩
  · rfl
  · simp only
    split
    · simp [Step.after, Step.afterScan]
    · rcases send_response w2 (ascii "") with ⟨w3, _ | ret3⟩
      · rfl
      · simp only
        split <;> simp [Step.after, Step.afterScan]

/-! ## The fuel of the loops is enough

Each loop of the model runs on as much fuel as its script is long. More fuel changes
nothing: a loop never stops for lack of fuel before the program blocks in an
external call whose script is used up. -/

theorem send_loop_fuel (k : Nat) (w : World) (p : List Byte) (len : Int) :
    send_loop (w.sends.length + k) w p len = send_loop w.sends.length w p len := by
  generalize hn : w.sends.length = n
  induction n generalizing w p len with
  | zero =>
    have hs : w.sends = [] := List.length_eq_zero.mp hn
    unfold send_loop
    split
    · cases k with
      | zero => rfl
      | succ k => simp [send, hs]
    · rfl
  | succ n ih =>
    obtain ⟨r, rest, hs⟩ := List.exists_cons_of_length_eq_add_one hn
    have e : n + 1 + k = (n + k) + 1 := by omega
    rw [e]
    unfold send_loop
    split
    · simp only [send, hs]
      split
      · rfl
      · exact ih _ _ _ (by simpa [hs] using hn)
    · rfl

theorem get_request_budget (w w1 : World) (h : get_request w = (w1, some 0)) :
    budget w1.sock < budget w.sock ∧ w1.sends = w.sends ∧ w1.sets = w.sets := by
  obtain ⟨k, tl, hsplit, hno⟩ := sock_split w.sock
  obtain ⟨w', h1, h2, -, h4, h5⟩ := get_request_skip k w tl hsplit
  have hb : budget tl ≤ budget w.sock := by
    rw [hsplit]
    clear hsplit h1 h
    induction k with
    | zero => simp
    | succ k ih =>
      rw [List.replicate_succ, List.cons_append]
      simp only [budget]
      omega
  rw [h1] at h
  cases tl with
  | nil =>
    rw [get_request_nil w' h2] at h
    simp at h
  | cons d rest =>
    cases d with
    | error =>
      rw [get_request_error w' rest h2] at h
      simp at h
    | data d =>
      by_cases hd : d = []
      · subst hd
        rw [get_request_closed w' rest h2] at h
        simp at h
      · have hne : d ≠ [13, 10] := by
          rintro rfl
          exact hno rest rfl
        rw [get_request_data w' d rest h2 hd hne] at h
        simp only [Prod.mk.injEq, and_true] at h
        have hlen : 0 < d.length := List.length_pos.mpr hd
        refine ⟨?_, by rw [← h, h4], by rw [← h, h5]⟩
        rw [← h]
        simp only [budget] at hb
        show budget (if d.drop 127 = [] then rest else Delivery.data (d.drop 127) :: rest) < _
        split
        · omega
        · simp only [budget, List.length_drop]
          omega

theorem gpio_pin_set_dt_sock (w : World) (i : Nat) (value : Int) :
    (gpio_pin_set_dt w i value).1.sock = w.sock := by
  unfold gpio_pin_set_dt
  split <;> rfl

theorem set_and_reply_sock (w : World) (i : Nat) (value : Int) :
    (set_and_reply w i value).1.sock = w.sock := by
  unfold set_and_reply
  have h1 := gpio_pin_set_dt_sock w i value
  rcases hg : gpio_pin_set_dt w i value with ⟨w1, _ | ret⟩
  · rw [hg] at h1
    exact h1
  · rw [hg] at h1
    simp only at h1 ⊢
    split
    · exact h1
    · have h2 := (send_response_sendsOnly w1 (ascii "OK")).1
      rcases hs2 : send_response w1 (ascii "OK") with ⟨w2, _ | ret2⟩
      · rw [hs2] at h2
        exact h2.trans h1
      · rw [hs2] at h2
        simp only at h2 ⊢
        split
        · exact h2.trans h1
        · have h3 := (send_response_sendsOnly w2 (ascii "")).1
          rcases hs3 : send_response w2 (ascii "") with ⟨w3, _ | ret3⟩
          · rw [hs3] at h3
            exact h3.trans (h2.trans h1)
          · rw [hs3] at h3
            simp only at h3 ⊢
            split <;> exact h3.trans (h2.trans h1)

theorem set_loop_sock (req : List Byte) (names : List (List Byte)) (i : Nat) (w : World) :
    (set_loop req names i w).1.sock = w.sock := by
  induction names generalizing i with
  | nil => rfl
  | cons name names ih =>
    have key : ∀ value : Int,
        (if value ≥ 0 then set_and_reply w i value
          else set_loop req names (i + 1) w).1.sock = w.sock := by
      intro value
      split
      · exact set_and_reply_sock w i value
      · exact ih (i + 1)
    unfold set_loop
    simp only
    split
    · exact key _
    · exact ih (i + 1)

/-- A turn of the serving loop leaves the socket as `get_request` left it. -/
theorem serve_step_sock (names : List (List Byte)) (w : World) :
    (serve_step names w).1.sock = (get_request w).1.sock := by
  unfold serve_step
  rcases get_request w with ⟨w1, _ | ret⟩
  · rfl
  · simp only
    split
    · rfl
    · split
      · have h2 := (send_each_sendsOnly names w1).1
        rcases hs2 : send_each names w1 with ⟨w2, _ | ret2⟩
        · rw [hs2] at h2
          exact h2
        · rw [hs2] at h2
          simp only at h2 ⊢
          split
          · exact h2
          · have h3 := (send_response_sendsOnly w2 (ascii "")).1
            rcases hs3 : send_response w2 (ascii "") with ⟨w3, _ | ret3⟩
            · rw [hs3] at h3
              exact h3.trans h2
            · rw [hs3] at h3
              simp only at h3 ⊢
              split <;> exact h3.trans h2
      · have h2 := set_loop_sock w1.buf names 0 w1
        rcases hs2 : set_loop w1.buf names 0 w1 with ⟨w2, i | _ | _⟩
        · rw [hs2] at h2
          simp only at h2 ⊢
          split
          · have h3 := (usage_sendsOnly w2).1
            rcases hs3 : usage w2 with ⟨w3, _ | ret3⟩
            · rw [hs3] at h3
              exact h3.trans h2
            · rw [hs3] at h3
              simp only at h3 ⊢
              split <;> exact h3.trans h2
          · exact h2
        · rw [hs2] at h2
          exact h2
        · rw [hs2] at h2
          exact h2

theorem serve_step_serving (names : List (List Byte)) (w : World)
    (h : (serve_step names w).2 = Step.serving) : (get_request w).2 = some 0 := by
  unfold serve_step at h
  rcases hg : get_request w with ⟨w1, _ | ret⟩
  · rw [hg] at h
    simp at h
  · rw [hg] at h
    simp only at h
    split at h
    · simp at h
    · simp only [Option.some.injEq]
      have hg2 := get_request_grows w
      obtain ⟨k, tl, hsplit, hno⟩ := sock_split w.sock
      obtain ⟨w', h1, h2, -, -, -⟩ := get_request_skip k w tl hsplit
      rw [h1] at hg
      cases tl with
      | nil =>
        rw [get_request_nil w' h2] at hg
        simp at hg
      | cons d rest =>
        cases d with
        | error =>
          rw [get_request_error w' rest h2] at hg
          simp only [Prod.mk.injEq, Option.some.injEq] at hg
          omega
        | data d =>
          by_cases hd : d = []
          · subst hd
            rw [get_request_closed w' rest h2] at hg
            simp only [Prod.mk.injEq, Option.some.injEq] at hg
            omega
          · have hne : d ≠ [13, 10] := by
              rintro rfl
              exact hno rest rfl
            rw [get_request_data w' d rest h2 hd hne] at hg
            simp only [Prod.mk.injEq, Option.some.injEq] at hg
            exact hg.2.symm

/-- A turn after which the connection is still served has taken at least one byte or
delivery off the socket. -/
theorem serve_step_budget (names : List (List Byte)) (w : World)
    (h : (serve_step names w).2 = Step.serving) :
    budget (serve_step names w).1.sock < budget w.sock := by
  rw [serve_step_sock]
  have hg := serve_step_serving names w h
  exact (get_request_budget w (get_request w).1 (by rw [← hg])).1

theorem budget_eq_zero (sock : List Delivery) (h : budget sock = 0) : sock = [] := by
  cases sock with
  | nil => rfl
  | cons x rest =>
    cases x <;> simp only [budget] at h <;> omega

theorem serve_loop_fuel (k : Nat) (names : List (List Byte)) (w : World) :
    serve_loop (budget w.sock + k) names w = serve_loop (budget w.sock) names w := by
  generalize hn : budget w.sock = n
  induction n using Nat.strong_induction_on generalizing w k with
  | _ n ih =>
    cases n with
    | zero =>
      have hs := budget_eq_zero w.sock hn
      cases k with
      | zero => rfl
      | succ k =>
        have : serve_step names w = (w, Step.stuck) := by
          simp [serve_step, get_request_nil w hs]
        simp [serve_loop, this]
    | succ n =>
      have e : n + 1 + k = (n + k) + 1 := by omega
      rw [e]
      unfold serve_loop
      have hb := serve_step_budget names w
      rcases hs : serve_step names w with ⟨w1, _ | _ | _⟩
      · rw [hs] at hb
        have hlt : budget w1.sock < n + 1 := by
          have := hb rfl
          simp only at this
          omega
        simp only
        have e1 : n + k = budget w1.sock + (n - budget w1.sock + k) := by omega
        have e2 : n = budget w1.sock + (n - budget w1.sock) := by omega
        rw [e1, ih (budget w1.sock) hlt _ w1 rfl]
        conv_rhs => rw [e2, ih (budget w1.sock) hlt _ w1 rfl]
      · rfl
      · rfl

/-! ## The accept loop -/

theorem accept_loop_extends (names : List (List Byte)) (accepts : List Accepted) (w : World) :
    ∃ evs, (accept_loop names accepts w).trace = w.trace ++ evs := by
  induction accepts generalizing w with
  | nil => exact ⟨[], by simp [accept_loop]⟩
  | cons a more ih =>
    cases a with
    | fail =>
      obtain ⟨evs, h⟩ := ih { w with trace := w.trace ++ [Event.accept (-1)] }
      exact ⟨Event.accept (-1) :: evs, by rw [accept_loop, h]; simp⟩
    | client fd sock =>
      obtain ⟨e1, h1, -⟩ := connection_shape names
        { w with sock := sock, trace := w.trace ++ [Event.accept fd] }
      rw [accept_loop]
      rcases hc : connection names { w with sock := sock, trace := w.trace ++ [Event.accept fd] }
        with ⟨w1, _ | _⟩
      · rw [hc] at h1
        exact ⟨Event.accept fd :: e1, by simpa using h1⟩
      · rw [hc] at h1
        obtain ⟨e2, h2⟩ := ih w1
        refine ⟨Event.accept fd :: e1 ++ e2, ?_⟩
        simp only at h1 ⊢
        rw [h2, h1]
        simp

/-- What the accept loop adds to the trace begins with an `accept`. -/
theorem accept_loop_starts (names : List (List Byte)) (accepts : List Accepted) (w : World) :
    ∃ evs, (accept_loop names accepts w).trace = w.trace ++ evs
      ∧ (evs = [] ∨ ∃ r rest, evs = Event.accept r :: rest) := by
  cases accepts with
  | nil => exact ⟨[], by simp [accept_loop], Or.inl rfl⟩
  | cons a more =>
    cases a with
    | fail =>
      obtain ⟨evs, h⟩ := accept_loop_extends names more
        { w with trace := w.trace ++ [Event.accept (-1)] }
      exact ⟨Event.accept (-1) :: evs, by rw [accept_loop, h]; simp, Or.inr ⟨_, _, rfl⟩⟩
    | client fd sock =>
      obtain ⟨evs, h⟩ := accept_loop_extends names (Accepted.client fd sock :: more) w
      obtain ⟨e1, h1, -⟩ := connection_shape names
        { w with sock := sock, trace := w.trace ++ [Event.accept fd] }
      rw [accept_loop] at h
      rcases hc : connection names { w with sock := sock, trace := w.trace ++ [Event.accept fd] }
        with ⟨w1, _ | _⟩
      · rw [hc] at h1
        refine ⟨Event.accept fd :: e1, ?_, Or.inr ⟨_, _, rfl⟩⟩
        rw [accept_loop, hc]
        simpa using h1
      · rw [hc] at h1
        obtain ⟨e2, h2⟩ := accept_loop_extends names more w1
        refine ⟨Event.accept fd :: e1 ++ e2, ?_, Or.inr ⟨_, _, rfl⟩⟩
        rw [accept_loop, hc]
        simp only at h1 ⊢
        rw [h2, h1]
        simp

theorem smooth_ne_close (x : Event) (h : x.smooth = true) :
    x ≠ Event.close ∧ ∀ r, x ≠ Event.accept r := by
  cases x <;> simp [Event.smooth] at h ⊢

theorem serve_step_eq (names : List (List Byte)) (w : World) :
    serve_step names w =
      match get_request w with
      | (w1, none) => (w1, Step.stuck)
      | (w1, some ret) => if ret < 0 then (w1, Step.error) else dispatch names w1 := rfl

theorem Alike.same {α : Type} {w w' : World} (henv : Env w w') (a : α) :
    Alike w w' (w, a) (w', a) :=
  ⟨rfl, henv, [], by simp, by simp⟩

theorem Alike.followedBy {α β : Type} {w w' v v' : World} {a a' : α} {r r' : World × β}
    (h1 : Alike w w' (v, a) (v', a')) (h2 : Alike v v' r r') : Alike w w' r r' := by
  obtain ⟨-, -, e1, t1, t1'⟩ := h1
  obtain ⟨hr, henv, e2, t2, t2'⟩ := h2
  refine ⟨hr, henv, e1 ++ e2, ?_, ?_⟩
  · rw [t2, t1, List.append_assoc]
  · rw [t2', t1', List.append_assoc]

theorem Alike.result {α β : Type} {w w' v v' : World} {a a' : α} (b : β)
    (h : Alike w w' (v, a) (v', a')) : Alike w w' (v, b) (v', b) :=
  ⟨rfl, h.2.1, h.2.2⟩

theorem send_alike (w w' : World) (bytes : List Byte) (henv : Env w w') :
    Alike w w' (send w bytes) (send w' bytes) := by
  obtain ⟨hs, hd, hg⟩ := henv
  unfold send
  rw [← hd]
  rcases w.sends with _ | ⟨r, rest⟩
  · exact Alike.same ⟨hs, hd, hg⟩ none
  · exact ⟨rfl, ⟨hs, rfl, hg⟩, [Event.send bytes r], rfl, rfl⟩

theorem gpio_pin_set_dt_alike (w w' : World) (i : Nat) (value : Int) (henv : Env w w') :
    Alike w w' (gpio_pin_set_dt w i value) (gpio_pin_set_dt w' i value) := by
  obtain ⟨hs, hd, hg⟩ := henv
  unfold gpio_pin_set_dt
  rw [← hg]
  rcases w.sets with _ | ⟨r, rest⟩
  · exact Alike.same ⟨hs, hd, hg⟩ none
  · exact ⟨rfl, ⟨hs, hd, rfl⟩, [Event.gpio_pin_set i value r], rfl, rfl⟩

theorem send_loop_alike (fuel : Nat) (w w' : World) (p : List Byte) (len : Int)
    (henv : Env w w') : Alike w w' (send_loop fuel w p len) (send_loop fuel w' p len) := by
  induction fuel generalizing w w' p len with
  | zero =>
    unfold send_loop
    split
    · exact Alike.same henv none
    · exact Alike.same henv (some 0)
  | succ fuel ih =>
    unfold send_loop
    split
    · have h1 := send_alike w w' (p.take len.toNat) henv
      rcases e : send w (p.take len.toNat) with ⟨v, a⟩
      rcases e' : send w' (p.take len.toNat) with ⟨v', a'⟩
      rw [e, e'] at h1
      have ha : a = a' := h1.1
      subst ha
      cases a with
      | none => exact h1
      | some out_len =>
        simp only
        split
        · exact h1.result (some (-1))
        · exact h1.followedBy (ih v v' _ _ h1.2.1)
    · exact Alike.same henv (some 0)

theorem send_response_alike (w w' : World) (p : List Byte) (henv : Env w w') :
    Alike w w' (send_response w p) (send_response w' p) := by
  unfold send_response
  rw [← henv.2.1]
  have h1 := send_loop_alike w.sends.length w w' p (strlen p) henv
  rcases e : send_loop w.sends.length w p (strlen p) with ⟨v, a⟩
  rcases e' : send_loop w.sends.length w' p (strlen p) with ⟨v', a'⟩
  rw [e, e'] at h1
  have ha : a = a' := h1.1
  subst ha
  cases a with
  | none => exact h1
  | some r =>
    simp only
    split
    · exact h1.result (some (-1))
    · have h2 := send_alike v v' (eol.take sizeof_eol) h1.2.1
      rcases e2 : send v (eol.take sizeof_eol) with ⟨u, b⟩
      rcases e2' : send v' (eol.take sizeof_eol) with ⟨u', b'⟩
      rw [e2, e2'] at h2
      have hb : b = b' := h2.1
      subst hb
      cases b with
      | none => exact h1.followedBy h2
      | some out_len =>
        simp only
        split
        · exact h1.followedBy (h2.result (some (-1)))
        · exact h1.followedBy (h2.result (some 0))

theorem send_each_alike (lines : List (List Byte)) (w w' : World) (henv : Env w w') :
    Alike w w' (send_each lines w) (send_each lines w') := by
  induction lines generalizing w w' with
  | nil => exact Alike.same henv (some 0)
  | cons l lines ih =>
    unfold send_each
    have h1 := send_response_alike w w' l henv
    rcases e : send_response w l with ⟨v, a⟩
    rcases e' : send_response w' l with ⟨v', a'⟩
    rw [e, e'] at h1
    have ha : a = a' := h1.1
    subst ha
    cases a with
    | none => exact h1
    | some ret =>
      simp only
      split
      · exact h1.result (some (-1))
      · exact h1.followedBy (ih v v' h1.2.1)

theorem usage_alike (w w' : World) (henv : Env w w') : Alike w w' (usage w) (usage w') :=
  send_each_alike usage_str w w' henv

theorem set_and_reply_alike (w w' : World) (i : Nat) (value : Int) (henv : Env w w') :
    Alike w w' (set_and_reply w i value) (set_and_reply w' i value) := by
  unfold set_and_reply
  have h1 := gpio_pin_set_dt_alike w w' i value henv
  rcases e : gpio_pin_set_dt w i value with ⟨v, a⟩
  rcases e' : gpio_pin_set_dt w' i value with ⟨v', a'⟩
  rw [e, e'] at h1
  have ha : a = a' := h1.1
  subst ha
  cases a with
  | none => exact h1.result Scan.stuck
  | some ret =>
    simp only
    split
    · exact h1.result Scan.error
    · have h2 := send_response_alike v v' (ascii "OK") h1.2.1
      rcases e2 : send_response v (ascii "OK") with ⟨u, b⟩
      rcases e2' : send_response v' (ascii "OK") with ⟨u', b'⟩
      rw [e2, e2'] at h2
      have hb : b = b' := h2.1
      subst hb
      cases b with
      | none => exact h1.followedBy (h2.result Scan.stuck)
      | some ret2 =>
        simp only
        split
        · exact h1.followedBy (h2.result Scan.error)
        · have h3 := send_response_alike u u' (ascii "") h2.2.1
          rcases e3 : send_response u (ascii "") with ⟨t, c⟩
          rcases e3' : send_response u' (ascii "") with ⟨t', c'⟩
          rw [e3, e3'] at h3
          have hc : c = c' := h3.1
          subst hc
          cases c with
          | none => exact h1.followedBy (h2.followedBy (h3.result Scan.stuck))
          | some ret3 =>
            simp only
            split
            · exact h1.followedBy (h2.followedBy (h3.result Scan.error))
            · exact h1.followedBy (h2.followedBy (h3.result (Scan.done i)))

/-- The LED loop looks at the request string only: two buffers that hold the same
C string are scanned alike. -/
theorem set_loop_alike (req req' : List Byte) (hreq : cstr req = cstr req')
    (names : List (List Byte)) (hwf : ∀ n ∈ names, (0 : Byte) ∉ n) (i : Nat) (w w' : World)
    (henv : Env w w') :
    Alike w w' (set_loop req names i w) (set_loop req' names i w') := by
  induction names generalizing i with
  | nil => exact Alike.same henv (Scan.done i)
  | cons name names ih =>
    have hn : (0 : Byte) ∉ name := hwf name (List.mem_cons_self _ _)
    have hwf' : ∀ n ∈ names, (0 : Byte) ∉ n := fun n h => hwf n (List.mem_cons_of_mem _ h)
    by_cases hm : ∃ v, cstr req = name ++ verb v
    · obtain ⟨v, hv⟩ := hm
      rw [set_loop_cons_match hn req v hv, set_loop_cons_match hn req' v (hreq ▸ hv)]
      exact set_and_reply_alike w w' i (level v) henv
    · have hno : ∀ v, cstr req ≠ name ++ verb v := fun v hv => hm ⟨v, hv⟩
      rw [set_loop_cons_skip hn req hno, set_loop_cons_skip hn req' (hreq ▸ hno)]
      exact ih hwf' (i + 1)

theorem get_request_loop_ret (fuel : Nat) (w : World) :
    (get_request_loop fuel w).2 = none ∨ (get_request_loop fuel w).2 = some 0
      ∨ (get_request_loop fuel w).2 = some (-1) := by
  induction fuel generalizing w with
  | zero => simp [get_request_loop]
  | succ fuel ih =>
    unfold get_request_loop
    rcases recv w (sizeof_buf - 1) with ⟨w1, _ | len⟩
    · simp
    · simp only
      split
      · simp
      · have key : ∀ len' : Int,
            (if len' = 0 then get_request_loop fuel w1
              else ({ w1 with buf := w1.buf.set len'.toNat 0 }, some 0)).2 = none
            ∨ (if len' = 0 then get_request_loop fuel w1
              else ({ w1 with buf := w1.buf.set len'.toNat 0 }, some 0)).2 = some 0
            ∨ (if len' = 0 then get_request_loop fuel w1
              else ({ w1 with buf := w1.buf.set len'.toNat 0 }, some 0)).2 = some (-1) := by
          intro len'
          split
          · exact ih w1
          · simp
        exact key _

theorem serve_step_ret_aux (w : World) :
    (get_request w).2 = none ∨ (get_request w).2 = some 0 ∨ (get_request w).2 = some (-1) :=
  get_request_loop_ret _ w

/-- The line reader does not depend on what the buffer held before: from the same
deliveries it makes the same calls, and on success hands over the same request. -/
theorem get_request_alike (w w' : World) (henv : Env w w') :
    Alike w w' (get_request w) (get_request w')
      ∧ ((get_request w).2 = some 0 →
          cstr (get_request w).1.buf = cstr (get_request w').1.buf) := by
  obtain ⟨hs, hd, hg⟩ := henv
  generalize hsock : w.sock = sock
  have hsock' : w'.sock = sock := hs ▸ hsock
  clear hs
  induction sock generalizing w w' with
  | nil =>
    rw [get_request_nil w hsock, get_request_nil w' hsock']
    exact ⟨Alike.same ⟨hsock.trans hsock'.symm, hd, hg⟩ none, by simp⟩
  | cons x rest ih =>
    cases x with
    | error =>
      rw [get_request_error w rest hsock, get_request_error w' rest hsock']
      exact ⟨⟨rfl, ⟨rfl, hd, hg⟩, [Event.recv (-1) []], rfl, rfl⟩, by simp⟩
    | data d =>
      by_cases hd0 : d = []
      · subst hd0
        rw [get_request_closed w rest hsock, get_request_closed w' rest hsock']
        exact ⟨⟨rfl, ⟨rfl, hd, hg⟩, [Event.recv 0 []], rfl, rfl⟩, by simp⟩
      · by_cases hc : d = [13, 10]
        · subst hc
          rw [get_request_crlf w rest hsock, get_request_crlf w' rest hsock']
          obtain ⟨h1, h2⟩ := ih
            { w with sock := rest, buf := [13, 10] ++ w.buf.drop 2,
                     trace := w.trace ++ [Event.recv 2 [13, 10]] }
            { w' with sock := rest, buf := [13, 10] ++ w'.buf.drop 2,
                      trace := w'.trace ++ [Event.recv 2 [13, 10]] } hd hg rfl rfl
          refine ⟨?_, h2⟩
          have h0 : Alike w w'
              (({ w with sock := rest, buf := [13, 10] ++ w.buf.drop 2,
                         trace := w.trace ++ [Event.recv 2 [13, 10]] } : World), ())
              (({ w' with sock := rest, buf := [13, 10] ++ w'.buf.drop 2,
                          trace := w'.trace ++ [Event.recv 2 [13, 10]] } : World), ()) :=
            ⟨rfl, ⟨rfl, hd, hg⟩, [Event.recv 2 [13, 10]], rfl, rfl⟩
          exact h0.followedBy h1
        · rw [get_request_data w d rest hsock hd0 hc, get_request_data w' d rest hsock' hd0 hc]
          refine ⟨⟨rfl, ⟨rfl, hd, hg⟩, [Event.recv (d.take 127).length (d.take 127)], rfl, rfl⟩,
            ?_⟩
          intro _
          show cstr (buf_after _ _) = cstr (buf_after _ _)
          rw [cstr_buf_after, cstr_buf_after]

/-- The command interpreter looks at the request string only. -/
theorem dispatch_alike (names : List (List Byte)) (hwf : ∀ n ∈ names, (0 : Byte) ∉ n)
    (w w' : World) (henv : Env w w') (hreq : cstr w.buf = cstr w'.buf) :
    Alike w w' (dispatch names w) (dispatch names w') := by
  unfold dispatch
  simp only
  have hl : (strcmp w.buf (ascii "list") = 0) ↔ (strcmp w'.buf (ascii "list") = 0) := by
    rw [strcmp_eq_zero, strcmp_eq_zero, hreq]
  by_cases hc : strcmp w.buf (ascii "list") = 0
  · rw [if_pos hc, if_pos (hl.mp hc)]
    have h1 := send_each_alike names w w' henv
    rcases e : send_each names w with ⟨v, a⟩
    rcases e' : send_each names w' with ⟨v', a'⟩
    rw [e, e'] at h1
    have ha : a = a' := h1.1
    subst ha
    cases a with
    | none => exact h1.result Step.stuck
    | some ret =>
      simp only
      split
      · exact h1.result Step.error
      · have h2 := send_response_alike v v' (ascii "") h1.2.1
        rcases e2 : send_response v (ascii "") with ⟨u, b⟩
        rcases e2' : send_response v' (ascii "") with ⟨u', b'⟩
        rw [e2, e2'] at h2
        have hb : b = b' := h2.1
        subst hb
        cases b with
        | none => exact h1.followedBy (h2.result Step.stuck)
        | some ret2 =>
          simp only
          split
          · exact h1.followedBy (h2.result Step.error)
          · exact h1.followedBy (h2.result Step.serving)
  · rw [if_neg hc, if_neg (fun h => hc (hl.mpr h))]
    have h1 := set_loop_alike w.buf w'.buf hreq names hwf 0 w w' henv
    rcases e : set_loop w.buf names 0 w with ⟨v, a⟩
    rcases e' : set_loop w'.buf names 0 w' with ⟨v', a'⟩
    rw [e, e'] at h1
    have ha : a = a' := h1.1
    subst ha
    cases a with
    | stuck => exact h1.result Step.stuck
    | error => exact h1.result Step.error
    | done i =>
      simp only
      split
      · have h2 := usage_alike v v' h1.2.1
        rcases e2 : usage v with ⟨u, b⟩
        rcases e2' : usage v' with ⟨u', b'⟩
        rw [e2, e2'] at h2
        have hb : b = b' := h2.1
        subst hb
        cases b with
        | none => exact h1.followedBy (h2.result Step.stuck)
        | some ret2 =>
          simp only
          split
          · exact h1.followedBy (h2.result Step.error)
          · exact h1.followedBy (h2.result Step.serving)
      · exact h1.result Step.serving

theorem serve_step_alike (names : List (List Byte)) (hwf : ∀ n ∈ names, (0 : Byte) ∉ n)
    (w w' : World) (henv : Env w w') :
    Alike w w' (serve_step names w) (serve_step names w') := by
  rw [serve_step_eq, serve_step_eq]
  obtain ⟨h1, hbuf⟩ := get_request_alike w w' henv
  rcases e : get_request w with ⟨v, a⟩
  rcases e' : get_request w' with ⟨v', a'⟩
  rw [e, e'] at h1 hbuf
  have ha : a = a' := h1.1
  subst ha
  cases a with
  | none => exact h1.result Step.stuck
  | some ret =>
    simp only
    split
    · exact h1.result Step.error
    · rename_i hneg
      have h0 : ret = 0 := by
        have hr := serve_step_ret_aux w
        rw [e] at hr
        rcases hr with hr | hr | hr
        · simp at hr
        · simpa using hr
        · simp only [Option.some.injEq] at hr
          omega
      subst h0
      exact h1.followedBy (dispatch_alike names hwf v v' h1.2.1 (hbuf rfl))

theorem serve_loop_alike (fuel : Nat) (names : List (List Byte))
    (hwf : ∀ n ∈ names, (0 : Byte) ∉ n) (w w' : World) (henv : Env w w') :
    Alike w w' (serve_loop fuel names w) (serve_loop fuel names w') := by
  induction fuel generalizing w w' with
  | zero => exact Alike.same henv false
  | succ fuel ih =>
    unfold serve_loop
    have h1 := serve_step_alike names hwf w w' henv
    rcases e : serve_step names w with ⟨v, a⟩
    rcases e' : serve_step names w' with ⟨v', a'⟩
    rw [e, e'] at h1
    have ha : a = a' := h1.1
    subst ha
    cases a with
    | serving => exact h1.followedBy (ih v v' h1.2.1)
    | error => exact h1.result true
    | stuck => exact h1.result false

theorem connection_alike (names : List (List Byte)) (hwf : ∀ n ∈ names, (0 : Byte) ∉ n)
    (w w' : World) (henv : Env w w') :
    Alike w w' (connection names w) (connection names w') := by
  have closing : ∀ v v' : World, ∀ b : Bool, Alike w w' (v, b) (v', b) →
      Alike w w' (close v, true) (close v', true) := by
    rintro v v' b ⟨-, henv', evs, t, t'⟩
    simp only at t t'
    refine ⟨rfl, henv', evs ++ [Event.close], ?_, ?_⟩
    · simp [close, t]
    · simp [close, t']
  unfold connection
  have h1 := usage_alike w w' henv
  rcases e : usage w with ⟨v, a⟩
  rcases e' : usage w' with ⟨v', a'⟩
  rw [e, e'] at h1
  have ha : a = a' := h1.1
  subst ha
  cases a with
  | none => exact h1.result false
  | some ret =>
    simp only
    split
    · exact closing v v' true (h1.result true)
    · rw [← h1.2.1.1]
      have h2 := serve_loop_alike (budget v.sock) names hwf v v' h1.2.1
      rcases e2 : serve_loop (budget v.sock) names v with ⟨u, b⟩
      rcases e2' : serve_loop (budget v.sock) names v' with ⟨u', b'⟩
      rw [e2, e2'] at h2
      have hb : b = b' := h2.1
      subst hb
      cases b with
      | false => exact h1.followedBy h2
      | true => exact closing u u' true (h1.followedBy h2)

/-- `memcmp` of a request against a name is decided at the request's NUL at the
latest: what the buffer holds behind the NUL does not change its value. -/
theorem memcmp_before_nul (s x x' name : List Byte) (hs : (0 : Byte) ∉ s) :
    memcmp (s ++ 0 :: x) name (strlen name) = memcmp (s ++ 0 :: x') name (strlen name) := by
  induction s generalizing name with
  | nil =>
    cases name with
    | nil => simp [strlen, memcmp]
    | cons c cs =>
      by_cases hc : c = 0
      · simp [strlen, hc, memcmp]
      · have hc' : ¬ (0 : Byte) = c := fun e => hc e.symm
        simp [strlen, hc, memcmp, hc']
  | cons a s ih =>
    simp only [List.mem_cons, not_or] at hs
    cases name with
    | nil => simp [strlen, memcmp]
    | cons c cs =>
      by_cases hc : c = 0
      · simp [strlen, hc, memcmp]
      · by_cases hac : a = c
        · subst hac
          simp only [strlen, hc, ite_false, List.cons_append, memcmp, List.headD_cons, ite_true,
            List.tail_cons]
          exact ih cs hs.2
        · simp [strlen, hc, memcmp, hac]

/-- A successful `get_request`: after any number of lone CR LF deliveries it has
read one more delivery, taken at most 127 bytes of it and left the rest queued. -/
theorem get_request_returns (w w1 : World) (h : get_request w = (w1, some 0)) :
    ∃ k d rest old, w.sock = List.replicate k (Delivery.data [13, 10]) ++ Delivery.data d :: rest
      ∧ d ≠ [] ∧ d ≠ [13, 10]
      ∧ w1.trace = w.trace ++ List.replicate k (Event.recv 2 [13, 10])
          ++ [Event.recv (d.take 127).length (d.take 127)]
      ∧ w1.buf = buf_after (d.take 127) old
      ∧ w1.sock = (if d.drop 127 = [] then rest else Delivery.data (d.drop 127) :: rest)
      ∧ cstr w1.buf = cstr (strip_crlf (d.take 127)) := by
  obtain ⟨k, tl, hsplit, hno⟩ := sock_split w.sock
  obtain ⟨w', h1, h2, h3, -, -⟩ := get_request_skip k w tl hsplit
  rw [h1] at h
  cases tl with
  | nil =>
    rw [get_request_nil w' h2] at h
    simp at h
  | cons d rest =>
    cases d with
    | error =>
      rw [get_request_error w' rest h2] at h
      simp at h
    | data d =>
      by_cases hb : d = []
      · subst hb
        rw [get_request_closed w' rest h2] at h
        simp at h
      · have hne : d ≠ [13, 10] := by
          rintro rfl
          exact hno rest rfl
        rw [get_request_data w' d rest h2 hb hne] at h
        simp only [Prod.mk.injEq, and_true] at h
        have hbuf : w1.buf = buf_after (d.take 127) w'.buf := by
          rw [← h]
        refine ⟨k, d, rest, w'.buf, hsplit, hb, hne, ?_, hbuf, ?_, ?_⟩
        · rw [← h]
          simp [h3]
        · rw [← h]
        · rw [hbuf, cstr_buf_after]

theorem no_verb_of_last (r : List Byte) (x : Byte) (hr : r.getLast? = some x)
    (h1 : x ≠ 110) (h2 : x ≠ 102) (n : List Byte) (v : Bool) : r ≠ n ++ verb v := by
  intro e
  rw [e, getLast_verb] at hr
  cases v
  · simp only [Bool.false_eq_true, ite_false, Option.some.injEq] at hr
    exact h2 hr.symm
  · simp only [ite_true, Option.some.injEq] at hr
    exact h1 hr.symm

/-- One delivery that holds a line which is neither "list" nor ends like a Set
request: the turn reads it and answers with the usage block. -/
theorem serve_step_usage_line (names : List (List Byte))
    (hwf : ∀ n ∈ names, (0 : Byte) ∉ n) (w : World) (line tail : List Byte)
    (rest : List Delivery) (x : Byte) (h0 : (0 : Byte) ∉ line)
    (hlast : line.getLast? = some x) (hx1 : x ≠ 110) (hx2 : x ≠ 102)
    (hlist : line ≠ ascii "list") (hbare : ¬ [13, 10] <:+ line)
    (htail : tail = [] ∨ tail = [13, 10]) (hlen : (line ++ tail).length ≤ 127)
    (hsock : w.sock = Delivery.data (line ++ tail) :: rest) :
    serve_step names w
      = ((usage { w with sock := rest, buf := buf_after (line ++ tail) w.buf,
                         trace := w.trace
                           ++ [Event.recv (line ++ tail).length (line ++ tail)] }).1,
         Step.after (usage { w with sock := rest, buf := buf_after (line ++ tail) w.buf,
                                    trace := w.trace
                                      ++ [Event.recv (line ++ tail).length
                                            (line ++ tail)] }).2) := by
  have hline : line ≠ [] := by
    rintro rfl
    simp at hlast
  obtain ⟨hg, hc⟩ := get_request_line w line tail rest hline hbare htail hlen hsock
  rw [cstr_of_not_mem h0] at hc
  exact serve_step_unknown names hwf w _ hg (by
      show cstr (buf_after _ _) ≠ _
      rw [hc]
      exact hlist)
    (by
      intro n _ v
      show cstr (buf_after _ _) ≠ _
      rw [hc]
      exact no_verb_of_last line x hlast hx1 hx2 n v)

/-- If some registered name followed by " on" or " off" is the request, there is a
first such index. -/
theorem first_match_exists (r : List Byte) (names : List (List Byte))
    (h : ∃ n ∈ names, ∃ v, r = n ++ verb v) :
    ∃ j, ∃ hj : j < names.length, ∃ v, r = names[j] ++ verb v
      ∧ ∀ n ∈ names.take j, ∀ v', r ≠ n ++ verb v' := by
  induction names with
  | nil =>
    obtain ⟨n, hn, -⟩ := h
    simp at hn
  | cons a names ih =>
    by_cases ha : ∃ v, r = a ++ verb v
    · obtain ⟨v, hv⟩ := ha
      exact ⟨0, by simp, v, hv, by simp⟩
    · obtain ⟨n, hn, v, hv⟩ := h
      rcases List.mem_cons.mp hn with rfl | hn'
      · exact absurd ⟨v, hv⟩ ha
      · obtain ⟨j, hj, v', hv', hfirst⟩ := ih ⟨n, hn', v, hv⟩
        refine ⟨j + 1, by simpa using hj, v', by simpa using hv', ?_⟩
        intro m hm v'' e
        simp only [List.take_succ_cons, List.mem_cons] at hm
        rcases hm with rfl | hm
        · exact ha ⟨v'', e⟩
        · exact hfirst m hm v'' e

/-- The body of `if (value >= 0)` makes one driver call and then only sends; with no
driver result pending it stays blocked in the driver call. -/
theorem set_and_reply_calls (w : World) (i : Nat) (value : Int) :
    (∀ ret sets, w.sets = ret :: sets →
        SendsOnly { w with sets := sets, trace := w.trace ++ [Event.gpio_pin_set i value ret] }
          (set_and_reply w i value).1)
      ∧ (w.sets = [] → set_and_reply w i value = (w, Scan.stuck)) := by
  constructor
  · intro ret sets hsets
    by_cases hret : ret < 0
    · have : set_and_reply w i value
          = ({ w with sets := sets, trace := w.trace ++ [Event.gpio_pin_set i value ret] },
             Scan.error) := by
        simp [set_and_reply, gpio_pin_set_dt, hsets, hret]
      rw [this]
      exact SendsOnly.nothing _
    · have h := set_and_reply_each w i value ret sets hsets (by omega)
      have h1 := congrArg Prod.fst h
      simp only at h1
      rw [h1]
      exact send_each_sendsOnly _ _
  · intro hsets
    simp [set_and_reply, gpio_pin_set_dt, hsets]

/-! ## Short writes -/

theorem send_loop_short (rs : List Int) (w : World) (p : List Byte) (rest : List Int)
    (fuel : Nat) (hsw : short_writes p.length rs) (hs : w.sends = rs ++ rest)
    (hfuel : rs.length ≤ fuel) :
    send_loop fuel w p p.length
      = ({ w with sends := rest, trace := w.trace ++ short_events p rs }, some 0) := by
  induction rs generalizing w p fuel with
  | nil =>
    simp only [short_writes] at hsw
    simp only [List.nil_append] at hs
    rw [hsw]
    simp only [Nat.cast_zero, send_loop_zero, short_events, List.append_nil, ← hs]
  | cons r rs ih =>
    obtain ⟨h1, h2, h3⟩ := hsw
    cases fuel with
    | zero => simp at hfuel
    | succ fuel =>
      have hpos : ((p.length : Nat) : Int) > 0 := by omega
      have hneg : ¬ r < 0 := by omega
      have hlen : ((p.length : Nat) : Int) - r = ((p.drop r.toNat).length : Nat) := by
        simp only [List.length_drop]
        omega
      have hlen' : (p.drop r.toNat).length = p.length - r.toNat := List.length_drop _ _
      unfold send_loop
      simp only [hpos, ite_true, send, hs, List.cons_append, Int.toNat_ofNat, List.take_length,
        hneg, ite_false]
      rw [hlen, ih _ (p.drop r.toNat) fuel (by rw [hlen']; exact h3) rfl
        (by simpa using hfuel)]
      simp [short_events]

theorem short_writes_length (n : Nat) (rs : List Int) (h : short_writes n rs) :
    rs.length ≤ n := by
  induction rs generalizing n with
  | nil => simp
  | cons r rs ih =>
    obtain ⟨h1, h2, h3⟩ := h
    have := ih _ h3
    simp only [List.length_cons]
    omega

theorem wire_short_events (p : List Byte) (rs : List Int) (h : short_writes p.length rs) :
    wire (short_events p rs) = p := by
  induction rs generalizing p with
  | nil =>
    simp only [short_writes] at h
    simp [short_events, wire, List.length_eq_zero.mp h]
  | cons r rs ih =>
    obtain ⟨h1, h2, h3⟩ := h
    simp only [short_events, wire]
    rw [ih (p.drop r.toNat) (by rw [List.length_drop]; exact h3), List.take_append_drop]

theorem short_events_split (p : List Byte) (pre : List Int) (r : Int) (post : List Int) :
    short_events p (pre ++ r :: post)
      = short_events p pre ++ Event.send (p.drop (accepted pre)) r
          :: short_events (p.drop (accepted pre + r.toNat)) post := by
  induction pre generalizing p with
  | nil => simp [short_events, accepted]
  | cons a pre ih =>
    have e1 : accepted (a :: pre) = a.toNat + accepted pre := by simp [accepted]
    rw [List.cons_append, short_events, ih, short_events, e1, List.drop_drop, List.drop_drop,
      List.cons_append, Nat.add_assoc]

theorem short_writes_split (n : Nat) (pre : List Int) (r : Int) (post : List Int)
    (h : short_writes n (pre ++ r :: post)) : 1 ≤ r ∧ accepted pre + r.toNat ≤ n := by
  induction pre generalizing n with
  | nil =>
    obtain ⟨h1, h2, -⟩ := h
    simp only [accepted, List.map_nil, List.sum_nil]
    omega
  | cons a pre ih =>
    obtain ⟨h1, h2, h3⟩ := h
    have := ih _ h3
    simp only [accepted, List.map_cons, List.sum_cons] at this ⊢
    omega

/-! ## Deliveries with a NUL byte -/

theorem cstr_strip_crlf_of_mem (chunk : List Byte) (h : (0 : Byte) ∈ chunk) :
    cstr (strip_crlf chunk) = cstr chunk := by
  obtain ⟨t, ht, htl⟩ := strip_crlf_append chunk
  rcases htl with rfl | rfl
  · rw [List.append_nil] at ht
    rw [ht]
  · have hs : (0 : Byte) ∈ strip_crlf chunk := by
      rw [← ht] at h
      rcases List.mem_append.mp h with h | h
      · exact h
      · simp at h
    obtain ⟨a, b, hab⟩ := List.append_of_mem hs
    conv_rhs => rw [← ht, hab, List.append_assoc, List.cons_append, cstr_append_zero]
    rw [hab, cstr_append_zero]

/-- A delivery of at most 127 bytes that holds a NUL byte: `get_request` returns it,
and the request string is what stands before its first NUL. -/
theorem get_request_nul (w : World) (chunk : List Byte) (rest : List Delivery)
    (h0 : (0 : Byte) ∈ chunk) (hlen : chunk.length ≤ 127)
    (hsock : w.sock = Delivery.data chunk :: rest) :
    get_request w
        = ({ w with sock := rest, buf := buf_after chunk w.buf,
                    trace := w.trace ++ [Event.recv chunk.length chunk] }, some 0)
      ∧ cstr (buf_after chunk w.buf) = cstr chunk := by
  have hd : chunk ≠ [] := by
    rintro rfl
    simp at h0
  have hne : chunk ≠ [13, 10] := by
    rintro rfl
    simp at h0
  have h := get_request_data w chunk rest hsock hd hne
  rw [List.take_of_length_le hlen, List.drop_eq_nil_of_le hlen] at h
  refine ⟨by simpa using h, ?_⟩
  rw [cstr_buf_after, cstr_strip_crlf_of_mem chunk h0]

/-- In a registry of pairwise distinct names no name before index `j`, followed by
" on" or " off", is `name_j` followed by " on" or " off". -/
theorem nodup_first (names : List (List Byte)) (hnd : names.Nodup) (j : Nat)
    (hj : j < names.length) (v : Bool) :
    ∀ n ∈ names.take j, ∀ v', names[j] ++ verb v ≠ n ++ verb v' := by
  have hsplit := names_split names j hj
  have hnot : names[j] ∉ names.take j := by
    have hnd' := hnd
    rw [hsplit] at hnd'
    have := (List.nodup_append.mp hnd').2.2
    intro hmem
    exact this hmem (List.mem_cons_self _ _)
  intro n hn v' e
  have := (verb_cancel e).1
  rw [← this] at hn
  exact hnot hn

theorem serve_step_dispatch (names : List (List Byte)) (w w1 : World)
    (hg : get_request w = (w1, some 0)) : serve_step names w = dispatch names w1 := by
  rw [serve_step_eq, hg]
  simp

/-- A turn of the accept loop begins with the `accept` event of the next entry of
the script. -/
theorem accept_loop_next (names : List (List Byte)) (a : Accepted) (more : List Accepted)
    (w : World) :
    ∃ later, (accept_loop names (a :: more) w).trace = w.trace ++ Event.accept a.ret :: later := by
  cases a with
  | fail =>
    obtain ⟨evs, h⟩ := accept_loop_extends names more
      { w with trace := w.trace ++ [Event.accept (-1)] }
    exact ⟨evs, by rw [accept_loop, h]; simp [Accepted.ret]⟩
  | client fd sock =>
    obtain ⟨e1, h1, -⟩ := connection_shape names
      { w with sock := sock, trace := w.trace ++ [Event.accept fd] }
    rcases hc : connection names { w with sock := sock, trace := w.trace ++ [Event.accept fd] }
      with ⟨w1, _ | _⟩
    · rw [hc] at h1
      refine ⟨e1, ?_⟩
      rw [accept_loop, hc]
      simpa [Accepted.ret] using h1
    · rw [hc] at h1
      obtain ⟨e2, h2⟩ := accept_loop_extends names more w1
      refine ⟨e1 ++ e2, ?_⟩
      rw [accept_loop, hc]
      simp only at h1 ⊢
      rw [h2, h1]
      simp [Accepted.ret]

/-- When a connection has ended with `close`, the accept loop goes on: the world is
the one the connection left, and the next event on the trace is the `accept` of the
next entry of the script. -/
theorem accept_loop_again (names : List (List Byte)) (fd : Nat) (sock : List Delivery)
    (a : Accepted) (more : List Accepted) (w w1 : World)
    (hc : connection names { w with sock := sock, trace := w.trace ++ [Event.accept fd] }
      = (w1, true)) :
    ∃ later, (accept_loop names (Accepted.client fd sock :: a :: more) w).trace
      = w1.trace ++ Event.accept a.ret :: later := by
  rw [accept_loop, hc]
  exact accept_loop_next names a more w1

/-- The accept loop over a script of one client runs that client's connection. -/
theorem accept_loop_one (names : List (List Byte)) (fd : Nat) (sock : List Delivery)
    (w : World) :
    accept_loop names [Accepted.client fd sock] w
      = (connection names { w with sock := sock, trace := w.trace ++ [Event.accept fd] }).1 := by
  rw [accept_loop]
  rcases connection names { w with sock := sock, trace := w.trace ++ [Event.accept fd] }
    with ⟨w1, _ | _⟩
  · rfl
  · simp [accept_loop]

/-! ## The claims -/

/-- C1: for a registry of pairwise distinct names (one may be the start of another), a
registered index `j` and a verb on/off, when the serving loop reads
`name_j ++ " on"` (or `" off"`) in one delivery of at most 127 bytes, bare or followed
by CR LF, and the driver call succeeds, the turn makes exactly one driver call, on
handle `j` with value 1 for on and 0 for off, and then is `send_response` on "OK"
and on the empty string and nothing else; when all the sends succeed the lines sent
are "OK" and "" and the connection stays in Serving. -/
theorem set_request_ok (names : List (List Byte)) (hwf : ∀ n ∈ names, (0 : Byte) ∉ n)
    (hnd : names.Nodup) (j : Nat) (hj : j < names.length) (v : Bool) (tail : List Byte)
    (htail : tail = [] ∨ tail = [13, 10]) (w : World) (rest : List Delivery) (ret : Int)
    (sets : List Int)
    (hlen : (names[j] ++ verb v ++ tail).length ≤ 127)
    (hsock : w.sock = Delivery.data (names[j] ++ verb v ++ tail) :: rest)
    (hsets : w.sets = ret :: sets) (hret : 0 ≤ ret) :
    serve_step names w
        = ((send_each [ascii "OK", ascii ""]
              { w with sock := rest, sets := sets,
                       buf := buf_after (names[j] ++ verb v ++ tail) w.buf,
                       trace := w.trace
                         ++ [Event.recv (names[j] ++ verb v ++ tail).length
                               (names[j] ++ verb v ++ tail),
                             Event.gpio_pin_set j (level v) ret] }).1,
           Step.after (send_each [ascii "OK", ascii ""]
              { w with sock := rest, sets := sets,
                       buf := buf_after (names[j] ++ verb v ++ tail) w.buf,
                       trace := w.trace
                         ++ [Event.recv (names[j] ++ verb v ++ tail).length
                               (names[j] ++ verb v ++ tail),
                             Event.gpio_pin_set j (level v) ret] }).2)
      ∧ SendsOnly
          { w with sock := rest, sets := sets,
                   buf := buf_after (names[j] ++ verb v ++ tail) w.buf,
                   trace := w.trace
                     ++ [Event.recv (names[j] ++ verb v ++ tail).length
                           (names[j] ++ verb v ++ tail),
                         Event.gpio_pin_set j (level v) ret] }
          (serve_step names w).1
      ∧ (∀ sends, w.sends = full_script (ascii "OK") ++ full_script (ascii "") ++ sends →
          serve_step names w
            = ({ w with sock := rest, sets := sets, sends := sends,
                        buf := buf_after (names[j] ++ verb v ++ tail) w.buf,
                        trace := w.trace
                          ++ [Event.recv (names[j] ++ verb v ++ tail).length
                                (names[j] ++ verb v ++ tail),
                              Event.gpio_pin_set j (level v) ret]
                          ++ line_events (ascii "OK") ++ line_events (ascii "") },
               Step.serving)) := by
  have hnj : (0 : Byte) ∉ names[j] := hwf _ (List.getElem_mem hj)
  have h0 : (0 : Byte) ∉ names[j] ++ verb v := by
    simp only [List.mem_append, not_or]
    exact ⟨hnj, verb_not_mem v⟩
  have hline : names[j] ++ verb v ≠ [] := by
    cases v <;> simp [verb, ascii_on, ascii_off]
  obtain ⟨hg, hc⟩ := get_request_line w (names[j] ++ verb v) tail rest hline
    (not_crlf_verb _ v) htail hlen hsock
  rw [cstr_of_not_mem h0] at hc
  have hsplit := names_split names j hj
  have hnot : names[j] ∉ names.take j := by
    have hnd' := hnd
    rw [hsplit] at hnd'
    have := (List.nodup_append.mp hnd').2.2
    intro hmem
    exact this hmem (List.mem_cons_self _ _)
  have hpre : ∀ n ∈ names.take j, ∀ v', names[j] ++ verb v ≠ n ++ verb v' := by
    intro n hn v' e
    have := (verb_cancel e).1
    rw [← this] at hn
    exact hnot hn
  have hstep := serve_step_set names hwf w _ hg j hj v hc (by
    intro n hn v'
    show cstr (buf_after _ _) ≠ _
    rw [hc]
    exact hpre n hn v')
  have heach := set_and_reply_each
    { w with sock := rest, buf := buf_after (names[j] ++ verb v ++ tail) w.buf,
             trace := w.trace ++ [Event.recv (names[j] ++ verb v ++ tail).length
               (names[j] ++ verb v ++ tail)] } j (level v) ret sets hsets hret
  rw [heach] at hstep
  have ht : ∀ a b : Event, w.trace ++ [a] ++ [b] = w.trace ++ [a, b] := by
    intro a b
    simp
  dsimp only at hstep
  rw [ht] at hstep
  refine ⟨hstep, ?_, ?_⟩
  · rw [hstep]
    exact send_each_sendsOnly _ _
  · intro sends hsends
    rw [hstep, send_each_full [ascii "OK", ascii ""] _ sends (by decide)
      (by simpa [List.flatMap] using hsends)]
    simp [Step.after, List.flatMap]

theorem set_request_ok_witness :
    serve_step [ascii "led0", ascii "led01"]
        (World.example [ascii "led01 on\r\n"] [2, 2, 2] [0])
      = ({ sock := [], sends := [], sets := [],
           buf := ascii "led01 on" ++ 0 :: 10 :: List.replicate 118 0,
           trace := [Event.recv 10 (ascii "led01 on\r\n"), Event.gpio_pin_set 1 1 0,
                     Event.send (ascii "OK") 2, Event.send [10, 0] 2, Event.send [10, 0] 2] },
         Step.serving) :=
  (set_request_ok [ascii "led0", ascii "led01"] (by decide) (by decide) 1 (by decide)
    true [13, 10] (Or.inr rfl) (World.example [ascii "led01 on\r\n"] [2, 2, 2] [0]) [] 0 []
    (by decide) (by decide) rfl (by decide)).2.2 [] (by decide)

/-- C2 (counterexample): registry [led0, led01], request "led01 on". The name led0 at
index 0 is a literal start of the request and what follows it, "1 on", is neither
" on" nor " off"; yet the turn sets led01 (handle 1, value 1) and answers "OK" and
an empty line, not the usage block. -/
theorem shadowing_counterexample :
    ascii "led01 on" = ascii "led0" ++ ascii "1 on"
      ∧ ascii "1 on" ≠ ascii " on" ∧ ascii "1 on" ≠ ascii " off"
      ∧ (serve_step [ascii "led0", ascii "led01"]
          (World.example [ascii "led01 on"] [2, 2, 2] [0])).1.trace
        = [Event.recv 8 (ascii "led01 on"), Event.gpio_pin_set 1 1 0,
           Event.send (ascii "OK") 2, Event.send [10, 0] 2, Event.send [10, 0] 2] := by
  decide

/-- C2 (amended): when the name at index `k` is a literal start of the request and
what follows it is neither " on" nor " off", the LED loop passes over actuator `k`
without a driver call and goes on with the later actuators. The request, when it is
not "list", gets the usage block and no driver call if no registered name followed
by " on" or " off" is the request; if some registered name is, the first such
actuator, which is not `k`, is set and answered. -/
theorem shadowing_falls_through (names : List (List Byte))
    (hwf : ∀ n ∈ names, (0 : Byte) ∉ n) (w w1 : World) (hg : get_request w = (w1, some 0))
    (k : Nat) (hk : k < names.length) (t : List Byte) (hpre : cstr w1.buf = names[k] ++ t)
    (hon : t ≠ ascii " on") (hoff : t ≠ ascii " off") :
    (∀ i w', set_loop w1.buf (names.drop k) i w'
        = set_loop w1.buf (names.drop (k + 1)) (i + 1) w')
      ∧ (cstr w1.buf ≠ ascii "list" → (∀ n ∈ names, ∀ v, cstr w1.buf ≠ n ++ verb v) →
          serve_step names w = ((usage w1).1, Step.after (usage w1).2)
            ∧ SendsOnly w1 (serve_step names w).1)
      ∧ (∀ j (hj : j < names.length) (v : Bool), cstr w1.buf = names[j] ++ verb v →
          (∀ n ∈ names.take j, ∀ v', cstr w1.buf ≠ n ++ verb v') →
          j ≠ k ∧ serve_step names w
            = ((set_and_reply w1 j (level v)).1,
               Step.afterScan (set_and_reply w1 j (level v)).2)) := by
  have hskip : ∀ v, cstr w1.buf ≠ names[k] ++ verb v := by
    intro v e
    rw [hpre] at e
    have := List.append_cancel_left e
    cases v
    · exact hoff this
    · exact hon this
  refine ⟨?_, ?_, ?_⟩
  · intro i w'
    rw [List.drop_eq_getElem_cons hk]
    exact set_loop_cons_skip (hwf _ (List.getElem_mem hk)) w1.buf hskip _ i w'
  · intro hl hn
    have h := serve_step_unknown names hwf w w1 hg hl hn
    refine ⟨h, ?_⟩
    rw [h]
    exact usage_sendsOnly w1
  · intro j hj v hm hfirst
    refine ⟨?_, serve_step_set names hwf w w1 hg j hj v hm hfirst⟩
    rintro rfl
    exact hskip v hm

theorem shadowing_falls_through_witness :
    serve_step [ascii "led0", ascii "led01"] (World.example [ascii "led01 on"] [2, 2, 2] [0])
      = ((set_and_reply
            (get_request (World.example [ascii "led01 on"] [2, 2, 2] [0])).1 1 1).1,
         Step.serving) :=
  ((shadowing_falls_through [ascii "led0", ascii "led01"] (by decide)
      (World.example [ascii "led01 on"] [2, 2, 2] [0])
      (get_request (World.example [ascii "led01 on"] [2, 2, 2] [0])).1 (by decide)
      0 (by decide) (ascii "1 on") (by decide) (by decide) (by decide)).2.2
    1 (by decide) true (by decide) (by decide)).2

/-- C3: for a request line `r` that `get_request` returned and that is neither "list"
nor a registered name followed by " on" or " off", the rest of the turn is one call
of `usage`: no driver call is made and only `send` is called; when the sends go
through, the lines sent are the five usage lines and the connection stays in
Serving. The greeting of a connection is the same call, so the same sequence. -/
theorem unknown_request_usage (names : List (List Byte))
    (hwf : ∀ n ∈ names, (0 : Byte) ∉ n) (w w1 : World) (hg : get_request w = (w1, some 0))
    (hl : cstr w1.buf ≠ ascii "list") (hn : ∀ n ∈ names, ∀ v, cstr w1.buf ≠ n ++ verb v) :
    serve_step names w = ((usage w1).1, Step.after (usage w1).2)
      ∧ SendsOnly w1 (serve_step names w).1
      ∧ (∀ rest, w1.sends = usage_str.flatMap full_script ++ rest →
          serve_step names w
            = ({ w1 with sends := rest, trace := w1.trace ++ usage_str.flatMap line_events },
               Step.serving))
      ∧ usage_str = [ascii "", ascii "list: print supported LEDs",
          ascii "<LED> on: turn on the specified LED",
          ascii "<LED> off: turn off the specified LED", ascii ""]
      ∧ (∀ w0 rest, w0.sock = [] → w0.sends = usage_str.flatMap full_script ++ rest →
          (connection names w0).1.trace = w0.trace ++ usage_str.flatMap line_events) := by
  have h := serve_step_unknown names hwf w w1 hg hl hn
  refine ⟨h, ?_, ?_, rfl, ?_⟩
  · rw [h]
    exact usage_sendsOnly w1
  · intro rest hs
    rw [h, usage_full w1 rest hs]
    rfl
  · intro w0 rest hsock hs
    simp [connection, usage_full w0 rest hs, hsock, budget, serve_loop]

theorem unknown_request_usage_witness :
    serve_step [ascii "led0", ascii "led1"] (World.example [ascii "LIST"] (usage_str.flatMap full_script) [])
        = ({ (get_request (World.example [ascii "LIST"] (usage_str.flatMap full_script) [])).1 with
              sends := [],
              trace := Event.recv 4 (ascii "LIST") :: usage_str.flatMap line_events },
           Step.serving)
      ∧ serve_step [ascii "led0", ascii "led1"] (World.example [ascii "list "] (usage_str.flatMap full_script) [])
        = ({ (get_request (World.example [ascii "list "] (usage_str.flatMap full_script) [])).1 with
              sends := [],
              trace := Event.recv 5 (ascii "list ") :: usage_str.flatMap line_events },
           Step.serving)
      ∧ serve_step [ascii "led0", ascii "led1"] (World.example [ascii " list"] (usage_str.flatMap full_script) [])
        = ({ (get_request (World.example [ascii " list"] (usage_str.flatMap full_script) [])).1 with
              sends := [],
              trace := Event.recv 5 (ascii " list") :: usage_str.flatMap line_events },
           Step.serving)
      ∧ serve_step [ascii "led0", ascii "led1"] (World.example [ascii "led0 ON"] (usage_str.flatMap full_script) [])
        = ({ (get_request (World.example [ascii "led0 ON"] (usage_str.flatMap full_script) [])).1 with
              sends := [],
              trace := Event.recv 7 (ascii "led0 ON") :: usage_str.flatMap line_events },
           Step.serving)
      ∧ serve_step [ascii "led0", ascii "led1"] (World.example [ascii "led0  on"] (usage_str.flatMap full_script) [])
        = ({ (get_request (World.example [ascii "led0  on"] (usage_str.flatMap full_script) [])).1 with
              sends := [],
              trace := Event.recv 8 (ascii "led0  on") :: usage_str.flatMap line_events },
           Step.serving)
      ∧ serve_step [ascii "led0", ascii "led1"] (World.example [ascii "led0"] (usage_str.flatMap full_script) [])
        = ({ (get_request (World.example [ascii "led0"] (usage_str.flatMap full_script) [])).1 with
              sends := [],
              trace := Event.recv 4 (ascii "led0") :: usage_str.flatMap line_events },
           Step.serving)
      ∧ serve_step [ascii "led0", ascii "led1"] (World.example [ascii "bogus"] (usage_str.flatMap full_script) [])
        = ({ (get_request (World.example [ascii "bogus"] (usage_str.flatMap full_script) [])).1 with
              sends := [],
              trace := Event.recv 5 (ascii "bogus") :: usage_str.flatMap line_events },
           Step.serving) :=
  ⟨(unknown_request_usage [ascii "led0", ascii "led1"] (by decide) (World.example [ascii "LIST"] (usage_str.flatMap full_script) []) _ rfl (by decide) (by decide)).2.2.1 []
      (by decide),
   (unknown_request_usage [ascii "led0", ascii "led1"] (by decide) (World.example [ascii "list "] (usage_str.flatMap full_script) []) _ rfl (by decide) (by decide)).2.2.1 []
      (by decide),
   (unknown_request_usage [ascii "led0", ascii "led1"] (by decide) (World.example [ascii " list"] (usage_str.flatMap full_script) []) _ rfl (by decide) (by decide)).2.2.1 []
      (by decide),
   (unknown_request_usage [ascii "led0", ascii "led1"] (by decide) (World.example [ascii "led0 ON"] (usage_str.flatMap full_script) []) _ rfl (by decide) (by decide)).2.2.1 []
      (by decide),
   (unknown_request_usage [ascii "led0", ascii "led1"] (by decide) (World.example [ascii "led0  on"] (usage_str.flatMap full_script) []) _ rfl (by decide) (by decide)).2.2.1 []
      (by decide),
   (unknown_request_usage [ascii "led0", ascii "led1"] (by decide) (World.example [ascii "led0"] (usage_str.flatMap full_script) []) _ rfl (by decide) (by decide)).2.2.1 []
      (by decide),
   (unknown_request_usage [ascii "led0", ascii "led1"] (by decide) (World.example [ascii "bogus"] (usage_str.flatMap full_script) []) _ rfl (by decide) (by decide)).2.2.1 []
      (by decide)⟩

/-- C4: whatever the registry (the empty one included) and whatever happened on the
connection before, when the request line `get_request` returned is exactly "list",
the rest of the turn is `send_response` on each registered name in registry order
and then on the empty string, and nothing else: no driver call, no usage block. When
all the sends succeed, the lines sent are the names and one empty line and the
connection stays in Serving. -/
theorem list_request (names : List (List Byte)) (hwf : ∀ n ∈ names, (0 : Byte) ∉ n)
    (w w1 : World) (hg : get_request w = (w1, some 0)) (hr : cstr w1.buf = ascii "list") :
    serve_step names w
        = ((send_each (names ++ [ascii ""]) w1).1,
           Step.after (send_each (names ++ [ascii ""]) w1).2)
      ∧ SendsOnly w1 (serve_step names w).1
      ∧ (∀ rest, w1.sends = names.flatMap full_script ++ full_script (ascii "") ++ rest →
          serve_step names w
            = ({ w1 with sends := rest,
                         trace := w1.trace ++ names.flatMap line_events
                           ++ line_events (ascii "") },
               Step.serving)) := by
  have h := serve_step_list_each names w w1 hg hr
  refine ⟨h, ?_, ?_⟩
  · rw [h]
    exact send_each_sendsOnly _ _
  · intro rest hsends
    have hwf' : ∀ l ∈ names ++ [ascii ""], (0 : Byte) ∉ l := by
      intro l hl
      rcases List.mem_append.mp hl with hl | hl
      · exact hwf l hl
      · rw [List.mem_singleton.mp hl]
        decide
    rw [h, send_each_full (names ++ [ascii ""]) w1 rest hwf' (by simpa using hsends)]
    simp [Step.after]

theorem list_request_witness :
    serve_step [ascii "led0", ascii "led1"]
        (serve_step [ascii "led0", ascii "led1"]
          (World.example [ascii "led0 on", ascii "list\r\n"] [2, 2, 2, 4, 2, 4, 2, 2] [0])).1
      = ({ sock := [], sends := [], sets := [],
           buf := ascii "list" ++ 0 :: 10 :: 110 :: List.replicate 121 0,
           trace := [Event.recv 7 (ascii "led0 on"), Event.gpio_pin_set 0 1 0,
                     Event.send (ascii "OK") 2, Event.send [10, 0] 2, Event.send [10, 0] 2,
                     Event.recv 6 (ascii "list\r\n"),
                     Event.send (ascii "led0") 4, Event.send [10, 0] 2,
                     Event.send (ascii "led1") 4, Event.send [10, 0] 2,
                     Event.send [10, 0] 2] },
         Step.serving)
      ∧ serve_step [] (World.example [ascii "list"] [2] [])
      = ({ sock := [], sends := [], sets := [], buf := ascii "list" ++ List.replicate 124 0,
           trace := [Event.recv 4 (ascii "list"), Event.send [10, 0] 2] }, Step.serving) :=
  ⟨(list_request [ascii "led0", ascii "led1"] (by decide)
      (serve_step [ascii "led0", ascii "led1"]
        (World.example [ascii "led0 on", ascii "list\r\n"] [2, 2, 2, 4, 2, 4, 2, 2] [0])).1
      _ rfl (by decide)).2.2 [] (by decide),
   (list_request [] (by decide) (World.example [ascii "list"] [2] []) _ rfl
      (by decide)).2.2 [] (by decide)⟩

/-- C5 (the code at the failing input): when every send goes through in full,
`send_response` hands the transport the text and then both bytes of the array `eol`,
the newline and the NUL that ends the string literal: `n + 2` bytes for a text of
`n` bytes, not `n + 1`. -/
theorem send_response_wire (w : World) (text : List Byte) (rest : List Int)
    (h0 : (0 : Byte) ∉ text) (hs : w.sends = full_script text ++ rest) :
    (send_response w text).2 = some 0
      ∧ (send_response w text).1.trace = w.trace ++ line_events text
      ∧ wire (line_events text) = text ++ [10, 0]
      ∧ (wire (line_events text)).length = text.length + 2 := by
  rw [send_response_full w text rest h0 hs]
  have hw : wire (line_events text) = text ++ [10, 0] := by
    by_cases ht : text = []
    · subst ht
      decide
    · simp [line_events, ht, wire, sizeof_eol, eol]
  refine ⟨rfl, rfl, hw, ?_⟩
  rw [hw]
  simp

theorem send_response_wire_witness :
    (send_response (World.init [2, 2] []) (ascii "OK")).2 = some 0
      ∧ (send_response (World.init [2, 2] []) (ascii "OK")).1.trace
        = [] ++ line_events (ascii "OK")
      ∧ wire (line_events (ascii "OK")) = ascii "OK" ++ [10, 0]
      ∧ (wire (line_events (ascii "OK"))).length = (ascii "OK").length + 2 :=
  send_response_wire (World.init [2, 2] []) (ascii "OK") [] (by decide) (by decide)

/-- C6 (counterexample): the chunk "list\n" comes back from `get_request` with its
newline, and the turn answers it with the usage block instead of the list. -/
theorem bare_newline_counterexample :
    (get_request (World.example [ascii "list\n"] (usage_str.flatMap full_script) [])).2
        = some 0
      ∧ cstr (get_request
          (World.example [ascii "list\n"] (usage_str.flatMap full_script) [])).1.buf
        = ascii "list\n"
      ∧ (serve_step [ascii "led0"]
          (World.example [ascii "list\n"] (usage_str.flatMap full_script) [])).1.trace
        = Event.recv 5 (ascii "list\n") :: usage_str.flatMap line_events := by
  decide!

/-- C6 (amended): for every received chunk of 1 to 127 bytes other than a lone CR LF,
`get_request` returns with the chunk in the buffer, unaltered, without its trailing
CR LF when it ends with CR LF and whole otherwise (a trailing newline without CR
stays), followed by a NUL; the request is the C string of that line. -/
theorem get_request_strips_crlf (w : World) (chunk : List Byte) (rest : List Delivery)
    (hbuf : w.buf.length = sizeof_buf) (h1 : 1 ≤ chunk.length) (h127 : chunk.length ≤ 127)
    (hne : chunk ≠ [13, 10]) (hsock : w.sock = Delivery.data chunk :: rest) :
    (get_request w).2 = some 0
      ∧ (get_request w).1.buf.take ((strip_crlf chunk).length + 1) = strip_crlf chunk ++ [0]
      ∧ cstr (get_request w).1.buf = cstr (strip_crlf chunk)
      ∧ (get_request w).1.buf.length = sizeof_buf
      ∧ (∀ body, chunk = body ++ [13, 10] → strip_crlf chunk = body)
      ∧ (¬ [13, 10] <:+ chunk → strip_crlf chunk = chunk) := by
  have hd : chunk ≠ [] := by
    intro e
    rw [e] at h1
    simp at h1
  have h := get_request_data w chunk rest hsock hd hne
  rw [List.take_of_length_le h127] at h
  have hlt : chunk.length < w.buf.length := by
    rw [hbuf, sizeof_buf]
    omega
  rw [h]
  refine ⟨rfl, buf_after_take chunk w.buf hlt, cstr_buf_after chunk w.buf, ?_, ?_, ?_⟩
  · show (buf_after chunk w.buf).length = sizeof_buf
    rw [buf_after_length chunk w.buf (Nat.le_of_lt hlt), hbuf]
  · rintro body rfl
    exact strip_crlf_append_crlf body
  · exact strip_crlf_of_not_suffix

theorem get_request_strips_crlf_witness :
    cstr (get_request (World.example [ascii "list\r\n"] [] [])).1.buf = cstr (ascii "list")
      ∧ cstr (get_request (World.example [ascii "list\n"] [] [])).1.buf
        = cstr (ascii "list\n") :=
  ⟨(strip_crlf_append_crlf (ascii "list")) ▸
      (get_request_strips_crlf (World.example [ascii "list\r\n"] [] []) (ascii "list\r\n") []
        rfl (by decide) (by decide) (by decide) rfl).2.2.1,
   (strip_crlf_of_not_suffix (l := ascii "list\n") (by decide)) ▸
      (get_request_strips_crlf (World.example [ascii "list\n"] [] []) (ascii "list\n") []
        rfl (by decide) (by decide) (by decide) rfl).2.2.1⟩

/-- C7 (counterexample): a delivery of one NUL byte. `get_request` returns success,
the request string at the start of the buffer is empty, and the turn runs the
command interpreter on it (the usage block is sent). -/
theorem empty_request_counterexample :
    (get_request (World.example [[0]] (usage_str.flatMap full_script) [])).2 = some 0
      ∧ cstr (get_request (World.example [[0]] (usage_str.flatMap full_script) [])).1.buf = []
      ∧ (serve_step [ascii "led0"]
          (World.example [[0]] (usage_str.flatMap full_script) [])).1.trace
        = Event.recv 1 [0] :: usage_str.flatMap line_events := by
  decide!

/-- C7 (amended): whenever `get_request` returns success, the line it hands over has
at least one byte: deliveries that are a lone CR LF were read and dropped, each
followed by another `recv`, and the last delivery read holds a line that is not
empty once a trailing CR LF is taken off. The request string, the bytes of that line
before the first NUL, is not empty unless the delivery starts with a NUL byte. -/
theorem get_request_nonempty (w w1 : World) (h : get_request w = (w1, some 0)) :
    ∃ k d rest old, w.sock = List.replicate k (Delivery.data [13, 10]) ++ Delivery.data d :: rest
      ∧ w1.trace = w.trace ++ List.replicate k (Event.recv 2 [13, 10])
          ++ [Event.recv (d.take 127).length (d.take 127)]
      ∧ w1.buf = buf_after (d.take 127) old
      ∧ 1 ≤ (strip_crlf (d.take 127)).length
      ∧ cstr w1.buf = cstr (strip_crlf (d.take 127))
      ∧ (d.head? ≠ some 0 → cstr w1.buf ≠ []) := by
  obtain ⟨k, tl, hsplit, hno⟩ := sock_split w.sock
  obtain ⟨w', h1, h2, h3, -, -⟩ := get_request_skip k w tl hsplit
  rw [h1] at h
  cases tl with
  | nil =>
    rw [get_request_nil w' h2] at h
    simp at h
  | cons d rest =>
    cases d with
    | error =>
      rw [get_request_error w' rest h2] at h
      simp at h
    | data d =>
      by_cases hb : d = []
      · subst hb
        rw [get_request_closed w' rest h2] at h
        simp at h
      · have hne : d ≠ [13, 10] := by
          rintro rfl
          exact hno rest rfl
        rw [get_request_data w' d rest h2 hb hne] at h
        simp only [Prod.mk.injEq, and_true] at h
        have hgot : d.take 127 ≠ [] := by
          cases d with
          | nil => exact absurd rfl hb
          | cons a d => simp
        have hgot2 : d.take 127 ≠ [13, 10] := by
          intro e
          have hl := congrArg List.length e
          simp only [List.length_take, List.length_cons, List.length_nil] at hl
          rw [List.take_of_length_le (by omega)] at e
          exact hne e
        have hstrip : strip_crlf (d.take 127) ≠ [] := by
          intro e
          rcases (strip_crlf_eq_nil _).mp e with e | e
          · exact hgot e
          · exact hgot2 e
        have hbuf : w1.buf = buf_after (d.take 127) w'.buf := by
          rw [← h]
        have hc : cstr w1.buf = cstr (strip_crlf (d.take 127)) := by
          rw [hbuf, cstr_buf_after]
        refine ⟨k, d, rest, w'.buf, hsplit, ?_, hbuf, List.length_pos.mpr hstrip, hc, ?_⟩
        · rw [← h]
          simp [h3]
        · intro hhead
          rw [hc]
          obtain ⟨t, ht, -⟩ := strip_crlf_append (d.take 127)
          cases hs : strip_crlf (d.take 127) with
          | nil => exact absurd hs hstrip
          | cons x xs =>
            rw [hs] at ht
            have hx : d.head? = some x := by
              cases d with
              | nil => exact absurd rfl hb
              | cons a d =>
                simp only [List.take_succ_cons, List.cons_append, List.cons.injEq] at ht
                simp [ht.1]
            have hx0 : x ≠ 0 := by
              rintro rfl
              exact hhead hx
            rw [cstr_cons_ne hx0]
            simp

theorem get_request_nonempty_witness :
    ∃ k d rest old,
      (World.example [[13, 10], ascii "list\r\n"] [] []).sock
          = List.replicate k (Delivery.data [13, 10]) ++ Delivery.data d :: rest
        ∧ (get_request (World.example [[13, 10], ascii "list\r\n"] [] [])).1.trace
          = (World.example [[13, 10], ascii "list\r\n"] [] []).trace
              ++ List.replicate k (Event.recv 2 [13, 10])
              ++ [Event.recv (d.take 127).length (d.take 127)]
        ∧ (get_request (World.example [[13, 10], ascii "list\r\n"] [] [])).1.buf
          = buf_after (d.take 127) old
        ∧ 1 ≤ (strip_crlf (d.take 127)).length
        ∧ cstr (get_request (World.example [[13, 10], ascii "list\r\n"] [] [])).1.buf
          = cstr (strip_crlf (d.take 127))
        ∧ (d.head? ≠ some 0 →
            cstr (get_request (World.example [[13, 10], ascii "list\r\n"] [] [])).1.buf ≠ []) :=
  get_request_nonempty (World.example [[13, 10], ascii "list\r\n"] [] [])
    (get_request (World.example [[13, 10], ascii "list\r\n"] [] [])).1 (by decide!)

/-- C9: when the driver call of a Set request returns an error, nothing is sent for
the request: the turn ends right after the driver call, by `goto error`. In the trace
of a connection a failed driver call is followed by `close` and by nothing else (no
send, no further read, no further driver call). The server then goes back to
`accept`: the trace of the accept loop is that of the connection, ending with the
failed driver call and `close`, and when the script of `accept` has a further entry
the very next event after that `close` is the `accept` of this entry. -/
theorem driver_failure_closes (names : List (List Byte)) (hwf : ∀ n ∈ names, (0 : Byte) ∉ n)
    (w : World) :
    (∀ w1 j (hj : j < names.length) (v : Bool) ret sets,
        get_request w = (w1, some 0) → cstr w1.buf = names[j] ++ verb v →
        (∀ n ∈ names.take j, ∀ v', cstr w1.buf ≠ n ++ verb v') →
        w1.sets = ret :: sets → ret < 0 →
        serve_step names w
          = ({ w1 with sets := sets,
                       trace := w1.trace ++ [Event.gpio_pin_set j (level v) ret] },
             Step.error))
      ∧ (∀ pre i value ret post,
          (connection names w).1.trace
            = w.trace ++ pre ++ Event.gpio_pin_set i value ret :: post →
          ret < 0 → post = [Event.close] ∧ (connection names w).2 = true)
      ∧ (∀ (fd : Nat) more, (connection names
            { w with trace := w.trace ++ [Event.accept fd] }).2 = true →
          accept_loop names (Accepted.client fd w.sock :: more) w
            = accept_loop names more
                (connection names { w with trace := w.trace ++ [Event.accept fd] }).1)
      ∧ (∀ (fd : Nat) sock pre i value ret post,
          (connection names
              { w with sock := sock, trace := w.trace ++ [Event.accept fd] }).1.trace
            = w.trace ++ [Event.accept fd] ++ pre ++ Event.gpio_pin_set i value ret :: post →
          ret < 0 →
          (accept_loop names [Accepted.client fd sock] w).trace
              = w.trace ++ [Event.accept fd] ++ pre
                  ++ [Event.gpio_pin_set i value ret, Event.close]
            ∧ ∀ a more, ∃ later,
                (accept_loop names (Accepted.client fd sock :: a :: more) w).trace
                  = w.trace ++ [Event.accept fd] ++ pre
                      ++ [Event.gpio_pin_set i value ret, Event.close]
                      ++ Event.accept a.ret :: later) := by
  refine ⟨?_, ?_, ?_, ?_⟩
  · intro w1 j hj v ret sets hg hm hfirst hsets hret
    rw [serve_step_set names hwf w w1 hg j hj v hm hfirst]
    simp [set_and_reply, gpio_pin_set_dt, hsets, hret, Step.afterScan]
  · intro pre i value ret post ht hret
    exact fatal_then_close names w pre _ post ht (by simp [Event.fatal, hret])
  · intro fd more hres
    rw [accept_loop]
    rcases hc : connection names { w with trace := w.trace ++ [Event.accept fd] }
      with ⟨w2, _ | _⟩
    · rw [hc] at hres
      simp at hres
    · rfl
  · intro fd sock pre i value ret post ht hret
    obtain ⟨hpost, hres⟩ := fatal_then_close names
      { w with sock := sock, trace := w.trace ++ [Event.accept fd] } pre _ post ht
      (by simp [Event.fatal, hret])
    subst hpost
    rcases hc : connection names { w with sock := sock, trace := w.trace ++ [Event.accept fd] }
      with ⟨w2, b⟩
    rw [hc] at ht hres
    simp only at ht hres
    subst hres
    refine ⟨?_, ?_⟩
    · rw [accept_loop_one, hc, ht]
    · intro a more
      obtain ⟨later, hl⟩ := accept_loop_again names fd sock a more w w2 hc
      refine ⟨later, ?_⟩
      rw [hl, ht]

theorem driver_failure_closes_witness :
    (connection [ascii "led0", ascii "led1"]
        (World.example [ascii "led1 off", ascii "list"]
          (usage_str.flatMap full_script ++ [2, 2, 2]) [-5])).1.trace
      = usage_str.flatMap line_events
          ++ [Event.recv 8 (ascii "led1 off"), Event.gpio_pin_set 1 0 (-5), Event.close]
      ∧ (connection [ascii "led0", ascii "led1"]
          (World.example [ascii "led1 off", ascii "list"]
            (usage_str.flatMap full_script ++ [2, 2, 2]) [-5])).2 = true
      ∧ (accept_loop [ascii "led0", ascii "led1"]
          [Accepted.client 3 [Delivery.data (ascii "led1 off"), Delivery.data (ascii "list")],
           Accepted.client 4 [Delivery.data []]]
          (World.init (usage_str.flatMap full_script ++ usage_str.flatMap full_script)
            [-5])).trace
        = [Event.accept 3] ++ usage_str.flatMap line_events
            ++ [Event.recv 8 (ascii "led1 off"), Event.gpio_pin_set 1 0 (-5), Event.close]
            ++ [Event.accept 4] ++ usage_str.flatMap line_events
            ++ [Event.recv 0 [], Event.close]
      ∧ ∃ later,
          (accept_loop [ascii "led0", ascii "led1"]
            [Accepted.client 3 [Delivery.data (ascii "led1 off"), Delivery.data (ascii "list")],
             Accepted.client 4 [Delivery.data []]]
            (World.init (usage_str.flatMap full_script ++ usage_str.flatMap full_script)
              [-5])).trace
          = (World.init (usage_str.flatMap full_script ++ usage_str.flatMap full_script)
              [-5]).trace ++ [Event.accept (3 : Nat)]
              ++ (usage_str.flatMap line_events ++ [Event.recv 8 (ascii "led1 off")])
              ++ [Event.gpio_pin_set 1 0 (-5), Event.close]
              ++ Event.accept (Accepted.client 4 [Delivery.data []]).ret :: later :=
  ⟨by decide!,
   ((driver_failure_closes [ascii "led0", ascii "led1"] (by decide)
      (World.example [ascii "led1 off", ascii "list"]
        (usage_str.flatMap full_script ++ [2, 2, 2]) [-5])).2.1
      (usage_str.flatMap line_events ++ [Event.recv 8 (ascii "led1 off")]) 1 0 (-5)
      [Event.close] (by decide!) (by decide)).2,
   by decide!,
   ((driver_failure_closes [ascii "led0", ascii "led1"] (by decide)
      (World.init (usage_str.flatMap full_script ++ usage_str.flatMap full_script)
        [-5])).2.2.2
      3 [Delivery.data (ascii "led1 off"), Delivery.data (ascii "list")]
      (usage_str.flatMap line_events ++ [Event.recv 8 (ascii "led1 off")]) 1 0 (-5)
      [Event.close] (by decide!) (by decide)).2
      (Accepted.client 4 [Delivery.data []]) []⟩

/-- C10: if a `send` returns a negative value, `send_response` returns failure
without a further `send`; and in the trace of a connection such a `send`, be it for
the greeting, a list line, "OK", a terminator or the usage block, is followed by
`close` and by nothing else: no further send, read or driver call. -/
theorem send_failure_closes (names : List (List Byte)) (w : World) :
    (∀ p pre d ret post,
        (send_response w p).1.trace = w.trace ++ pre ++ Event.send d ret :: post → ret < 0 →
        post = [] ∧ (send_response w p).2 = some (-1))
      ∧ (∀ pre d ret post,
          (connection names w).1.trace = w.trace ++ pre ++ Event.send d ret :: post →
          ret < 0 → post = [Event.close] ∧ (connection names w).2 = true) := by
  constructor
  · intro p pre d ret post ht hret
    have hf : (Event.send d ret).fatal = true := by simp [Event.fatal, hret]
    obtain ⟨evs, hevs, hshape⟩ := send_response_grows w p
    rw [List.append_assoc, hevs] at ht
    have hev : evs = pre ++ Event.send d ret :: post := List.append_cancel_left ht
    cases hres : failedRet (send_response w p).2 with
    | false =>
      rw [hres] at hshape
      simp only [Bool.false_eq_true, ite_false] at hshape
      have := hshape (Event.send d ret) (by rw [hev]; simp)
      exact (smooth_not_fatal _ this hf).elim
    | true =>
      rw [hres] at hshape
      simp only [ite_true] at hshape
      obtain ⟨p0, e0, he, hp0, -⟩ := hshape
      rw [hev] at he
      obtain ⟨c, hc, -⟩ := fatal_position p0 [e0] pre _ post hp0 hf he
      constructor
      · cases c with
        | nil =>
          simp only [List.nil_append, List.cons.injEq] at hc
          exact hc.2.symm
        | cons x c =>
          have := congrArg List.length hc
          simp at this
      · rcases send_response_ret w p with h | h | h
        · rw [h] at hres
          simp [failedRet] at hres
        · rw [h] at hres
          simp [failedRet] at hres
        · exact h
  · intro pre d ret post ht hret
    exact fatal_then_close names w pre _ post ht (by simp [Event.fatal, hret])

theorem send_failure_closes_witness :
    (connection [ascii "led0", ascii "led1"]
        (World.example [ascii "list"] (usage_str.flatMap full_script ++ [-1]) [])).1.trace
      = usage_str.flatMap line_events
          ++ [Event.recv 4 (ascii "list"), Event.send (ascii "led0") (-1), Event.close]
      ∧ (connection [ascii "led0", ascii "led1"]
          (World.example [ascii "list"] (usage_str.flatMap full_script ++ [-1]) [])).2
        = true :=
  ⟨by decide!,
   ((send_failure_closes [ascii "led0", ascii "led1"]
      (World.example [ascii "list"] (usage_str.flatMap full_script ++ [-1]) [])).2
      (usage_str.flatMap line_events ++ [Event.recv 4 (ascii "list")]) (ascii "led0") (-1)
      [Event.close] (by decide!) (by decide)).2⟩

/-- C11: for every accepted connection whose connection loop comes to its end, by a
failed send of the greeting or of a response, by a read that terminates or by a
failed driver call, the trace holds exactly one `close` for it: it follows the fatal
call directly, every call on the connection stands before it, and what comes after it
is the next `accept` or nothing. A connection that stays blocked has no `close`. A
failed `accept` adds its own event and nothing else, no greeting and no `close`. -/
theorem one_close_per_connection (names : List (List Byte)) (w : World) :
    (∀ more, accept_loop names (Accepted.fail :: more) w
        = accept_loop names more { w with trace := w.trace ++ [Event.accept (-1)] })
      ∧ (∀ (fd : Nat) sock more,
          (connection names { w with sock := sock, trace := w.trace ++ [Event.accept fd] }).2
              = true →
          ∃ pre e later,
            (accept_loop names (Accepted.client fd sock :: more) w).trace
                = w.trace ++ [Event.accept fd] ++ pre ++ [e, Event.close] ++ later
              ∧ (∀ x ∈ pre, x.smooth = true) ∧ e.fatal = true
              ∧ Event.close ∉ pre ∧ (∀ r, Event.accept r ∉ pre)
              ∧ (pre ++ [e, Event.close]).count Event.close = 1
              ∧ (later = [] ∨ ∃ r rest, later = Event.accept r :: rest))
      ∧ (∀ (fd : Nat) sock more,
          (connection names { w with sock := sock, trace := w.trace ++ [Event.accept fd] }).2
              = false →
          ∃ pre,
            (accept_loop names (Accepted.client fd sock :: more) w).trace
                = w.trace ++ [Event.accept fd] ++ pre
              ∧ (∀ x ∈ pre, x.smooth = true) ∧ Event.close ∉ pre) := by
  refine ⟨fun more => rfl, ?_, ?_⟩
  · intro fd sock more hres
    obtain ⟨evs, h1, hshape⟩ := connection_shape names
      { w with sock := sock, trace := w.trace ++ [Event.accept fd] }
    rw [hres] at hshape
    simp only [ite_true] at hshape
    obtain ⟨pre, e, he, hp, hf⟩ := hshape
    obtain ⟨later, h2, hl⟩ := accept_loop_starts names more
      (connection names { w with sock := sock, trace := w.trace ++ [Event.accept fd] }).1
    have hnc : Event.close ∉ pre := fun hm => (smooth_ne_close _ (hp _ hm)).1 rfl
    have hna : ∀ r, Event.accept r ∉ pre := fun r hm => (smooth_ne_close _ (hp _ hm)).2 r rfl
    have hec : e ≠ Event.close := by
      rintro rfl
      simp [Event.fatal] at hf
    refine ⟨pre, e, later, ?_, hp, hf, hnc, hna, ?_, hl⟩
    · rw [accept_loop]
      rcases hc : connection names { w with sock := sock, trace := w.trace ++ [Event.accept fd] }
        with ⟨w1, _ | _⟩
      · rw [hc] at hres
        simp at hres
      · rw [hc] at h1 h2
        simp only at h1 h2 ⊢
        rw [h2, h1, he]
        simp
    · rw [List.count_append, List.count_eq_zero.mpr hnc]
      simp [List.count_cons, hec]
  · intro fd sock more hres
    obtain ⟨evs, h1, hshape⟩ := connection_shape names
      { w with sock := sock, trace := w.trace ++ [Event.accept fd] }
    rw [hres] at hshape
    simp only [Bool.false_eq_true, ite_false] at hshape
    refine ⟨evs, ?_, hshape, fun hm => (smooth_ne_close _ (hshape _ hm)).1 rfl⟩
    rw [accept_loop]
    rcases hc : connection names { w with sock := sock, trace := w.trace ++ [Event.accept fd] }
      with ⟨w1, _ | _⟩
    · rw [hc] at h1
      simpa using h1
    · rw [hc] at hres
      simp at hres

theorem one_close_per_connection_witness :
    (accept_loop [ascii "led0"] [Accepted.client 3 [Delivery.data []], Accepted.fail]
        (World.init (usage_str.flatMap full_script) [])).trace
      = [Event.accept 3] ++ usage_str.flatMap line_events
          ++ [Event.recv 0 [], Event.close, Event.accept (-1)]
      ∧ ∃ pre e later,
          (accept_loop [ascii "led0"] [Accepted.client 3 [Delivery.data []], Accepted.fail]
              (World.init (usage_str.flatMap full_script) [])).trace
            = (World.init (usage_str.flatMap full_script) []).trace
                ++ [Event.accept (3 : Nat)] ++ pre ++ [e, Event.close] ++ later
          ∧ (∀ x ∈ pre, x.smooth = true) ∧ e.fatal = true
          ∧ Event.close ∉ pre ∧ (∀ r, Event.accept r ∉ pre)
          ∧ (pre ++ [e, Event.close]).count Event.close = 1
          ∧ (later = [] ∨ ∃ r rest, later = Event.accept r :: rest) :=
  ⟨by decide!,
   (one_close_per_connection [ascii "led0"]
      (World.init (usage_str.flatMap full_script) [])).2.1 3 [Delivery.data []]
      [Accepted.fail] (by decide!)⟩

/-- C12: the end-to-end scenario. Registry [led0, led1], every send and the driver call
succeeding, one accepted connection whose reads deliver "list", "led1 on", "bogus"
and then the peer's close. The run of the connection is given in full: the lines sent
are the usage block, "led0", "led1", "", "OK", "" and the usage block again, each
after the read it answers; the driver gets exactly one call, on handle 1 (led1) with
value 1; after the read that returns 0 the connection is closed, and that is the
whole trace of the accept loop when the script of `accept` ends there. When the script
has a further entry, the event right after the `close` is the `accept` of that
entry: the server accepts again, in the world the connection has left. -/
theorem end_to_end_scenario :
    connection [ascii "led0", ascii "led1"]
        { (World.init
            (usage_str.flatMap full_script
              ++ [ascii "led0", ascii "led1", ascii "", ascii "OK", ascii ""].flatMap full_script
              ++ usage_str.flatMap full_script) [0]) with
          sock := [Delivery.data (ascii "list"), Delivery.data (ascii "led1 on"),
             Delivery.data (ascii "bogus"), Delivery.data []],
          trace := (World.init
              (usage_str.flatMap full_script
                ++ [ascii "led0", ascii "led1", ascii "", ascii "OK", ascii ""].flatMap full_script
                ++ usage_str.flatMap full_script) [0]).trace
            ++ [Event.accept (3 : Nat)] }
      = ({ sock := [], sends := [], sets := [],
           buf := ascii "bogus" ++ 0 :: 110 :: List.replicate 121 0,
           trace := [Event.accept 3] ++ usage_str.flatMap line_events
               ++ [Event.recv 4 (ascii "list")]
               ++ [ascii "led0", ascii "led1", ascii ""].flatMap line_events
               ++ [Event.recv 7 (ascii "led1 on"), Event.gpio_pin_set 1 1 0]
               ++ [ascii "OK", ascii ""].flatMap line_events
               ++ [Event.recv 5 (ascii "bogus")] ++ usage_str.flatMap line_events
               ++ [Event.recv 0 [], Event.close] }, true)
    ∧ accept_loop [ascii "led0", ascii "led1"]
        [Accepted.client 3
            [Delivery.data (ascii "list"), Delivery.data (ascii "led1 on"),
             Delivery.data (ascii "bogus"), Delivery.data []]]
        (World.init
          (usage_str.flatMap full_script
            ++ [ascii "led0", ascii "led1", ascii "", ascii "OK", ascii ""].flatMap full_script
            ++ usage_str.flatMap full_script) [0])
      = { sock := [], sends := [], sets := [],
          buf := ascii "bogus" ++ 0 :: 110 :: List.replicate 121 0,
          trace := [Event.accept 3] ++ usage_str.flatMap line_events
              ++ [Event.recv 4 (ascii "list")]
              ++ [ascii "led0", ascii "led1", ascii ""].flatMap line_events
              ++ [Event.recv 7 (ascii "led1 on"), Event.gpio_pin_set 1 1 0]
              ++ [ascii "OK", ascii ""].flatMap line_events
              ++ [Event.recv 5 (ascii "bogus")] ++ usage_str.flatMap line_events
              ++ [Event.recv 0 [], Event.close] }
    ∧ (∀ a more, ∃ later,
        (accept_loop [ascii "led0", ascii "led1"]
          (Accepted.client 3
            [Delivery.data (ascii "list"), Delivery.data (ascii "led1 on"),
             Delivery.data (ascii "bogus"), Delivery.data []] :: a :: more)
          (World.init
            (usage_str.flatMap full_script
              ++ [ascii "led0", ascii "led1", ascii "", ascii "OK", ascii ""].flatMap full_script
              ++ usage_str.flatMap full_script) [0])).trace
        = [Event.accept 3] ++ usage_str.flatMap line_events
            ++ [Event.recv 4 (ascii "list")]
            ++ [ascii "led0", ascii "led1", ascii ""].flatMap line_events
            ++ [Event.recv 7 (ascii "led1 on"), Event.gpio_pin_set 1 1 0]
            ++ [ascii "OK", ascii ""].flatMap line_events
            ++ [Event.recv 5 (ascii "bogus")] ++ usage_str.flatMap line_events
            ++ [Event.recv 0 [], Event.close]
          ++ Event.accept a.ret :: later)
    ∧ (∀ more,
        accept_loop [ascii "led0", ascii "led1"]
          (Accepted.client 3
            [Delivery.data (ascii "list"), Delivery.data (ascii "led1 on"),
             Delivery.data (ascii "bogus"), Delivery.data []] :: more)
          (World.init
            (usage_str.flatMap full_script
              ++ [ascii "led0", ascii "led1", ascii "", ascii "OK", ascii ""].flatMap full_script
              ++ usage_str.flatMap full_script) [0])
        = accept_loop [ascii "led0", ascii "led1"] more
          { sock := [], sends := [], sets := [],
            buf := ascii "bogus" ++ 0 :: 110 :: List.replicate 121 0,
            trace := [Event.accept 3] ++ usage_str.flatMap line_events
                ++ [Event.recv 4 (ascii "list")]
                ++ [ascii "led0", ascii "led1", ascii ""].flatMap line_events
                ++ [Event.recv 7 (ascii "led1 on"), Event.gpio_pin_set 1 1 0]
                ++ [ascii "OK", ascii ""].flatMap line_events
                ++ [Event.recv 5 (ascii "bogus")] ++ usage_str.flatMap line_events
                ++ [Event.recv 0 [], Event.close] }) := by
  have hc : connection [ascii "led0", ascii "led1"]
        { (World.init
            (usage_str.flatMap full_script
              ++ [ascii "led0", ascii "led1", ascii "", ascii "OK", ascii ""].flatMap full_script
              ++ usage_str.flatMap full_script) [0]) with
          sock := [Delivery.data (ascii "list"), Delivery.data (ascii "led1 on"),
             Delivery.data (ascii "bogus"), Delivery.data []],
          trace := (World.init
              (usage_str.flatMap full_script
                ++ [ascii "led0", ascii "led1", ascii "", ascii "OK", ascii ""].flatMap full_script
                ++ usage_str.flatMap full_script) [0]).trace
            ++ [Event.accept (3 : Nat)] }
      = ({ sock := [], sends := [], sets := [],
           buf := ascii "bogus" ++ 0 :: 110 :: List.replicate 121 0,
           trace := [Event.accept 3] ++ usage_str.flatMap line_events
               ++ [Event.recv 4 (ascii "list")]
               ++ [ascii "led0", ascii "led1", ascii ""].flatMap line_events
               ++ [Event.recv 7 (ascii "led1 on"), Event.gpio_pin_set 1 1 0]
               ++ [ascii "OK", ascii ""].flatMap line_events
               ++ [Event.recv 5 (ascii "bogus")] ++ usage_str.flatMap line_events
               ++ [Event.recv 0 [], Event.close] }, true) := by
    decide!
  refine ⟨hc, ?_, ?_, ?_⟩
  · rw [accept_loop_one, hc]
  · intro a more
    obtain ⟨later, hl⟩ := accept_loop_again [ascii "led0", ascii "led1"] 3
      [Delivery.data (ascii "list"), Delivery.data (ascii "led1 on"),
             Delivery.data (ascii "bogus"), Delivery.data []]
      a more
      (World.init
        (usage_str.flatMap full_script
          ++ [ascii "led0", ascii "led1", ascii "", ascii "OK", ascii ""].flatMap full_script
          ++ usage_str.flatMap full_script) [0])
      { sock := [], sends := [], sets := [],
        buf := ascii "bogus" ++ 0 :: 110 :: List.replicate 121 0,
        trace := [Event.accept 3] ++ usage_str.flatMap line_events
            ++ [Event.recv 4 (ascii "list")]
            ++ [ascii "led0", ascii "led1", ascii ""].flatMap line_events
            ++ [Event.recv 7 (ascii "led1 on"), Event.gpio_pin_set 1 1 0]
            ++ [ascii "OK", ascii ""].flatMap line_events
            ++ [Event.recv 5 (ascii "bogus")] ++ usage_str.flatMap line_events
            ++ [Event.recv 0 [], Event.close] } hc
    exact ⟨later, hl⟩
  · intro more
    rw [accept_loop, hc]

/-- C14: history independence. Two runs in which the same deliveries, `send` results
and driver results are pending, whatever their traces and whatever earlier requests
left in the receive buffer, go through a turn of the serving loop, and through a
whole connection, with the same calls, the same results and the same outcome. In
particular the request string `get_request` hands over does not depend on the old
contents of the buffer, and `memcmp` against a name is decided at the request's NUL
at the latest, so that the bytes behind it change nothing. -/
theorem history_independence (names : List (List Byte))
    (hwf : ∀ n ∈ names, (0 : Byte) ∉ n) (w w' : World) (henv : Env w w') :
    ((serve_step names w).2 = (serve_step names w').2
        ∧ Env (serve_step names w).1 (serve_step names w').1
        ∧ ∃ evs, (serve_step names w).1.trace = w.trace ++ evs
            ∧ (serve_step names w').1.trace = w'.trace ++ evs)
      ∧ ((connection names w).2 = (connection names w').2
        ∧ Env (connection names w).1 (connection names w').1
        ∧ ∃ evs, (connection names w).1.trace = w.trace ++ evs
            ∧ (connection names w').1.trace = w'.trace ++ evs)
      ∧ (∀ got old old', cstr (buf_after got old) = cstr (buf_after got old'))
      ∧ (∀ s x x' name, (0 : Byte) ∉ s →
          memcmp (s ++ 0 :: x) name (strlen name) = memcmp (s ++ 0 :: x') name (strlen name)) :=
  ⟨serve_step_alike names hwf w w' henv, connection_alike names hwf w w' henv,
   fun got old old' => by rw [cstr_buf_after, cstr_buf_after],
   fun s x x' name hs => memcmp_before_nul s x x' name hs⟩

theorem history_independence_witness :
    (serve_step [ascii "led0", ascii "led1"]
        (World.example [ascii "led0 on"] [2, 2, 2] [0])).1.buf.take 8
      = ascii "led0 on" ++ [0]
      ∧ (serve_step [ascii "led0", ascii "led1"]
          { (serve_step [ascii "led0", ascii "led1"]
              (World.example [ascii "led0 on"] [2, 2, 2] [0])).1 with
            sock := [Delivery.data (ascii "led")],
            sends := usage_str.flatMap full_script, sets := [] }).1.buf.take 8
        = ascii "led" ++ 0 :: ascii " on" ++ [0]
      ∧ (serve_step [ascii "led0", ascii "led1"]
          (World.example [ascii "led"] (usage_str.flatMap full_script) [])).2
        = (serve_step [ascii "led0", ascii "led1"]
          { (serve_step [ascii "led0", ascii "led1"]
              (World.example [ascii "led0 on"] [2, 2, 2] [0])).1 with
            sock := [Delivery.data (ascii "led")],
            sends := usage_str.flatMap full_script, sets := [] }).2 :=
  ⟨by decide!, by decide!,
   (history_independence [ascii "led0", ascii "led1"] (by decide)
      (World.example [ascii "led"] (usage_str.flatMap full_script) [])
      { (serve_step [ascii "led0", ascii "led1"]
          (World.example [ascii "led0 on"] [2, 2, 2] [0])).1 with
        sock := [Delivery.data (ascii "led")],
        sends := usage_str.flatMap full_script, sets := [] }
      ⟨rfl, rfl, rfl⟩).1.1⟩

/-- C15 (counterexample): one delivery of 129 bytes, 127 times the letter A and then
CR LF, with the delivery "list" behind it. The first `get_request` hands over the 127
letters and leaves the CR LF queued. The next `get_request` reads this rest, drops
it as an empty line and reads again: the request it hands over is "list". The two
turns of the serving loop answer the 127 letters (usage block) and "list" (the
names); the rest of the long input is read but never becomes a request. When the
peer's close follows instead, the second `get_request` returns -1. -/
theorem dropped_rest_counterexample :
    (get_request (World.example [List.replicate 127 65 ++ [13, 10], ascii "list"] [] [])).2
        = some 0
      ∧ cstr (get_request
          (World.example [List.replicate 127 65 ++ [13, 10], ascii "list"] [] [])).1.buf
        = List.replicate 127 65
      ∧ (get_request
          (World.example [List.replicate 127 65 ++ [13, 10], ascii "list"] [] [])).1.sock
        = [Delivery.data [13, 10], Delivery.data (ascii "list")]
      ∧ (get_request (get_request
          (World.example [List.replicate 127 65 ++ [13, 10], ascii "list"] [] [])).1).2
        = some 0
      ∧ cstr (get_request (get_request
          (World.example [List.replicate 127 65 ++ [13, 10], ascii "list"] [] [])).1).1.buf
        = ascii "list"
      ∧ (get_request (get_request
          (World.example [List.replicate 127 65 ++ [13, 10], ascii "list"] [] [])).1).1.trace
        = [Event.recv 127 (List.replicate 127 65), Event.recv 2 [13, 10],
           Event.recv 4 (ascii "list")]
      ∧ (serve_step [ascii "led0"]
          (serve_step [ascii "led0"]
            (World.example [List.replicate 127 65 ++ [13, 10], ascii "list"]
              (usage_str.flatMap full_script ++ [ascii "led0", ascii ""].flatMap full_script)
              [])).1).1.trace
        = [Event.recv 127 (List.replicate 127 65)] ++ usage_str.flatMap line_events
            ++ [Event.recv 2 [13, 10], Event.recv 4 (ascii "list")]
            ++ [ascii "led0", ascii ""].flatMap line_events
      ∧ (get_request (get_request
          (World.example [List.replicate 127 65 ++ [13, 10], []] [] [])).1).2 = some (-1)
      ∧ (get_request (get_request
          (World.example [List.replicate 127 65 ++ [13, 10], []] [] [])).1).1.trace
        = [Event.recv 127 (List.replicate 127 65), Event.recv 2 [13, 10], Event.recv 0 []] := by
  decide!

/-- C15 (amended): a successful `get_request` hands over the bytes of one `recv`, 127 at
most, without a trailing CR LF; it neither joins nor splits reads. A line that comes
in the two reads "li" and "st\r\n" is dispatched as the two requests "li" and "st",
each answered with the usage block; one read that holds "list\r\nlist\r\n" is
dispatched as the one request "list\r\nlist" and answered with the usage block; of a
delivery longer than 127 bytes the first 127 are handed over and the rest stays
queued for the next `recv`. When the rest is not a lone CR LF the next `get_request`
hands it over as the next request, cut at 127 bytes again. When the rest is a lone
CR LF the next `get_request` reads and drops it like any empty line and reads on: the
request it hands over, if any, comes from a later delivery. -/
theorem one_read_one_request (names : List (List Byte))
    (hwf : ∀ n ∈ names, (0 : Byte) ∉ n) (w : World) (rest : List Delivery) :
    (∀ w1, get_request w = (w1, some 0) →
        ∃ k d rest' old,
          w.sock = List.replicate k (Delivery.data [13, 10]) ++ Delivery.data d :: rest'
            ∧ w1.trace = w.trace ++ List.replicate k (Event.recv 2 [13, 10])
                ++ [Event.recv (d.take 127).length (d.take 127)]
            ∧ w1.buf = buf_after (d.take 127) old
            ∧ cstr w1.buf = cstr (strip_crlf (d.take 127))
            ∧ (d.take 127).length ≤ 127
            ∧ w1.sock = (if d.drop 127 = [] then rest'
                else Delivery.data (d.drop 127) :: rest'))
      ∧ (w.sock = Delivery.data (ascii "li") :: Delivery.data (ascii "st\r\n") :: rest →
          serve_step names w
            = ((usage { w with sock := Delivery.data (ascii "st\r\n") :: rest,
                               buf := buf_after (ascii "li") w.buf,
                               trace := w.trace ++ [Event.recv 2 (ascii "li")] }).1,
               Step.after (usage { w with sock := Delivery.data (ascii "st\r\n") :: rest,
                                          buf := buf_after (ascii "li") w.buf,
                                          trace := w.trace ++ [Event.recv 2 (ascii "li")] }).2)
            ∧ (serve_step names w).1.sock = Delivery.data (ascii "st\r\n") :: rest)
      ∧ (w.sock = Delivery.data (ascii "st\r\n") :: rest →
          serve_step names w
            = ((usage { w with sock := rest, buf := buf_after (ascii "st\r\n") w.buf,
                               trace := w.trace ++ [Event.recv 4 (ascii "st\r\n")] }).1,
               Step.after (usage { w with sock := rest, buf := buf_after (ascii "st\r\n") w.buf,
                                          trace := w.trace
                                            ++ [Event.recv 4 (ascii "st\r\n")] }).2))
      ∧ (w.sock = Delivery.data (ascii "list\r\nlist\r\n") :: rest →
          cstr (get_request w).1.buf = ascii "list\r\nlist"
            ∧ serve_step names w
              = ((usage { w with sock := rest,
                                 buf := buf_after (ascii "list\r\nlist\r\n") w.buf,
                                 trace := w.trace
                                   ++ [Event.recv 12 (ascii "list\r\nlist\r\n")] }).1,
                 Step.after (usage { w with sock := rest,
                                            buf := buf_after (ascii "list\r\nlist\r\n") w.buf,
                                            trace := w.trace
                                              ++ [Event.recv 12
                                                    (ascii "list\r\nlist\r\n")] }).2))
      ∧ (∀ d : List Byte, 127 < d.length → w.sock = Delivery.data d :: rest →
          get_request w
              = ({ w with sock := Delivery.data (d.drop 127) :: rest,
                          buf := buf_after (d.take 127) w.buf,
                          trace := w.trace ++ [Event.recv 127 (d.take 127)] }, some 0)
            ∧ (d.drop 127 ≠ [13, 10] →
                get_request (get_request w).1
                  = ({ (get_request w).1 with
                       sock := if (d.drop 127).drop 127 = [] then rest
                         else Delivery.data ((d.drop 127).drop 127) :: rest,
                       buf := buf_after ((d.drop 127).take 127) (get_request w).1.buf,
                       trace := (get_request w).1.trace
                         ++ [Event.recv ((d.drop 127).take 127).length
                               ((d.drop 127).take 127)] }, some 0))
            ∧ (d.drop 127 = [13, 10] →
                get_request (get_request w).1
                    = get_request { (get_request w).1 with
                        sock := rest, buf := [13, 10] ++ (get_request w).1.buf.drop 2,
                        trace := (get_request w).1.trace ++ [Event.recv 2 [13, 10]] }
                  ∧ ∀ w2, get_request (get_request w).1 = (w2, some 0) →
                      ∃ k d' rest' old,
                        rest = List.replicate k (Delivery.data [13, 10])
                            ++ Delivery.data d' :: rest'
                          ∧ d' ≠ [] ∧ d' ≠ [13, 10]
                          ∧ w2.trace = w.trace
                              ++ [Event.recv 127 (d.take 127), Event.recv 2 [13, 10]]
                              ++ List.replicate k (Event.recv 2 [13, 10])
                              ++ [Event.recv (d'.take 127).length (d'.take 127)]
                          ∧ w2.buf = buf_after (d'.take 127) old
                          ∧ cstr w2.buf = cstr (strip_crlf (d'.take 127)))) := by
  refine ⟨?_, ?_, ?_, ?_, ?_⟩
  · intro w1 h
    obtain ⟨k, d, rest', old, h1, -, -, h2, h3, h4, h5⟩ := get_request_returns w w1 h
    refine ⟨k, d, rest', old, h1, h2, h3, h5, ?_, h4⟩
    simp only [List.length_take]
    omega
  · intro hsock
    have h := serve_step_usage_line names hwf w (ascii "li") [] (Delivery.data (ascii "st\r\n") :: rest)
      105 (by decide) (by decide) (by decide) (by decide) (by decide) (by decide)
      (Or.inl rfl) (by decide) hsock
    refine ⟨h, ?_⟩
    rw [h]
    exact (usage_sendsOnly _).1
  · intro hsock
    exact serve_step_usage_line names hwf w (ascii "st") [13, 10] rest 116 (by decide)
      (by decide) (by decide) (by decide) (by decide) (by decide) (Or.inr rfl) (by decide) hsock
  · intro hsock
    have hsock' : w.sock = Delivery.data (ascii "list\r\nlist" ++ [13, 10]) :: rest := hsock
    refine ⟨?_, serve_step_usage_line names hwf w (ascii "list\r\nlist") [13, 10] rest 116
      (by decide) (by decide) (by decide) (by decide) (by decide) (by decide) (Or.inr rfl)
      (by decide) hsock'⟩
    obtain ⟨hg, hc⟩ := get_request_line w (ascii "list\r\nlist") [13, 10] rest (by decide)
      (by decide) (Or.inr rfl) (by decide) hsock'
    rw [hg]
    show cstr (buf_after _ _) = _
    rw [hc, cstr_of_not_mem (by decide)]
  · intro d hlen hsock
    have hd : d ≠ [] := by
      rintro rfl
      simp at hlen
    have hne : d ≠ [13, 10] := by
      rintro rfl
      simp at hlen
    have hdrop : d.drop 127 ≠ [] := by
      intro e
      have := congrArg List.length e
      simp only [List.length_drop, List.length_nil] at this
      omega
    have htake : (d.take 127).length = 127 := by
      simp only [List.length_take]
      omega
    have hfirst : get_request w
        = ({ w with sock := Delivery.data (d.drop 127) :: rest,
                    buf := buf_after (d.take 127) w.buf,
                    trace := w.trace ++ [Event.recv 127 (d.take 127)] }, some 0) := by
      rw [get_request_data w d rest hsock hd hne, if_neg hdrop, htake]
      rfl
    refine ⟨hfirst, ?_, ?_⟩
    · intro hrest
      rw [hfirst]
      exact get_request_data _ (d.drop 127) rest rfl hdrop hrest
    · intro hrest
      have hnext := get_request_crlf (get_request w).1 rest (by rw [hfirst, hrest])
      refine ⟨hnext, ?_⟩
      intro w2 h2
      rw [hnext] at h2
      obtain ⟨k, d', rest', old, h3, h4, h5, h6, h7, -, h8⟩ := get_request_returns _ w2 h2
      refine ⟨k, d', rest', old, h3, h4, h5, ?_, h7, h8⟩
      rw [h6, hfirst]
      simp

theorem one_read_one_request_witness :
    get_request (World.example [List.replicate 130 65] [] [])
        = ({ World.example [List.replicate 130 65] [] [] with
             sock := [Delivery.data ((List.replicate 130 65).drop 127)],
             buf := buf_after ((List.replicate 130 65).take 127)
               (World.example [List.replicate 130 65] [] []).buf,
             trace := (World.example [List.replicate 130 65] [] []).trace
               ++ [Event.recv 127 ((List.replicate 130 65).take 127)] }, some 0)
      ∧ (serve_step [ascii "led0"]
          (serve_step [ascii "led0"]
            (World.example [ascii "li", ascii "st\r\n"]
              (usage_str.flatMap full_script ++ usage_str.flatMap full_script) [])).1).1.trace
        = [Event.recv 2 (ascii "li")] ++ usage_str.flatMap line_events
            ++ [Event.recv 4 (ascii "st\r\n")] ++ usage_str.flatMap line_events
      ∧ get_request (get_request
          (World.example [List.replicate 127 65 ++ [13, 10], ascii "list"] [] [])).1
        = get_request
          { (get_request
              (World.example [List.replicate 127 65 ++ [13, 10], ascii "list"] [] [])).1 with
            sock := [Delivery.data (ascii "list")],
            buf := [13, 10] ++ (get_request
              (World.example [List.replicate 127 65 ++ [13, 10], ascii "list"]
                [] [])).1.buf.drop 2,
            trace := (get_request
              (World.example [List.replicate 127 65 ++ [13, 10], ascii "list"]
                [] [])).1.trace ++ [Event.recv 2 [13, 10]] } :=
  ⟨((one_read_one_request [ascii "led0"] (by decide)
      (World.example [List.replicate 130 65] [] []) []).2.2.2.2 (List.replicate 130 65)
      (by simp) rfl).1,
   by decide!,
   (((one_read_one_request [ascii "led0"] (by decide)
      (World.example [List.replicate 127 65 ++ [13, 10], ascii "list"] [] [])
      [Delivery.data (ascii "list")]).2.2.2.2 (List.replicate 127 65 ++ [13, 10])
      (by simp) rfl).2.2 (by decide!)).1⟩

/-- C16: for every registry, its names not assumed distinct and one possibly the start
of another, and every request string other than "list": the driver gets at most one
call. It gets none when no registered name followed by " on" or " off" is the
request (the turn then only sends). When some registered name is, there is a least
such index `j`, and the turn is one driver call on handle `j`, with value 1 for
" on" and 0 for " off", followed by sends only; the names before `j`, also those that
are a start of the request, are passed over without a call. -/
theorem set_call_rule (names : List (List Byte)) (hwf : ∀ n ∈ names, (0 : Byte) ∉ n)
    (w w1 : World) (hg : get_request w = (w1, some 0)) (hl : cstr w1.buf ≠ ascii "list") :
    ((∀ n ∈ names, ∀ v, cstr w1.buf ≠ n ++ verb v) →
        SendsOnly w1 (serve_step names w).1)
      ∧ (∀ j (hj : j < names.length) (v : Bool), cstr w1.buf = names[j] ++ verb v →
          (∀ n ∈ names.take j, ∀ v', cstr w1.buf ≠ n ++ verb v') →
          serve_step names w
              = ((set_and_reply w1 j (level v)).1,
                 Step.afterScan (set_and_reply w1 j (level v)).2)
            ∧ (∀ ret sets, w1.sets = ret :: sets →
                SendsOnly
                  { w1 with sets := sets,
                            trace := w1.trace ++ [Event.gpio_pin_set j (level v) ret] }
                  (serve_step names w).1)
            ∧ (w1.sets = [] → serve_step names w = (w1, Step.stuck))
            ∧ (∀ i w', i < j → set_loop w1.buf (names.drop i) i w'
                = set_loop w1.buf (names.drop (i + 1)) (i + 1) w'))
      ∧ ((∃ n ∈ names, ∃ v, cstr w1.buf = n ++ verb v) →
          ∃ j, ∃ hj : j < names.length, ∃ v, cstr w1.buf = names[j] ++ verb v
            ∧ ∀ n ∈ names.take j, ∀ v', cstr w1.buf ≠ n ++ verb v') := by
  refine ⟨?_, ?_, first_match_exists _ names⟩
  · intro hn
    rw [serve_step_unknown names hwf w w1 hg hl hn]
    exact usage_sendsOnly w1
  · intro j hj v hm hfirst
    have hstep := serve_step_set names hwf w w1 hg j hj v hm hfirst
    obtain ⟨hc1, hc2⟩ := set_and_reply_calls w1 j (level v)
    refine ⟨hstep, ?_, ?_, ?_⟩
    · intro ret sets hsets
      rw [hstep]
      exact hc1 ret sets hsets
    · intro hsets
      rw [hstep, hc2 hsets]
      rfl
    · intro i w' hij
      have hi : i < names.length := by omega
      rw [List.drop_eq_getElem_cons hi]
      refine set_loop_cons_skip (hwf _ (List.getElem_mem hi)) w1.buf ?_ _ i w'
      intro v'
      refine hfirst names[i] ?_ v'
      rw [List.mem_take_iff_getElem]
      exact ⟨i, by simp [hij, hi], rfl⟩

theorem set_call_rule_witness :
    serve_step [ascii "led", ascii "led0", ascii "led0"]
        (World.example [ascii "led0 off"] [2, 2, 2] [0])
      = ((set_and_reply (get_request (World.example [ascii "led0 off"] [2, 2, 2] [0])).1
            1 (level false)).1,
         Step.afterScan
           (set_and_reply (get_request (World.example [ascii "led0 off"] [2, 2, 2] [0])).1
             1 (level false)).2)
      ∧ (serve_step [ascii "led", ascii "led0", ascii "led0"]
          (World.example [ascii "led0 off"] [2, 2, 2] [0])).1.trace
        = [Event.recv 8 (ascii "led0 off"), Event.gpio_pin_set 1 0 0,
           Event.send (ascii "OK") 2, Event.send [10, 0] 2, Event.send [10, 0] 2] :=
  ⟨((set_call_rule [ascii "led", ascii "led0", ascii "led0"] (by decide)
      (World.example [ascii "led0 off"] [2, 2, 2] [0])
      (get_request (World.example [ascii "led0 off"] [2, 2, 2] [0])).1 (by decide!)
      (by decide!)).2.1 1 (by decide) false (by decide!) (by decide!)).1,
   by decide!⟩

/-- C17: short writes. For a text of `n` bytes and `send` results `rs` of which each
takes at least one byte and at most what is left, the text loop of `send_response`
comes to its end after the `rs.length ≤ n` sends of `rs`, with success. Each send is
offered exactly the part of the text not yet taken (the text without its first
`accepted pre` bytes), what is left gets strictly shorter with every send, the bytes
taken, put together, are the text, and the terminator is sent after them. -/
theorem short_writes_complete (w : World) (text : List Byte) (rs rest : List Int)
    (h0 : (0 : Byte) ∉ text) (hsw : short_writes text.length rs) (hs : w.sends = rs ++ rest) :
    send_loop w.sends.length w text (strlen text)
        = ({ w with sends := rest, trace := w.trace ++ short_events text rs }, some 0)
      ∧ rs.length ≤ text.length
      ∧ wire (short_events text rs) = text
      ∧ (∀ pre r post, rs = pre ++ r :: post →
          short_events text rs
              = short_events text pre ++ Event.send (text.drop (accepted pre)) r
                  :: short_events (text.drop (accepted pre + r.toNat)) post
            ∧ 1 ≤ r ∧ accepted pre + r.toNat ≤ text.length
            ∧ (text.drop (accepted pre + r.toNat)).length < (text.drop (accepted pre)).length)
      ∧ (∀ e rest', rest = e :: rest' → 0 ≤ e →
          send_response w text
            = ({ w with sends := rest',
                        trace := w.trace ++ short_events text rs ++ [Event.send eol e] },
               some 0)) := by
  have hloop : send_loop w.sends.length w text (strlen text)
      = ({ w with sends := rest, trace := w.trace ++ short_events text rs }, some 0) := by
    rw [strlen_of_not_mem h0]
    exact send_loop_short rs w text rest _ hsw hs (by rw [hs]; simp)
  refine ⟨hloop, short_writes_length _ rs hsw, wire_short_events text rs hsw, ?_, ?_⟩
  · rintro pre r post rfl
    obtain ⟨h1, h2⟩ := short_writes_split _ pre r post hsw
    refine ⟨short_events_split text pre r post, h1, h2, ?_⟩
    simp only [List.length_drop]
    omega
  · rintro e rest' rfl he
    have hneg : ¬ e < 0 := by omega
    simp [send_response, hloop, send, hneg, sizeof_eol, eol]

theorem short_writes_complete_witness :
    send_response (World.init [1, 2, 1, 2] []) (ascii "list")
      = ({ World.init [1, 2, 1, 2] [] with
           sends := [],
           trace := [] ++ short_events (ascii "list") [1, 2, 1] ++ [Event.send eol 2] },
         some 0)
      ∧ short_events (ascii "list") [1, 2, 1]
        = [Event.send (ascii "list") 1, Event.send (ascii "ist") 2, Event.send (ascii "t") 1]
      ∧ wire (short_events (ascii "list") [1, 2, 1]) = ascii "list" :=
  ⟨(short_writes_complete (World.init [1, 2, 1, 2] []) (ascii "list") [1, 2, 1] [2]
      (by decide) (by simp [short_writes, ascii_list]) rfl).2.2.2.2 2 [] rfl (by decide),
   by decide,
   (short_writes_complete (World.init [1, 2, 1, 2] []) (ascii "list") [1, 2, 1] [2]
      (by decide) (by simp [short_writes, ascii_list]) rfl).2.2.1⟩

/-- C18: embedded NUL truncation. For every received chunk (at most 127 bytes) that holds
a zero byte, the request the command interpreter sees is what stands before the first
zero byte: two such chunks with the same bytes before it are answered alike, with the
same calls after the `recv` and the same outcome. So "list" followed by a zero byte
and anything is executed as the List command, `name_j ++ " on"` (or `" off"`)
followed by a zero byte and anything sets actuator `j` (names pairwise distinct), and
a chunk that begins with a zero byte is dispatched as the empty request and answered
with the usage block. -/
theorem nul_truncation (names : List (List Byte)) (hwf : ∀ n ∈ names, (0 : Byte) ∉ n)
    (hnd : names.Nodup) (w : World) (rest : List Delivery) :
    (∀ chunk, (0 : Byte) ∈ chunk → chunk.length ≤ 127 →
        w.sock = Delivery.data chunk :: rest →
        get_request w
            = ({ w with sock := rest, buf := buf_after chunk w.buf,
                        trace := w.trace ++ [Event.recv chunk.length chunk] }, some 0)
          ∧ cstr (get_request w).1.buf = chunk.takeWhile (fun c => c ≠ 0)
          ∧ ∀ (chunk' : List Byte) (w' : World), (0 : Byte) ∈ chunk' → chunk'.length ≤ 127 →
              chunk'.takeWhile (fun c => c ≠ 0) = chunk.takeWhile (fun c => c ≠ 0) →
              w'.sock = Delivery.data chunk' :: rest → w'.sends = w.sends →
              w'.sets = w.sets →
              (serve_step names w).2 = (serve_step names w').2
                ∧ ∃ evs,
                    (serve_step names w).1.trace
                        = w.trace ++ Event.recv chunk.length chunk :: evs
                      ∧ (serve_step names w').1.trace
                        = w'.trace ++ Event.recv chunk'.length chunk' :: evs)
      ∧ (∀ X, (ascii "list" ++ 0 :: X).length ≤ 127 →
          w.sock = Delivery.data (ascii "list" ++ 0 :: X) :: rest →
          serve_step names w
            = ((send_each (names ++ [ascii ""]) (get_request w).1).1,
               Step.after (send_each (names ++ [ascii ""]) (get_request w).1).2))
      ∧ (∀ j (hj : j < names.length) (v : Bool) X,
          (names[j] ++ verb v ++ 0 :: X).length ≤ 127 →
          w.sock = Delivery.data (names[j] ++ verb v ++ 0 :: X) :: rest →
          serve_step names w
            = ((set_and_reply (get_request w).1 j (level v)).1,
               Step.afterScan (set_and_reply (get_request w).1 j (level v)).2))
      ∧ (∀ X, (0 :: X).length ≤ 127 → w.sock = Delivery.data (0 :: X) :: rest →
          cstr (get_request w).1.buf = []
            ∧ serve_step names w
              = ((usage (get_request w).1).1, Step.after (usage (get_request w).1).2)) := by
  refine ⟨?_, ?_, ?_, ?_⟩
  · intro chunk h0 hlen hsock
    obtain ⟨hg, hc⟩ := get_request_nul w chunk rest h0 hlen hsock
    refine ⟨hg, ?_, ?_⟩
    · rw [hg]
      exact hc
    · intro chunk' w' h0' hlen' hsame hsock' hsends hsets
      obtain ⟨hg', hc'⟩ := get_request_nul w' chunk' rest h0' hlen' hsock'
      rw [serve_step_dispatch names w _ hg, serve_step_dispatch names w' _ hg']
      have henv : Env
          { w with sock := rest, buf := buf_after chunk w.buf,
                   trace := w.trace ++ [Event.recv chunk.length chunk] }
          { w' with sock := rest, buf := buf_after chunk' w'.buf,
                    trace := w'.trace ++ [Event.recv chunk'.length chunk'] } :=
        ⟨rfl, hsends.symm, hsets.symm⟩
      obtain ⟨hr, -, evs, ht, ht'⟩ := dispatch_alike names hwf _ _ henv
        (show cstr (buf_after chunk w.buf) = cstr (buf_after chunk' w'.buf) by
          rw [hc, hc']
          exact hsame.symm)
      refine ⟨hr, evs, ?_, ?_⟩
      · rw [ht]
        simp
      · rw [ht']
        simp
  · intro X hlen hsock
    obtain ⟨hg, hc⟩ := get_request_nul w _ rest (by simp) hlen hsock
    rw [hg]
    refine serve_step_list_each names w _ hg ?_
    show cstr (buf_after _ _) = _
    rw [hc, cstr_append_zero, cstr_of_not_mem (by decide)]
  · intro j hj v X hlen hsock
    obtain ⟨hg, hc⟩ := get_request_nul w _ rest (by simp) hlen hsock
    have h0 : (0 : Byte) ∉ names[j] ++ verb v := by
      simp only [List.mem_append, not_or]
      exact ⟨hwf _ (List.getElem_mem hj), verb_not_mem v⟩
    have hc2 : cstr (buf_after (names[j] ++ verb v ++ 0 :: X) w.buf) = names[j] ++ verb v := by
      rw [hc, cstr_append_zero, cstr_of_not_mem h0]
    rw [hg]
    refine serve_step_set names hwf w _ hg j hj v hc2 ?_
    intro n hn v'
    show cstr (buf_after _ _) ≠ _
    rw [hc2]
    exact nodup_first names hnd j hj v n hn v'
  · intro X hlen hsock
    obtain ⟨hg, hc⟩ := get_request_nul w _ rest (by simp) hlen hsock
    have hc2 : cstr (buf_after (0 :: X) w.buf) = [] := by
      rw [hc, cstr_cons_zero]
    rw [hg]
    refine ⟨hc2, serve_step_unknown names hwf w _ hg ?_ ?_⟩
    · show cstr (buf_after _ _) ≠ _
      rw [hc2]
      decide
    · intro n _ v
      show cstr (buf_after _ _) ≠ _
      rw [hc2]
      cases v <;> simp [verb, ascii_on, ascii_off]

theorem nul_truncation_witness :
    serve_step [ascii "led0", ascii "led1"]
        (World.example [ascii "led1 on" ++ 0 :: ascii "junk\r\n"] [2, 2, 2] [0])
      = ((set_and_reply
            (get_request
              (World.example [ascii "led1 on" ++ 0 :: ascii "junk\r\n"] [2, 2, 2] [0])).1
            1 (level true)).1,
         Step.afterScan
           (set_and_reply
             (get_request
               (World.example [ascii "led1 on" ++ 0 :: ascii "junk\r\n"] [2, 2, 2] [0])).1
             1 (level true)).2)
      ∧ (serve_step [ascii "led0", ascii "led1"]
          (World.example [ascii "led1 on" ++ 0 :: ascii "junk\r\n"] [2, 2, 2] [0])).1.trace
        = [Event.recv 14 (ascii "led1 on" ++ 0 :: ascii "junk\r\n"),
           Event.gpio_pin_set 1 1 0, Event.send (ascii "OK") 2, Event.send [10, 0] 2,
           Event.send [10, 0] 2]
      ∧ (serve_step [ascii "led0", ascii "led1"]
          (World.example [ascii "list" ++ 0 :: ascii "led1 on"] [4, 2, 4, 2, 2] [0])).1.trace
        = [Event.recv 12 (ascii "list" ++ 0 :: ascii "led1 on"),
           Event.send (ascii "led0") 4, Event.send [10, 0] 2,
           Event.send (ascii "led1") 4, Event.send [10, 0] 2, Event.send [10, 0] 2] :=
  ⟨(nul_truncation [ascii "led0", ascii "led1"] (by decide) (by decide)
      (World.example [ascii "led1 on" ++ 0 :: ascii "junk\r\n"] [2, 2, 2] [0]) []).2.2.1
      1 (by decide) true (ascii "junk\r\n") (by decide) rfl,
   by decide!, by decide!⟩

end LedNetworkControl
